import Mathlib

/-!
# quick-lint-js: trace writer and instance tracker

A shallow embedding of `src/quick-lint-js/logging/trace-writer.cpp` and of
`src/quick-lint-js/util/instance-tracker.h`.

* Bytes and machine integers are natural numbers; a `uint8_t` parameter keeps
  its argument modulo `2^8`, a `uint64_t` parameter modulo `2^64`.
* The writer borrows an `Async_Byte_Queue`; every operation takes the queue
  and returns the queue after the call, or `none` when the process is
  terminated by a failed assertion or a failed range-checked cast.
* `binary-writer.h`, `async-byte-queue.h`, `trace-writer.h` and the cast and
  search helpers are not among the sources; they are modelled from the
  specification, and each such definition says so.
-/

namespace quick_lint_js

/-! ## Binary writer -/

/-- Modelled from the spec: `Binary_Writer` (binary-writer.h is missing),
"stateless except for a cursor into a caller-provided byte region". The model
keeps the bytes written since construction; the cursor is their number. -/
structure Binary_Writer where
  written : List Nat
deriving DecidableEq, Repr

/-- The `k` low-order base-256 digits of `v`, least significant first: the
loop a little-endian store runs. -/
def le_bytes : Nat → Nat → List Nat
  | 0, _ => []
  | k + 1, v => v % 256 :: le_bytes k (v / 256)

/-- Modelled from the spec: `Binary_Writer::u8`, "emit 1 byte". -/
def Binary_Writer.u8 (w : Binary_Writer) (data : Nat) : Binary_Writer :=
  ⟨w.written ++ [data % 256]⟩

/-- Modelled from the spec: `Binary_Writer::u64_le`, "emit 8 bytes, least
significant byte first". -/
def Binary_Writer.u64_le (w : Binary_Writer) (data : Nat) : Binary_Writer :=
  ⟨w.written ++ le_bytes 8 data⟩

/-- Number of bytes written through the writer: the distance the cursor has
moved. -/
def Binary_Writer.bytes_written (w : Binary_Writer) : Nat :=
  w.written.length

/-! ## Asynchronous byte queue -/

/-- One producer-side call on the queue, with the byte count it was given. -/
inductive Queue_Call where
  | append_copy (n : Nat)
  | append_with_writer (n : Nat)
deriving DecidableEq, Repr

/-- Modelled from the spec: `Async_Byte_Queue` (async-byte-queue.h is
missing), "an ordered sequence of bytes with two logical positions":
`producer_end` is `bytes.length`, `commit_end` bounds what the consumer may
see, `consumer_head` is what it has taken. `calls` records the producer-side
calls in order; no operation reads it. -/
structure Async_Byte_Queue where
  bytes : List Nat
  commit_end : Nat
  consumer_head : Nat
  calls : List Queue_Call
deriving DecidableEq, Repr

/-- The queue a writer starts on. -/
def Async_Byte_Queue.empty : Async_Byte_Queue :=
  ⟨[], 0, 0, []⟩

/-- Modelled from the spec: `append_copy(bytes, n)`, "copy n bytes into the
queue at producer_end". -/
def Async_Byte_Queue.append_copy (q : Async_Byte_Queue) (data : List Nat) :
    Async_Byte_Queue :=
  { q with bytes := q.bytes ++ data
           calls := q.calls ++ [Queue_Call.append_copy data.length] }

/-- Modelled from the spec: `append_copy(byte)`, "same with n = 1". -/
def Async_Byte_Queue.append_copy_byte (q : Async_Byte_Queue) (b : Nat) :
    Async_Byte_Queue :=
  q.append_copy [b]

/-- Modelled from the spec: `append_with_writer(n, fill)`, "reserve a
contiguous region of exactly n bytes, supply it to fill via a Binary Writer";
"fill must write exactly n bytes", a mismatch "is a precondition violation and
fatal". The callback may itself terminate the process. -/
def Async_Byte_Queue.append_with_writer (q : Async_Byte_Queue) (n : Nat)
    (fill : Binary_Writer → Option Binary_Writer) : Option Async_Byte_Queue :=
  match fill ⟨[]⟩ with
  | none => none
  | some w =>
    if w.bytes_written = n then
      some { q with bytes := q.bytes ++ w.written
                    calls := q.calls ++ [Queue_Call.append_with_writer n] }
    else none

/-- Modelled from the spec: `commit()`, "advance commit_end to current
producer_end". -/
def Async_Byte_Queue.commit (q : Async_Byte_Queue) : Async_Byte_Queue :=
  { q with commit_end := q.bytes.length }

/-- Modelled from the spec: `take_committed`, "hand the consumer the bytes in
[consumer_head, commit_end)" and advance `consumer_head`. -/
def Async_Byte_Queue.take_committed (q : Async_Byte_Queue) :
    List Nat × Async_Byte_Queue :=
  ((q.bytes.take q.commit_end).drop q.consumer_head,
   { q with consumer_head := q.commit_end })

/-! ## Helpers of the writer -/

/-- Modelled from the spec: `narrow_cast` to a 64-bit unsigned type
(`std::uint64_t`, `Async_Byte_Queue::Size_Type`), "a range-checked cast that
is fatal on overflow". -/
def narrow_cast (n : Nat) : Option Nat :=
  if n < 2 ^ 64 then some n else none

/-- Modelled from the spec: `contains(s, c)` on a string view. -/
def contains (s : List Nat) (c : Nat) : Bool :=
  s.any (fun x => x == c)

/-- Modelled from the spec: `QLJS_ASSERT`, fatal when the condition is
false. -/
def QLJS_ASSERT (cond : Bool) : Option Unit :=
  if cond then some () else none

/-! ## Trace writer: data -/

/-- Per-stream metadata (`thread_id` is a `std::uint64_t`). -/
structure Trace_Context where
  thread_id : Nat
deriving DecidableEq, Repr

/-- Fields shared by every event (`timestamp` is a `std::uint64_t`). -/
structure Trace_Event_Header where
  timestamp : Nat
deriving DecidableEq, Repr

/-- Init event: `id` is a `std::uint8_t`, `version` a string view. -/
structure Trace_Event_Init where
  id : Nat
  version : List Nat
deriving DecidableEq, Repr

/-- LSP client-to-server message event. -/
structure Trace_Event_LSP_Client_To_Server_Message where
  id : Nat
  body : List Nat
deriving DecidableEq, Repr

/-- Vector max-size histogram event: each entry is an owner name with its
buckets `(max_size, count)`. -/
structure Trace_Event_Vector_Max_Size_Histogram_By_Owner where
  id : Nat
  entries : List (List Nat × List (Nat × Nat))
deriving DecidableEq, Repr

/-- Process ID event. -/
structure Trace_Event_Process_ID where
  id : Nat
  process_id : Nat
deriving DecidableEq, Repr

/-- State of one LSP document. -/
structure Trace_LSP_Document_State where
  type : Nat
  uri : List Nat
  text : List Nat
  language_id : List Nat
deriving DecidableEq, Repr

/-- LSP documents event. -/
structure Trace_Event_LSP_Documents where
  id : Nat
  documents : List Trace_LSP_Document_State
deriving DecidableEq, Repr

/-! ## Trace writer: operations -/

namespace Trace_Writer

/-- Modelled from the spec: `Trace_Writer::append_binary` (trace-writer.h is
missing): scalar spans are "emitted through a single append_with_writer call
... with a pre-computed exact byte size". -/
def append_binary (out : Async_Byte_Queue) (size : Nat)
    (callback : Binary_Writer → Option Binary_Writer) : Option Async_Byte_Queue :=
  out.append_with_writer size callback

/-- `Trace_Writer::commit`. -/
def commit (out : Async_Byte_Queue) : Async_Byte_Queue :=
  out.commit

/-- The static array `trace_header` of `write_header`. -/
def trace_header : List Nat :=
  [ -- CTF magic
    0xc1, 0x1f, 0xfc, 0xc1,
    -- quick-lint-js metadata UUID
    0x71, 0x75, 0x69, 0x63, 0x6b, 0x2d, 0x5f, 0x49,
    0x3e, 0xb9, 0x6c, 0x69, 0x6e, 0x74, 0x6a, 0x73 ]

/-- `Trace_Writer::write_header`. -/
def write_header (out : Async_Byte_Queue) (context : Trace_Context) :
    Option Async_Byte_Queue :=
  let out := out.append_copy trace_header
  append_binary out (8 + 1) (fun w =>
    let w := w.u64_le context.thread_id
    let w := w.u8 0x00  -- Compression mode
    some w)

/-- `Trace_Writer::write_event_init`. -/
def write_event_init (out : Async_Byte_Queue) (header : Trace_Event_Header)
    (event : Trace_Event_Init) : Option Async_Byte_Queue := do
  QLJS_ASSERT (!contains event.version 0)
  let out ← append_binary out (8 + 1) (fun w =>
    let w := w.u64_le header.timestamp
    let w := w.u8 event.id
    some w)
  let out := out.append_copy event.version
  let out := out.append_copy_byte 0
  pure out

/-- `Trace_Writer::write_event_lsp_client_to_server_message`. -/
def write_event_lsp_client_to_server_message (out : Async_Byte_Queue)
    (header : Trace_Event_Header)
    (event : Trace_Event_LSP_Client_To_Server_Message) :
    Option Async_Byte_Queue := do
  let out ← append_binary out (8 + 1 + 8) (fun w =>
    let w := w.u64_le header.timestamp
    let w := w.u8 event.id
    let w := w.u64_le event.body.length
    some w)
  let out := out.append_copy event.body
  pure out

/-- `Trace_Writer::write_event_vector_max_size_histogram_by_owner`. The size
handed to `append_binary` is computed in `Async_Byte_Queue::Size_Type`, a
64-bit unsigned type. -/
def write_event_vector_max_size_histogram_by_owner (out : Async_Byte_Queue)
    (header : Trace_Event_Header)
    (event : Trace_Event_Vector_Max_Size_Histogram_By_Owner) :
    Option Async_Byte_Queue := do
  let out ← append_binary out (8 + 1 + 8) (fun w => do
    let w := w.u64_le header.timestamp
    let w := w.u8 event.id
    let w := w.u64_le (← narrow_cast event.entries.length)
    pure w)
  event.entries.foldlM (fun out entry => do
    let (owner, max_size_histogram) := entry
    let out := out.append_copy owner
    let out := out.append_copy_byte 0
    append_binary out
      ((8 + (8 + 8) * (← narrow_cast max_size_histogram.length)) % 2 ^ 64)
      (fun w => do
        let w := w.u64_le (← narrow_cast max_size_histogram.length)
        max_size_histogram.foldlM (fun w bucket => do
          let (max_size, count) := bucket
          let w := w.u64_le max_size
          let w := w.u64_le (← narrow_cast count)
          pure w) w)) out

/-- `Trace_Writer::write_event_process_id`. -/
def write_event_process_id (out : Async_Byte_Queue) (header : Trace_Event_Header)
    (event : Trace_Event_Process_ID) : Option Async_Byte_Queue :=
  append_binary out (8 + 1 + 8) (fun w =>
    let w := w.u64_le header.timestamp
    let w := w.u8 event.id
    let w := w.u64_le event.process_id
    some w)

/-- `Trace_Writer::write_utf8_string`. -/
def write_utf8_string (out : Async_Byte_Queue) (s : List Nat) :
    Option Async_Byte_Queue := do
  let out ← append_binary out 8 (fun w => some (w.u64_le s.length))
  pure (out.append_copy s)

/-- `Trace_Writer::write_event_lsp_documents`. -/
def write_event_lsp_documents (out : Async_Byte_Queue) (header : Trace_Event_Header)
    (event : Trace_Event_LSP_Documents) : Option Async_Byte_Queue := do
  let out ← append_binary out (8 + 1 + 8) (fun w => do
    let w := w.u64_le header.timestamp
    let w := w.u8 event.id
    let w := w.u64_le (← narrow_cast event.documents.length)
    pure w)
  event.documents.foldlM (fun out doc => do
    let out ← append_binary out 1 (fun w => some (w.u8 doc.type))
    let out ← write_utf8_string out doc.uri
    let out ← write_utf8_string out doc.text
    let out ← write_utf8_string out doc.language_id
    pure out) out

end Trace_Writer

/-- The five event variants with their payloads. The source has one
operation per variant; this sum type names "an event of any variant". -/
inductive Trace_Event where
  | init (event : Trace_Event_Init)
  | lsp_client_to_server_message (event : Trace_Event_LSP_Client_To_Server_Message)
  | vector_max_size_histogram_by_owner
      (event : Trace_Event_Vector_Max_Size_Histogram_By_Owner)
  | process_id (event : Trace_Event_Process_ID)
  | lsp_documents (event : Trace_Event_LSP_Documents)
deriving DecidableEq, Repr

/-- The `id` field of the event struct. -/
def Trace_Event.id : Trace_Event → Nat
  | .init event => event.id
  | .lsp_client_to_server_message event => event.id
  | .vector_max_size_histogram_by_owner event => event.id
  | .process_id event => event.id
  | .lsp_documents event => event.id

/-- The `write_event_*` operation matching the variant of the event. -/
def Trace_Writer.write_event (out : Async_Byte_Queue) (header : Trace_Event_Header) :
    Trace_Event → Option Async_Byte_Queue
  | .init event => Trace_Writer.write_event_init out header event
  | .lsp_client_to_server_message event =>
    Trace_Writer.write_event_lsp_client_to_server_message out header event
  | .vector_max_size_histogram_by_owner event =>
    Trace_Writer.write_event_vector_max_size_histogram_by_owner out header event
  | .process_id event => Trace_Writer.write_event_process_id out header event
  | .lsp_documents event => Trace_Writer.write_event_lsp_documents out header event

/-! ## Value ranges of the C++ types

The embedding uses unbounded naturals and lists. These predicates say that a
value fits the C++ type it has in the source: `std::uint8_t`, `std::uint64_t`,
and containers whose element count (and byte size) fits `std::size_t`. -/

/-- A histogram entry fits its types: the bucket block `8 + 16 * n` fits
`Size_Type` and every count fits `std::uint64_t`. -/
def entry_in_range (entry : List Nat × List (Nat × Nat)) : Prop :=
  8 + 16 * entry.2.length < 2 ^ 64 ∧ ∀ bucket ∈ entry.2, bucket.2 < 2 ^ 64

instance (entry : List Nat × List (Nat × Nat)) : Decidable (entry_in_range entry) := by
  unfold entry_in_range; infer_instance

/-- A histogram event fits its types. -/
def Trace_Event_Vector_Max_Size_Histogram_By_Owner.in_range
    (event : Trace_Event_Vector_Max_Size_Histogram_By_Owner) : Prop :=
  event.entries.length < 2 ^ 64 ∧ ∀ entry ∈ event.entries, entry_in_range entry

instance (event : Trace_Event_Vector_Max_Size_Histogram_By_Owner) :
    Decidable event.in_range := by
  unfold Trace_Event_Vector_Max_Size_Histogram_By_Owner.in_range; infer_instance

/-! ## Wire format of the specification

Byte layouts written after the words of the specification (sections 3.3 and
6.1), to compare with what the operations append. -/

/-- Value `v` as "u64 LE": byte `i` of the eight is the `i`-th base-256 digit
of `v`, least significant first. -/
def u64_le_bytes (v : Nat) : List Nat :=
  (List.range 8).map (fun i => v / 256 ^ i % 256)

/-- "Nul-terminated string": raw bytes followed by one `0x00` byte. -/
def nul_terminated (s : List Nat) : List Nat :=
  s ++ [0]

/-- "Length-prefixed string": `length` u64 LE, then exactly `length` bytes. -/
def length_prefixed (s : List Nat) : List Nat :=
  u64_le_bytes s.length ++ s

/-- One histogram bucket: `max_size` u64 LE, `count` u64 LE. -/
def bucket_bytes (bucket : Nat × Nat) : List Nat :=
  u64_le_bytes bucket.1 ++ u64_le_bytes bucket.2

/-- One histogram entry: nul-terminated owner name, `bucket_count` u64 LE,
then the buckets in order. -/
def entry_bytes (entry : List Nat × List (Nat × Nat)) : List Nat :=
  nul_terminated entry.1 ++ u64_le_bytes entry.2.length ++ entry.2.flatMap bucket_bytes

/-- One document: `type` u8, then `uri`, `text`, `language_id`, each
length-prefixed. -/
def document_bytes (doc : Trace_LSP_Document_State) : List Nat :=
  [doc.type] ++ length_prefixed doc.uri ++ length_prefixed doc.text
    ++ length_prefixed doc.language_id

/-! ## Reading the wire format of the specification

Readers written after the grammar of the specification. Each takes the input
bytes and returns the value read with the bytes that remain, or `none` when
the input is too short. -/

/-- Value of a little-endian digit string. -/
def read_le : List Nat → Nat
  | [] => 0
  | b :: bs => b + 256 * read_le bs

/-- Read "u64 LE": the next eight bytes as a little-endian number. -/
def read_u64_le (bs : List Nat) : Option (Nat × List Nat) :=
  if 8 ≤ bs.length then some (read_le (bs.take 8), bs.drop 8) else none

/-- Read "u8": the next byte. -/
def read_u8 : List Nat → Option (Nat × List Nat)
  | [] => none
  | b :: bs => some (b, bs)

/-- Read exactly `n` raw bytes. -/
def read_bytes (n : Nat) (bs : List Nat) : Option (List Nat × List Nat) :=
  if n ≤ bs.length then some (bs.take n, bs.drop n) else none

/-- Read a "nul-terminated string": the bytes before the first `0x00`, which
is consumed. -/
def read_nul_terminated : List Nat → Option (List Nat × List Nat)
  | [] => none
  | b :: bs =>
    if b = 0 then some ([], bs)
    else
      match read_nul_terminated bs with
      | none => none
      | some (s, rest) => some (b :: s, rest)

/-- Read a "length-prefixed string": `length` u64 LE, then exactly `length`
bytes. -/
def read_length_prefixed (bs : List Nat) : Option (List Nat × List Nat) :=
  match read_u64_le bs with
  | none => none
  | some (n, rest) => read_bytes n rest

/-- Read `n` items one after the other. -/
def read_many {α : Type} (item : List Nat → Option (α × List Nat)) :
    Nat → List Nat → Option (List α × List Nat)
  | 0, bs => some ([], bs)
  | n + 1, bs =>
    match item bs with
    | none => none
    | some (x, rest) =>
      match read_many item n rest with
      | none => none
      | some (xs, rest) => some (x :: xs, rest)

/-- Read the event header: `timestamp` u64 LE, `event_id` u8. -/
def read_event_header (bs : List Nat) : Option ((Trace_Event_Header × Nat) × List Nat) :=
  match read_u64_le bs with
  | none => none
  | some (timestamp, rest) =>
    match read_u8 rest with
    | none => none
    | some (id, rest) => some ((⟨timestamp⟩, id), rest)

/-- Read one histogram bucket: `max_size` u64 LE, `count` u64 LE. -/
def read_bucket (bs : List Nat) : Option ((Nat × Nat) × List Nat) :=
  match read_u64_le bs with
  | none => none
  | some (max_size, rest) =>
    match read_u64_le rest with
    | none => none
    | some (count, rest) => some ((max_size, count), rest)

/-- Read one histogram entry: nul-terminated owner name, `bucket_count` u64
LE, then `bucket_count` buckets. -/
def read_entry (bs : List Nat) : Option ((List Nat × List (Nat × Nat)) × List Nat) :=
  match read_nul_terminated bs with
  | none => none
  | some (owner, rest) =>
    match read_u64_le rest with
    | none => none
    | some (bucket_count, rest) =>
      match read_many read_bucket bucket_count rest with
      | none => none
      | some (buckets, rest) => some ((owner, buckets), rest)

/-- Read one document: `type` u8, then `uri`, `text`, `language_id`, each
length-prefixed. -/
def read_document (bs : List Nat) : Option (Trace_LSP_Document_State × List Nat) :=
  match read_u8 bs with
  | none => none
  | some (type, rest) =>
    match read_length_prefixed rest with
    | none => none
    | some (uri, rest) =>
      match read_length_prefixed rest with
      | none => none
      | some (text, rest) =>
        match read_length_prefixed rest with
        | none => none
        | some (language_id, rest) => some (⟨type, uri, text, language_id⟩, rest)

/-- Names of the five variants: the grammar to decode under. -/
inductive Trace_Event_Variant where
  | init
  | lsp_client_to_server_message
  | vector_max_size_histogram_by_owner
  | process_id
  | lsp_documents
deriving DecidableEq, Repr

/-- Variant of an event. -/
def Trace_Event.variant : Trace_Event → Trace_Event_Variant
  | .init _ => .init
  | .lsp_client_to_server_message _ => .lsp_client_to_server_message
  | .vector_max_size_histogram_by_owner _ => .vector_max_size_histogram_by_owner
  | .process_id _ => .process_id
  | .lsp_documents _ => .lsp_documents

/-- Read the payload of an event of the given variant (section 3.3), the event
header already read. -/
def read_payload (id : Nat) :
    Trace_Event_Variant → List Nat → Option (Trace_Event × List Nat)
  | .init, bs =>
    match read_nul_terminated bs with
    | none => none
    | some (version, rest) => some (.init ⟨id, version⟩, rest)
  | .lsp_client_to_server_message, bs =>
    match read_length_prefixed bs with
    | none => none
    | some (body, rest) => some (.lsp_client_to_server_message ⟨id, body⟩, rest)
  | .vector_max_size_histogram_by_owner, bs =>
    match read_u64_le bs with
    | none => none
    | some (entry_count, rest) =>
      match read_many read_entry entry_count rest with
      | none => none
      | some (entries, rest) =>
        some (.vector_max_size_histogram_by_owner ⟨id, entries⟩, rest)
  | .process_id, bs =>
    match read_u64_le bs with
    | none => none
    | some (process_id, rest) => some (.process_id ⟨id, process_id⟩, rest)
  | .lsp_documents, bs =>
    match read_u64_le bs with
    | none => none
    | some (document_count, rest) =>
      match read_many read_document document_count rest with
      | none => none
      | some (documents, rest) => some (.lsp_documents ⟨id, documents⟩, rest)

/-- Decode one event record of the given variant: `[timestamp u64 LE]
[event_id u8][variant-specific payload]`. -/
def decode_event (variant : Trace_Event_Variant) (bs : List Nat) :
    Option ((Trace_Event_Header × Trace_Event) × List Nat) :=
  match read_event_header bs with
  | none => none
  | some ((header, id), rest) =>
    match read_payload id variant rest with
    | none => none
    | some (event, rest) => some ((header, event), rest)

/-! ## Domains of the operations -/

/-- Events on which the matching operation runs to completion: the assertion
of `write_event_init` holds and every `narrow_cast` and reserved size is in
range. -/
def Trace_Event.accepted : Trace_Event → Prop
  | .init event => 0 ∉ event.version
  | .lsp_client_to_server_message _ => True
  | .vector_max_size_histogram_by_owner event => event.in_range
  | .process_id _ => True
  | .lsp_documents event => event.documents.length < 2 ^ 64

instance (event : Trace_Event) : Decidable event.accepted := by
  cases event <;> (simp only [Trace_Event.accepted]; infer_instance)

/-- A document fits its types: `type` is one byte, string sizes fit
`std::size_t`. -/
def Trace_LSP_Document_State.in_range (doc : Trace_LSP_Document_State) : Prop :=
  doc.type < 256 ∧ doc.uri.length < 2 ^ 64 ∧ doc.text.length < 2 ^ 64
    ∧ doc.language_id.length < 2 ^ 64

instance (doc : Trace_LSP_Document_State) : Decidable doc.in_range := by
  unfold Trace_LSP_Document_State.in_range; infer_instance

/-- The payload of an event fits its types: 64-bit fields below `2^64`,
container sizes within `std::size_t`, document types one byte. -/
def Trace_Event.payload_in_range : Trace_Event → Prop
  | .init _ => True
  | .lsp_client_to_server_message event => event.body.length < 2 ^ 64
  | .vector_max_size_histogram_by_owner event =>
    event.in_range ∧ ∀ entry ∈ event.entries, ∀ bucket ∈ entry.2, bucket.1 < 2 ^ 64
  | .process_id event => event.process_id < 2 ^ 64
  | .lsp_documents event =>
    event.documents.length < 2 ^ 64 ∧ ∀ doc ∈ event.documents, doc.in_range

instance (event : Trace_Event) : Decidable event.payload_in_range := by
  cases event <;> (simp only [Trace_Event.payload_in_range]; infer_instance)

/-- The nul-terminated string fields of the event (init version, histogram
owner names) contain no `0x00` byte. -/
def Trace_Event.nul_free : Trace_Event → Prop
  | .init event => 0 ∉ event.version
  | .vector_max_size_histogram_by_owner event => ∀ entry ∈ event.entries, 0 ∉ entry.1
  | _ => True

instance (event : Trace_Event) : Decidable event.nul_free := by
  cases event <;> (simp only [Trace_Event.nul_free]; infer_instance)

/-! ## Vocabulary for stating what an operation did -/

/-- The queue after the producer appended `data` through the calls `cs`. -/
def Async_Byte_Queue.extended (q : Async_Byte_Queue) (data : List Nat)
    (cs : List Queue_Call) : Async_Byte_Queue :=
  { q with bytes := q.bytes ++ data, calls := q.calls ++ cs }

/-- Calls on the queue made for one histogram entry. -/
def entry_calls (entry : List Nat × List (Nat × Nat)) : List Queue_Call :=
  [Queue_Call.append_copy entry.1.length, Queue_Call.append_copy 1,
   Queue_Call.append_with_writer (8 + 16 * entry.2.length)]

/-- Calls on the queue made for one document. -/
def document_calls (doc : Trace_LSP_Document_State) : List Queue_Call :=
  [Queue_Call.append_with_writer 1,
   Queue_Call.append_with_writer 8, Queue_Call.append_copy doc.uri.length,
   Queue_Call.append_with_writer 8, Queue_Call.append_copy doc.text.length,
   Queue_Call.append_with_writer 8, Queue_Call.append_copy doc.language_id.length]

/-- Bytes the matching operation writes for an event: the event header, then
the payload. A `uint8_t` field keeps its value modulo 256. -/
def Trace_Event.wire_bytes (header : Trace_Event_Header) : Trace_Event → List Nat
  | .init event =>
    u64_le_bytes header.timestamp ++ [event.id % 256] ++ event.version ++ [0]
  | .lsp_client_to_server_message event =>
    u64_le_bytes header.timestamp ++ [event.id % 256]
      ++ u64_le_bytes event.body.length ++ event.body
  | .vector_max_size_histogram_by_owner event =>
    u64_le_bytes header.timestamp ++ [event.id % 256]
      ++ u64_le_bytes event.entries.length ++ event.entries.flatMap entry_bytes
  | .process_id event =>
    u64_le_bytes header.timestamp ++ [event.id % 256] ++ u64_le_bytes event.process_id
  | .lsp_documents event =>
    u64_le_bytes header.timestamp ++ [event.id % 256]
      ++ u64_le_bytes event.documents.length
      ++ event.documents.flatMap (fun doc =>
          [doc.type % 256] ++ length_prefixed doc.uri ++ length_prefixed doc.text
            ++ length_prefixed doc.language_id)

/-- Calls on the queue the matching operation makes for an event. -/
def Trace_Event.queue_calls : Trace_Event → List Queue_Call
  | .init event =>
    [Queue_Call.append_with_writer 9, Queue_Call.append_copy event.version.length,
     Queue_Call.append_copy 1]
  | .lsp_client_to_server_message event =>
    [Queue_Call.append_with_writer 17, Queue_Call.append_copy event.body.length]
  | .vector_max_size_histogram_by_owner event =>
    Queue_Call.append_with_writer 17 :: event.entries.flatMap entry_calls
  | .process_id _ => [Queue_Call.append_with_writer 17]
  | .lsp_documents event =>
    Queue_Call.append_with_writer 17 :: event.documents.flatMap document_calls

/-- Some two consecutive calls of the log are both `append_with_writer`. -/
def adjacent_writer_calls : List Queue_Call → Bool
  | [] => false
  | [_] => false
  | a :: b :: rest =>
    match a, b with
    | .append_with_writer _, .append_with_writer _ => true
    | _, _ => adjacent_writer_calls (b :: rest)

/-! ## Sequences of calls on the writer -/

/-- One call of the producer on the writer. -/
inductive Writer_Call where
  | write_header (context : Trace_Context)
  | write_event (header : Trace_Event_Header) (event : Trace_Event)
  | commit
deriving DecidableEq, Repr

/-- Run one call on the writer. -/
def Trace_Writer.call (out : Async_Byte_Queue) : Writer_Call → Option Async_Byte_Queue
  | .write_header context => Trace_Writer.write_header out context
  | .write_event header event => Trace_Writer.write_event out header event
  | .commit => some (Trace_Writer.commit out)

/-- Run the calls one after the other. -/
def Trace_Writer.calls_in_order (out : Async_Byte_Queue) (cs : List Writer_Call) :
    Option Async_Byte_Queue :=
  cs.foldlM Trace_Writer.call out

/-- The call runs to completion. -/
def Writer_Call.accepted : Writer_Call → Prop
  | .write_header _ => True
  | .write_event _ event => event.accepted
  | .commit => True

instance (c : Writer_Call) : Decidable c.accepted := by
  cases c <;> (simp only [Writer_Call.accepted]; infer_instance)

/-- Bytes a call appends, read off a run of the call on the empty queue. -/
def Writer_Call.appended (c : Writer_Call) : List Nat :=
  match Trace_Writer.call Async_Byte_Queue.empty c with
  | some q => q.bytes
  | none => []

/-- What the consumer is handed by `take_committed`. -/
def Async_Byte_Queue.consumer_bytes (q : Async_Byte_Queue) : List Nat :=
  q.take_committed.1

/-! ## Trace writer: what terminates a run, and when

A second embedding of the same operations. Where the first one returns `none`
for a run the process does not survive, this one keeps the cause and the queue
as the producer had left it at that moment. -/

/-- What terminates the process. -/
inductive Fatal where
  | assertion_failed
  | narrow_cast_out_of_range
  | size_mismatch
deriving DecidableEq, Repr

/-- State of a run of an operation: the queue as the producer last left it,
and what terminated the process, if anything did. -/
structure Run where
  out : Async_Byte_Queue
  fatal : Option Fatal
deriving DecidableEq, Repr

/-- Sequencing: the next statement runs only if the process is still alive. -/
def Run.and_then (r : Run) (next : Async_Byte_Queue → Run) : Run :=
  match r.fatal with
  | some _ => r
  | none => next r.out

/-- Forget the cause and the queue of a terminated run. -/
def Run.to_option (r : Run) : Option Async_Byte_Queue :=
  match r.fatal with
  | none => some r.out
  | some _ => none

namespace Checked

/-- Modelled from the spec: `narrow_cast` to a 64-bit unsigned type, "a
range-checked cast that is fatal on overflow". -/
def narrow_cast (n : Nat) : Except Fatal Nat :=
  if n < 2 ^ 64 then .ok n else .error .narrow_cast_out_of_range

/-- Modelled from the spec: `QLJS_ASSERT`, fatal when the condition is
false. -/
def QLJS_ASSERT (out : Async_Byte_Queue) (cond : Bool) : Run :=
  if cond then ⟨out, none⟩ else ⟨out, some .assertion_failed⟩

/-- Modelled from the spec: `append_with_writer(n, fill)`; "fill must write
exactly n bytes", a mismatch "is a precondition violation and fatal". The
producer end advances once the region is filled. -/
def append_with_writer (q : Async_Byte_Queue) (n : Nat)
    (fill : Binary_Writer → Except Fatal Binary_Writer) : Run :=
  match fill ⟨[]⟩ with
  | .error e => ⟨q, some e⟩
  | .ok w =>
    if w.bytes_written = n then
      ⟨{ q with bytes := q.bytes ++ w.written
                calls := q.calls ++ [Queue_Call.append_with_writer n] }, none⟩
    else ⟨q, some .size_mismatch⟩

/-- Modelled from the spec: `Trace_Writer::append_binary` (trace-writer.h is
missing), a single `append_with_writer` call. -/
def append_binary (out : Async_Byte_Queue) (size : Nat)
    (callback : Binary_Writer → Except Fatal Binary_Writer) : Run :=
  append_with_writer out size callback

/-- `Trace_Writer::write_header`. -/
def write_header (out : Async_Byte_Queue) (context : Trace_Context) : Run :=
  let out := out.append_copy Trace_Writer.trace_header
  append_binary out (8 + 1) (fun w =>
    let w := w.u64_le context.thread_id
    let w := w.u8 0x00  -- Compression mode
    .ok w)

/-- `Trace_Writer::write_event_init`. -/
def write_event_init (out : Async_Byte_Queue) (header : Trace_Event_Header)
    (event : Trace_Event_Init) : Run :=
  (QLJS_ASSERT out (!contains event.version 0)).and_then fun out =>
  (append_binary out (8 + 1) (fun w =>
    let w := w.u64_le header.timestamp
    let w := w.u8 event.id
    .ok w)).and_then fun out =>
  let out := out.append_copy event.version
  let out := out.append_copy_byte 0
  ⟨out, none⟩

/-- `Trace_Writer::write_event_lsp_client_to_server_message`. -/
def write_event_lsp_client_to_server_message (out : Async_Byte_Queue)
    (header : Trace_Event_Header)
    (event : Trace_Event_LSP_Client_To_Server_Message) : Run :=
  (append_binary out (8 + 1 + 8) (fun w =>
    let w := w.u64_le header.timestamp
    let w := w.u8 event.id
    let w := w.u64_le event.body.length
    .ok w)).and_then fun out =>
  let out := out.append_copy event.body
  ⟨out, none⟩

/-- The fill callback of the bucket block of one histogram entry (lines 72-78
of trace-writer.cpp). -/
def bucket_block_fill (max_size_histogram : List (Nat × Nat)) (w : Binary_Writer) :
    Except Fatal Binary_Writer := do
  let w := w.u64_le (← narrow_cast max_size_histogram.length)
  max_size_histogram.foldlM (fun w bucket => do
    let (max_size, count) := bucket
    let w := w.u64_le max_size
    let w := w.u64_le (← narrow_cast count)
    pure w) w

/-- `Trace_Writer::write_event_vector_max_size_histogram_by_owner`. The size
handed to `append_binary` is computed in `Async_Byte_Queue::Size_Type`, a
64-bit unsigned type. -/
def write_event_vector_max_size_histogram_by_owner (out : Async_Byte_Queue)
    (header : Trace_Event_Header)
    (event : Trace_Event_Vector_Max_Size_Histogram_By_Owner) : Run :=
  (append_binary out (8 + 1 + 8) (fun w => do
    let w := w.u64_le header.timestamp
    let w := w.u8 event.id
    let w := w.u64_le (← narrow_cast event.entries.length)
    pure w)).and_then fun out =>
  event.entries.foldl (fun (r : Run) entry => r.and_then fun out =>
    let (owner, max_size_histogram) := entry
    let out := out.append_copy owner
    let out := out.append_copy_byte 0
    match narrow_cast max_size_histogram.length with
    | .error e => ⟨out, some e⟩
    | .ok size =>
      append_binary out ((8 + (8 + 8) * size) % 2 ^ 64)
        (bucket_block_fill max_size_histogram)) ⟨out, none⟩

/-- `Trace_Writer::write_event_process_id`. -/
def write_event_process_id (out : Async_Byte_Queue) (header : Trace_Event_Header)
    (event : Trace_Event_Process_ID) : Run :=
  append_binary out (8 + 1 + 8) (fun w =>
    let w := w.u64_le header.timestamp
    let w := w.u8 event.id
    let w := w.u64_le event.process_id
    .ok w)

/-- `Trace_Writer::write_utf8_string`. -/
def write_utf8_string (out : Async_Byte_Queue) (s : List Nat) : Run :=
  (append_binary out 8 (fun w => .ok (w.u64_le s.length))).and_then fun out =>
  ⟨out.append_copy s, none⟩

/-- `Trace_Writer::write_event_lsp_documents`. -/
def write_event_lsp_documents (out : Async_Byte_Queue) (header : Trace_Event_Header)
    (event : Trace_Event_LSP_Documents) : Run :=
  (append_binary out (8 + 1 + 8) (fun w => do
    let w := w.u64_le header.timestamp
    let w := w.u8 event.id
    let w := w.u64_le (← narrow_cast event.documents.length)
    pure w)).and_then fun out =>
  event.documents.foldl (fun (r : Run) doc => r.and_then fun out =>
    (append_binary out 1 (fun w => .ok (w.u8 doc.type))).and_then fun out =>
    (write_utf8_string out doc.uri).and_then fun out =>
    (write_utf8_string out doc.text).and_then fun out =>
    write_utf8_string out doc.language_id) ⟨out, none⟩

/-- The `write_event_*` operation matching the variant of the event. -/
def write_event (out : Async_Byte_Queue) (header : Trace_Event_Header) :
    Trace_Event → Run
  | .init event => write_event_init out header event
  | .lsp_client_to_server_message event =>
    write_event_lsp_client_to_server_message out header event
  | .vector_max_size_histogram_by_owner event =>
    write_event_vector_max_size_histogram_by_owner out header event
  | .process_id event => write_event_process_id out header event
  | .lsp_documents event => write_event_lsp_documents out header event

end Checked

/-- The buckets of every histogram entry, 16 bytes apiece, fit a 64-bit
address space; every other event does. -/
def Trace_Event.buckets_addressable : Trace_Event → Prop
  | .vector_max_size_histogram_by_owner event =>
    ∀ entry ∈ event.entries, 16 * entry.2.length < 2 ^ 64
  | _ => True

instance (event : Trace_Event) : Decidable event.buckets_addressable := by
  cases event <;> (simp only [Trace_Event.buckets_addressable]; infer_instance)

/-! ## Instance tracker

A shallow embedding of `src/quick-lint-js/util/instance-tracker.h`. The static
vector `weak_instances_` is the state; each operation runs under the lock of
`Synchronized`, so operations act on the state one at a time. A
`std::weak_ptr` is modelled by the instance it refers to; whether it has
expired is asked of a liveness predicate, given at each call. -/

/-- Modelled from the spec: `erase_if` of port/vector-erase.h is missing and the
specification is silent on it; it is taken to be C++20 `std::erase_if`: remove
every element that satisfies the predicate, keeping the order of the rest. -/
def erase_if {α : Type} (v : List α) (pred : α → Bool) : List α :=
  v.filter (fun x => !pred x)

/-- State of `Instance_Tracker<Tracked>`: the vector `weak_instances_`. -/
structure Instance_Tracker (Tracked : Type) where
  weak_instances : List Tracked

namespace Instance_Tracker

/-- `std::weak_ptr::expired`. -/
def expired {Tracked : Type} (alive : Tracked → Bool) (weak_instance : Tracked) : Bool :=
  !alive weak_instance

/-- `std::weak_ptr::lock`: the instance, or null once it has expired. -/
def lock {Tracked : Type} (alive : Tracked → Bool) (weak_instance : Tracked) :
    Option Tracked :=
  if alive weak_instance then some weak_instance else none

/-- `Instance_Tracker::sanitize_instances`. -/
def sanitize_instances {Tracked : Type} (alive : Tracked → Bool)
    (weak_instances : Instance_Tracker Tracked) : Instance_Tracker Tracked :=
  ⟨erase_if weak_instances.weak_instances (fun weak_instance => expired alive weak_instance)⟩

/-- `Instance_Tracker::track`. -/
def track {Tracked : Type} (alive : Tracked → Bool)
    (weak_instances : Instance_Tracker Tracked) (new_instance : Tracked) :
    Instance_Tracker Tracked :=
  let weak_instances := sanitize_instances alive weak_instances
  ⟨weak_instances.weak_instances ++ [new_instance]⟩

/-- `Instance_Tracker::instances`: the vector returned, and the state left. -/
def instances {Tracked : Type} (alive : Tracked → Bool)
    (weak_instances : Instance_Tracker Tracked) :
    List Tracked × Instance_Tracker Tracked :=
  let weak_instances := sanitize_instances alive weak_instances
  (weak_instances.weak_instances.foldl (fun instances weak_instance =>
      match lock alive weak_instance with
      | some locked => instances ++ [locked]
      | none => instances) [],
   weak_instances)

/-- A history of `track` calls, each with the liveness at the time of the
call, run in order. -/
def track_all {Tracked : Type} (weak_instances : Instance_Tracker Tracked) :
    List ((Tracked → Bool) × Tracked) → Instance_Tracker Tracked
  | [] => weak_instances
  | (alive, new_instance) :: rest =>
    track_all (track alive weak_instances new_instance) rest

end Instance_Tracker

/-! ## Scalar and opaque spans of a record

The fields of each record after the grammar of the specification (sections 3.3
and 6.1), each with its kind and its size in bytes, to compare with the calls
the writer makes on the queue. -/

/-- Kind of a field of a record: a scalar (an integer of fixed width), or
opaque bytes (magic and identifier, string contents, message bodies, trailing
nul bytes). -/
inductive Span_Kind where
  | scalar
  | opaque_bytes
deriving DecidableEq, Repr

/-- Fields of the stream header: 4-byte magic, 16-byte identifier, `thread_id`
u64, `compression_mode` u8. -/
def spec_header_fields : List (Span_Kind × Nat) :=
  [(.opaque_bytes, 4), (.opaque_bytes, 16), (.scalar, 8), (.scalar, 1)]

/-- Fields of one histogram bucket: `max_size` u64, `count` u64. -/
def spec_bucket_fields (_bucket : Nat × Nat) : List (Span_Kind × Nat) :=
  [(.scalar, 8), (.scalar, 8)]

/-- Fields of one histogram entry: owner name bytes, its trailing nul,
`bucket_count` u64, then the buckets. -/
def spec_entry_fields (entry : List Nat × List (Nat × Nat)) : List (Span_Kind × Nat) :=
  [(.opaque_bytes, entry.1.length), (.opaque_bytes, 1), (.scalar, 8)]
    ++ entry.2.flatMap spec_bucket_fields

/-- Fields of one document: `type` u8, then for each of `uri`, `text`,
`language_id` the length u64 and the string bytes. -/
def spec_document_fields (doc : Trace_LSP_Document_State) : List (Span_Kind × Nat) :=
  [(.scalar, 1),
   (.scalar, 8), (.opaque_bytes, doc.uri.length),
   (.scalar, 8), (.opaque_bytes, doc.text.length),
   (.scalar, 8), (.opaque_bytes, doc.language_id.length)]

/-- Fields of an event record: `timestamp` u64, `event_id` u8, then the payload
of the variant. -/
def Trace_Event.spec_fields : Trace_Event → List (Span_Kind × Nat)
  | .init event =>
    [(.scalar, 8), (.scalar, 1), (.opaque_bytes, event.version.length), (.opaque_bytes, 1)]
  | .lsp_client_to_server_message event =>
    [(.scalar, 8), (.scalar, 1), (.scalar, 8), (.opaque_bytes, event.body.length)]
  | .vector_max_size_histogram_by_owner event =>
    [(.scalar, 8), (.scalar, 1), (.scalar, 8)] ++ event.entries.flatMap spec_entry_fields
  | .process_id _ => [(.scalar, 8), (.scalar, 1), (.scalar, 8)]
  | .lsp_documents event =>
    [(.scalar, 8), (.scalar, 1), (.scalar, 8)]
      ++ event.documents.flatMap spec_document_fields

/-- Fields of what a call on the writer emits. -/
def Writer_Call.spec_fields : Writer_Call → List (Span_Kind × Nat)
  | .write_header _ => spec_header_fields
  | .write_event _ event => event.spec_fields
  | .commit => []

/-- Calls on the queue a call on the writer makes. -/
def Writer_Call.queue_calls : Writer_Call → List Queue_Call
  | .write_header _ => [Queue_Call.append_copy 20, Queue_Call.append_with_writer 9]
  | .write_event _ event => event.queue_calls
  | .commit => []

/-- The maximal contiguous runs of fields of one kind, each with its total
size, in order. -/
def merge_runs : List (Span_Kind × Nat) → List (Span_Kind × Nat)
  | [] => []
  | (kind, n) :: rest =>
    match merge_runs rest with
    | [] => [(kind, n)]
    | (kind2, m) :: tail =>
      if kind = kind2 then (kind, n + m) :: tail else (kind, n) :: (kind2, m) :: tail

/-- The spans a call log emits: every `append_with_writer` call is a scalar
span of its own; consecutive `append_copy` calls together are one opaque
span. -/
def calls_as_spans : List Queue_Call → List (Span_Kind × Nat)
  | [] => []
  | .append_with_writer n :: rest => (.scalar, n) :: calls_as_spans rest
  | .append_copy n :: rest =>
    match calls_as_spans rest with
    | (.opaque_bytes, m) :: tail => (.opaque_bytes, n + m) :: tail
    | spans => (.opaque_bytes, n) :: spans

/-! ## Lemmas: little-endian bytes, queue and binary writer -/

open Trace_Writer

theorem extended_extended (q : Async_Byte_Queue) (d d2 : List Nat) (c c2 : List Queue_Call) :
    (q.extended d c).extended d2 c2 = q.extended (d ++ d2) (c ++ c2) := by
  simp [Async_Byte_Queue.extended]

theorem extended_nil (q : Async_Byte_Queue) : q.extended [] [] = q := by
  simp [Async_Byte_Queue.extended]

theorem u64_le_bytes_length (v : Nat) : (u64_le_bytes v).length = 8 := by
  simp [u64_le_bytes]

theorem le_bytes_eight (v : Nat) : le_bytes 8 v = u64_le_bytes v := by
  simp [le_bytes, u64_le_bytes, List.range, List.range.loop, Nat.div_div_eq_div_mul]

theorem le_bytes_length (k v : Nat) : (le_bytes k v).length = k := by
  induction k generalizing v with
  | zero => rfl
  | succ k ih => simp [le_bytes, ih]

theorem read_le_le_bytes (k v : Nat) : read_le (le_bytes k v) = v % 256 ^ k := by
  induction k generalizing v with
  | zero => simp [le_bytes, read_le, Nat.mod_one]
  | succ k ih =>
    simp only [le_bytes, read_le, ih]
    rw [pow_succ, mul_comm (256 ^ k) 256, Nat.mod_mul]

theorem read_le_u64_le_bytes (v : Nat) (h : v < 2 ^ 64) : read_le (u64_le_bytes v) = v := by
  rw [← le_bytes_eight, read_le_le_bytes]
  exact Nat.mod_eq_of_lt (by norm_num at h ⊢; exact h)

theorem append_copy_eq (q : Async_Byte_Queue) (data : List Nat) :
    q.append_copy data = q.extended data [Queue_Call.append_copy data.length] := rfl

theorem append_copy_byte_eq (q : Async_Byte_Queue) (b : Nat) :
    q.append_copy_byte b = q.extended [b] [Queue_Call.append_copy 1] := rfl

theorem append_binary_eq (q : Async_Byte_Queue) (n : Nat)
    (callback : Binary_Writer → Option Binary_Writer) (data : List Nat)
    (hc : callback ⟨[]⟩ = some ⟨data⟩) :
    append_binary q n callback =
      if data.length = n then some (q.extended data [Queue_Call.append_with_writer n])
      else none := by
  simp [append_binary, Async_Byte_Queue.append_with_writer, hc, Binary_Writer.bytes_written,
    Async_Byte_Queue.extended]

theorem append_binary_none (q : Async_Byte_Queue) (n : Nat)
    (callback : Binary_Writer → Option Binary_Writer)
    (hc : callback ⟨[]⟩ = none) :
    append_binary q n callback = none := by
  simp [append_binary, Async_Byte_Queue.append_with_writer, hc]

theorem write_header_eq (out : Async_Byte_Queue) (context : Trace_Context) :
    write_header out context =
      some (out.extended (trace_header ++ (u64_le_bytes context.thread_id ++ [0]))
        [Queue_Call.append_copy 20, Queue_Call.append_with_writer 9]) := by
  unfold write_header
  simp only []
  rw [append_binary_eq _ _ _ (u64_le_bytes context.thread_id ++ [0])]
  · simp [u64_le_bytes_length, append_copy_eq, extended_extended, trace_header]
  · simp [Binary_Writer.u64_le, Binary_Writer.u8, le_bytes_eight]

theorem write_event_process_id_eq (out : Async_Byte_Queue) (header : Trace_Event_Header)
    (event : Trace_Event_Process_ID) :
    write_event_process_id out header event =
      some (out.extended
        (u64_le_bytes header.timestamp ++ [event.id % 256] ++ u64_le_bytes event.process_id)
        [Queue_Call.append_with_writer 17]) := by
  unfold write_event_process_id
  rw [append_binary_eq _ _ _
    (u64_le_bytes header.timestamp ++ [event.id % 256] ++ u64_le_bytes event.process_id)]
  · simp [u64_le_bytes_length]
  · simp [Binary_Writer.u64_le, Binary_Writer.u8, le_bytes_eight]

theorem write_event_init_eq (out : Async_Byte_Queue) (header : Trace_Event_Header)
    (event : Trace_Event_Init) :
    write_event_init out header event =
      if contains event.version 0 then none
      else some (out.extended
        (u64_le_bytes header.timestamp ++ [event.id % 256] ++ event.version ++ [0])
        [Queue_Call.append_with_writer 9, Queue_Call.append_copy event.version.length,
         Queue_Call.append_copy 1]) := by
  unfold write_event_init
  rw [append_binary_eq _ _ _ (u64_le_bytes header.timestamp ++ [event.id % 256])]
  · cases h : contains event.version 0 <;>
      simp [QLJS_ASSERT, u64_le_bytes_length, append_copy_eq, append_copy_byte_eq,
        extended_extended]
  · simp [Binary_Writer.u64_le, Binary_Writer.u8, le_bytes_eight]

theorem write_event_lsp_client_to_server_message_eq (out : Async_Byte_Queue)
    (header : Trace_Event_Header) (event : Trace_Event_LSP_Client_To_Server_Message) :
    write_event_lsp_client_to_server_message out header event =
      some (out.extended
        (u64_le_bytes header.timestamp ++ [event.id % 256]
          ++ u64_le_bytes event.body.length ++ event.body)
        [Queue_Call.append_with_writer 17, Queue_Call.append_copy event.body.length]) := by
  unfold write_event_lsp_client_to_server_message
  rw [append_binary_eq _ _ _
    (u64_le_bytes header.timestamp ++ [event.id % 256] ++ u64_le_bytes event.body.length)]
  · simp [u64_le_bytes_length, append_copy_eq, extended_extended]
  · simp [Binary_Writer.u64_le, Binary_Writer.u8, le_bytes_eight]

theorem write_utf8_string_eq (out : Async_Byte_Queue) (s : List Nat) :
    write_utf8_string out s =
      some (out.extended (u64_le_bytes s.length ++ s)
        [Queue_Call.append_with_writer 8, Queue_Call.append_copy s.length]) := by
  unfold write_utf8_string
  rw [append_binary_eq _ _ _ (u64_le_bytes s.length)]
  · simp [u64_le_bytes_length, append_copy_eq, extended_extended]
  · simp [Binary_Writer.u64_le, le_bytes_eight]

/-! ## Lemmas: the loops of the writer -/

theorem foldlM_guarded {α β : Type} (P : α → Prop) [DecidablePred P]
    (g : β → α → β) (l : List α) (b : β) :
    l.foldlM (fun b a => if P a then some (g b a) else none) b =
      if ∀ a ∈ l, P a then some (l.foldl g b) else none := by
  induction l generalizing b with
  | nil => simp
  | cons a l ih =>
    simp only [List.foldlM_cons, List.foldl_cons, List.forall_mem_cons]
    by_cases hp : P a
    · simp [hp, ih]
    · simp [hp]

theorem foldlM_some {α β : Type} (g : β → α → β) (l : List α) (b : β) :
    l.foldlM (fun b a => some (g b a)) b = some (l.foldl g b) := by
  induction l generalizing b with
  | nil => simp
  | cons a l ih => simp [ih]

theorem foldl_extended {α : Type} (enc : α → List Nat) (cs : α → List Queue_Call)
    (l : List α) (q : Async_Byte_Queue) :
    l.foldl (fun out a => out.extended (enc a) (cs a)) q =
      q.extended (l.flatMap enc) (l.flatMap cs) := by
  induction l generalizing q with
  | nil => simp [extended_nil]
  | cons a l ih => simp [ih, extended_extended]

theorem narrow_cast_of_lt {n : Nat} (h : n < 2 ^ 64) : narrow_cast n = some n := by
  simp only [narrow_cast, h, if_true]

theorem narrow_cast_of_not_lt {n : Nat} (h : ¬ n < 2 ^ 64) : narrow_cast n = none := by
  simp only [narrow_cast, h, if_false]

theorem document_step_eq :
    (fun (out : Async_Byte_Queue) (doc : Trace_LSP_Document_State) => do
      let out ← append_binary out 1 (fun w => some (w.u8 doc.type))
      let out ← write_utf8_string out doc.uri
      let out ← write_utf8_string out doc.text
      let out ← write_utf8_string out doc.language_id
      pure out) =
    fun out doc => some (out.extended
      ([doc.type % 256] ++ length_prefixed doc.uri ++ length_prefixed doc.text
        ++ length_prefixed doc.language_id) (document_calls doc)) := by
  funext out doc
  rw [append_binary_eq _ _ _ [doc.type % 256]]
  · simp [write_utf8_string_eq, extended_extended, length_prefixed, document_calls]
  · simp [Binary_Writer.u8]

theorem write_event_lsp_documents_eq (out : Async_Byte_Queue) (header : Trace_Event_Header)
    (event : Trace_Event_LSP_Documents) :
    write_event_lsp_documents out header event =
      if event.documents.length < 2 ^ 64 then
        some (out.extended
          (u64_le_bytes header.timestamp ++ [event.id % 256]
            ++ u64_le_bytes event.documents.length
            ++ event.documents.flatMap (fun doc =>
                [doc.type % 256] ++ length_prefixed doc.uri ++ length_prefixed doc.text
                  ++ length_prefixed doc.language_id))
          (Queue_Call.append_with_writer 17 :: event.documents.flatMap document_calls))
      else none := by
  unfold write_event_lsp_documents
  rw [document_step_eq]
  by_cases hn : event.documents.length < 2 ^ 64
  · rw [append_binary_eq _ _ _
      (u64_le_bytes header.timestamp ++ [event.id % 256]
        ++ u64_le_bytes event.documents.length)]
    · simp only [List.append_assoc, List.length_append, u64_le_bytes_length,
        List.length_singleton, if_true, Option.bind_eq_bind, Option.some_bind, hn,
        List.length_cons, List.length_nil]
      rw [foldlM_some, foldl_extended]
      simp [extended_extended]
    · simp [Binary_Writer.u64_le, Binary_Writer.u8, le_bytes_eight, narrow_cast_of_lt hn]
  · rw [append_binary_none]
    · simp only [hn, if_false, Option.bind_eq_bind, Option.none_bind]
    · simp [narrow_cast_of_not_lt hn]

theorem foldl_written (enc : Nat × Nat → List Nat) (l : List (Nat × Nat)) (w : Binary_Writer) :
    l.foldl (fun (w : Binary_Writer) b => (⟨w.written ++ enc b⟩ : Binary_Writer)) w =
      ⟨w.written ++ l.flatMap enc⟩ := by
  induction l generalizing w with
  | nil => simp
  | cons a l ih => simp [ih]

theorem bucket_bytes_length (bucket : Nat × Nat) : (bucket_bytes bucket).length = 16 := by
  simp [bucket_bytes, u64_le_bytes_length]

theorem flatMap_bucket_bytes_length (l : List (Nat × Nat)) :
    (l.flatMap bucket_bytes).length = 16 * l.length := by
  induction l with
  | nil => simp
  | cons a l ih => simp [ih, bucket_bytes_length]; omega

theorem bucket_step_eq :
    (fun (w : Binary_Writer) (bucket : Nat × Nat) => do
      let (max_size, count) := bucket
      let w := w.u64_le max_size
      let w := w.u64_le (← narrow_cast count)
      pure w) =
    fun w bucket =>
      if bucket.2 < 2 ^ 64 then some ⟨w.written ++ bucket_bytes bucket⟩ else none := by
  funext w bucket
  obtain ⟨max_size, count⟩ := bucket
  by_cases h : count < 2 ^ 64
  · simp [-Nat.reducePow, narrow_cast_of_lt h, h, Binary_Writer.u64_le, le_bytes_eight,
      bucket_bytes]
  · simp [-Nat.reducePow, narrow_cast_of_not_lt h, h]

theorem histogram_callback_eq (buckets : List (Nat × Nat)) (h : buckets.length < 2 ^ 64) :
    (do
      let w := (⟨[]⟩ : Binary_Writer).u64_le (← narrow_cast buckets.length)
      buckets.foldlM (fun w bucket => do
        let (max_size, count) := bucket
        let w := w.u64_le max_size
        let w := w.u64_le (← narrow_cast count)
        pure w) w) =
    if ∀ bucket ∈ buckets, bucket.2 < 2 ^ 64 then
      some ⟨u64_le_bytes buckets.length ++ buckets.flatMap bucket_bytes⟩
    else none := by
  rw [bucket_step_eq, narrow_cast_of_lt h]
  simp only [Option.bind_eq_bind, Option.some_bind]
  rw [foldlM_guarded (fun (b : Nat × Nat) => b.2 < 2 ^ 64), foldl_written]
  simp [Binary_Writer.u64_le, le_bytes_eight]

theorem entry_step_eq :
    (fun (out : Async_Byte_Queue) (entry : List Nat × List (Nat × Nat)) => do
      let (owner, max_size_histogram) := entry
      let out := out.append_copy owner
      let out := out.append_copy_byte 0
      append_binary out
        ((8 + (8 + 8) * (← narrow_cast max_size_histogram.length)) % 2 ^ 64)
        (fun w => do
          let w := w.u64_le (← narrow_cast max_size_histogram.length)
          max_size_histogram.foldlM (fun w bucket => do
            let (max_size, count) := bucket
            let w := w.u64_le max_size
            let w := w.u64_le (← narrow_cast count)
            pure w) w)) =
    fun out entry =>
      if entry_in_range entry then
        some (out.extended (entry_bytes entry) (entry_calls entry))
      else none := by
  funext out entry
  obtain ⟨owner, buckets⟩ := entry
  simp only [entry_in_range]
  by_cases hlen : buckets.length < 2 ^ 64
  · simp only [narrow_cast_of_lt hlen, Option.bind_eq_bind, Option.some_bind]
    by_cases hc : ∀ bucket ∈ buckets, bucket.2 < 2 ^ 64
    · rw [append_binary_eq _ _ _ (u64_le_bytes buckets.length ++ buckets.flatMap bucket_bytes)]
      · by_cases hsz : 8 + 16 * buckets.length < 2 ^ 64
        · have hmod : (8 + (8 + 8) * buckets.length) % 2 ^ 64 = 8 + 16 * buckets.length :=
            Nat.mod_eq_of_lt hsz
          rw [hmod, if_pos (by
              simp only [List.length_append, u64_le_bytes_length,
                flatMap_bucket_bytes_length]),
            if_pos ⟨hsz, hc⟩]
          simp [append_copy_eq, append_copy_byte_eq, extended_extended, entry_bytes,
            entry_calls, nul_terminated]
        · have hne : (u64_le_bytes buckets.length ++ buckets.flatMap bucket_bytes).length ≠
              (8 + (8 + 8) * buckets.length) % 2 ^ 64 := by
            have hlt : (8 + (8 + 8) * buckets.length) % 2 ^ 64 < 2 ^ 64 :=
              Nat.mod_lt _ (by norm_num)
            simp only [List.length_append, u64_le_bytes_length, flatMap_bucket_bytes_length]
            omega
          rw [if_neg hne, if_neg (fun h => hsz h.1)]
      · have := histogram_callback_eq buckets hlen
        rw [narrow_cast_of_lt hlen, if_pos hc] at this
        simpa using this
    · rw [append_binary_none, if_neg (fun h => hc h.2)]
      have := histogram_callback_eq buckets hlen
      rw [narrow_cast_of_lt hlen, if_neg hc] at this
      simpa using this
  · have hsz : ¬ 8 + 16 * buckets.length < 2 ^ 64 := by omega
    simp only [narrow_cast_of_not_lt hlen, Option.bind_eq_bind, Option.none_bind]
    rw [if_neg (fun h => hsz h.1)]

theorem write_event_vector_max_size_histogram_by_owner_eq (out : Async_Byte_Queue)
    (header : Trace_Event_Header) (event : Trace_Event_Vector_Max_Size_Histogram_By_Owner) :
    write_event_vector_max_size_histogram_by_owner out header event =
      if event.in_range then
        some (out.extended
          (u64_le_bytes header.timestamp ++ [event.id % 256]
            ++ u64_le_bytes event.entries.length ++ event.entries.flatMap entry_bytes)
          (Queue_Call.append_with_writer 17 :: event.entries.flatMap entry_calls))
      else none := by
  unfold write_event_vector_max_size_histogram_by_owner
  rw [entry_step_eq]
  simp only [Trace_Event_Vector_Max_Size_Histogram_By_Owner.in_range]
  by_cases hn : event.entries.length < 2 ^ 64
  · rw [append_binary_eq _ _ _
      (u64_le_bytes header.timestamp ++ [event.id % 256]
        ++ u64_le_bytes event.entries.length)]
    · simp only [List.append_assoc, List.length_append, u64_le_bytes_length,
        List.length_singleton, if_true, Option.bind_eq_bind, Option.some_bind, hn,
        List.length_cons, List.length_nil, true_and]
      rw [foldlM_guarded entry_in_range, foldl_extended]
      by_cases hall : ∀ entry ∈ event.entries, entry_in_range entry
      · rw [if_pos hall, if_pos hall]
        simp [extended_extended]
      · rw [if_neg hall, if_neg hall]
    · simp [Binary_Writer.u64_le, Binary_Writer.u8, le_bytes_eight, narrow_cast_of_lt hn]
  · rw [append_binary_none]
    · simp only [hn, false_and, if_false, Option.bind_eq_bind, Option.none_bind]
    · simp [narrow_cast_of_not_lt hn]

/-! ## Lemmas: reading back what was written -/

theorem read_u64_le_append (v : Nat) (h : v < 2 ^ 64) (rest : List Nat) :
    read_u64_le (u64_le_bytes v ++ rest) = some (v, rest) := by
  have hlen := u64_le_bytes_length v
  unfold read_u64_le
  rw [if_pos (by simp [hlen])]
  have ht : (u64_le_bytes v ++ rest).take 8 = u64_le_bytes v := by
    rw [← hlen, List.take_left]
  have hd : (u64_le_bytes v ++ rest).drop 8 = rest := by
    rw [← hlen, List.drop_left]
  rw [ht, hd, read_le_u64_le_bytes v h]

theorem read_bytes_append (s rest : List Nat) :
    read_bytes s.length (s ++ rest) = some (s, rest) := by
  simp [read_bytes]

theorem read_length_prefixed_append (s : List Nat) (h : s.length < 2 ^ 64) (rest : List Nat) :
    read_length_prefixed (length_prefixed s ++ rest) = some (s, rest) := by
  unfold read_length_prefixed length_prefixed
  rw [List.append_assoc, read_u64_le_append _ h]
  exact read_bytes_append s rest

theorem read_nul_terminated_append (s : List Nat) (h : contains s 0 = false)
    (rest : List Nat) :
    read_nul_terminated (nul_terminated s ++ rest) = some (s, rest) := by
  induction s with
  | nil => simp [nul_terminated, read_nul_terminated]
  | cons b s ih =>
    simp only [contains, List.any_cons, Bool.or_eq_false_iff, beq_eq_false_iff_ne] at h
    have ih2 := ih (by simpa [contains] using h.2)
    have hcons : nul_terminated (b :: s) ++ rest = b :: (nul_terminated s ++ rest) := rfl
    rw [hcons, read_nul_terminated, if_neg h.1, ih2]

theorem read_many_append {α : Type} (item : List Nat → Option (α × List Nat))
    (enc : α → List Nat) (xs : List α)
    (h : ∀ x ∈ xs, ∀ rest, item (enc x ++ rest) = some (x, rest)) (rest : List Nat) :
    read_many item xs.length (xs.flatMap enc ++ rest) = some (xs, rest) := by
  induction xs with
  | nil => simp [read_many]
  | cons x xs ih =>
    have ih2 := ih (fun y hy => h y (List.mem_cons_of_mem x hy))
    simp only [List.length_cons, List.flatMap_cons, List.append_assoc, read_many]
    rw [h x (List.mem_cons_self x xs)]
    simp only [ih2]

/-! ## Lemmas: domains and decoding -/

theorem contains_eq_false_of_not_mem {s : List Nat} (h : 0 ∉ s) : contains s 0 = false := by
  simp only [contains, List.any_eq_false, beq_iff_eq]
  intro x hx hx0
  exact h (hx0 ▸ hx)

theorem contains_eq_true_of_mem {s : List Nat} (h : 0 ∈ s) : contains s 0 = true := by
  simp only [contains, List.any_eq_true, beq_iff_eq]
  exact ⟨0, h, rfl⟩

theorem write_event_init_of_not_mem (out : Async_Byte_Queue) (header : Trace_Event_Header)
    (event : Trace_Event_Init) (hnul : 0 ∉ event.version) :
    write_event_init out header event =
      some (out.extended
        (u64_le_bytes header.timestamp ++ [event.id % 256] ++ event.version ++ [0])
        [Queue_Call.append_with_writer 9, Queue_Call.append_copy event.version.length,
         Queue_Call.append_copy 1]) := by
  rw [write_event_init_eq, contains_eq_false_of_not_mem hnul]
  rfl

theorem write_event_isSome_iff (out : Async_Byte_Queue) (header : Trace_Event_Header)
    (event : Trace_Event) :
    (write_event out header event).isSome ↔ event.accepted := by
  cases event with
  | init event =>
    simp only [write_event, Trace_Event.accepted, write_event_init_eq]
    by_cases h : 0 ∈ event.version
    · simp [contains_eq_true_of_mem h, h]
    · simp [contains_eq_false_of_not_mem h, h]
  | lsp_client_to_server_message event =>
    simp [write_event, Trace_Event.accepted, write_event_lsp_client_to_server_message_eq]
  | vector_max_size_histogram_by_owner event =>
    simp only [write_event, Trace_Event.accepted,
      write_event_vector_max_size_histogram_by_owner_eq]
    by_cases h : event.in_range
    · simp [h]
    · simp [h]
  | process_id event =>
    simp [write_event, Trace_Event.accepted, write_event_process_id_eq]
  | lsp_documents event =>
    simp only [write_event, Trace_Event.accepted, write_event_lsp_documents_eq]
    by_cases h : event.documents.length < 2 ^ 64
    · rw [if_pos h]; simp [-Nat.reducePow, h]
    · rw [if_neg h]; simp [-Nat.reducePow, h]

theorem write_event_bytes_of_some (out out2 : Async_Byte_Queue) (header : Trace_Event_Header)
    (event : Trace_Event) (h : write_event out header event = some out2) :
    ∃ payload, out2.bytes =
      out.bytes ++ (u64_le_bytes header.timestamp ++ [event.id % 256]) ++ payload := by
  cases event with
  | init event =>
    simp only [write_event, write_event_init_eq] at h
    split at h
    · cases h
    · cases h
      exact ⟨event.version ++ [0], by simp [Async_Byte_Queue.extended, Trace_Event.id]⟩
  | lsp_client_to_server_message event =>
    simp only [write_event, write_event_lsp_client_to_server_message_eq] at h
    cases h
    exact ⟨u64_le_bytes event.body.length ++ event.body,
      by simp [Async_Byte_Queue.extended, Trace_Event.id]⟩
  | vector_max_size_histogram_by_owner event =>
    simp only [write_event, write_event_vector_max_size_histogram_by_owner_eq] at h
    split at h
    · cases h
      exact ⟨u64_le_bytes event.entries.length ++ event.entries.flatMap entry_bytes,
        by simp [Async_Byte_Queue.extended, Trace_Event.id]⟩
    · cases h
  | process_id event =>
    simp only [write_event, write_event_process_id_eq] at h
    cases h
    exact ⟨u64_le_bytes event.process_id, by simp [Async_Byte_Queue.extended, Trace_Event.id]⟩
  | lsp_documents event =>
    simp only [write_event, write_event_lsp_documents_eq] at h
    split at h
    · cases h
      exact ⟨_, by simp only [Async_Byte_Queue.extended, Trace_Event.id, List.append_assoc]; rfl⟩
    · cases h

theorem flatMap_congr_mem {α β : Type} (l : List α) (f g : α → List β)
    (h : ∀ a ∈ l, f a = g a) : l.flatMap f = l.flatMap g := by
  induction l with
  | nil => rfl
  | cons a l ih =>
    simp only [List.flatMap_cons]
    rw [h a (List.mem_cons_self a l), ih (fun x hx => h x (List.mem_cons_of_mem a hx))]

theorem write_event_vector_max_size_histogram_by_owner_of_in_range (out : Async_Byte_Queue)
    (header : Trace_Event_Header) (event : Trace_Event_Vector_Max_Size_Histogram_By_Owner)
    (hrange : event.in_range) :
    write_event_vector_max_size_histogram_by_owner out header event =
      some (out.extended
        (u64_le_bytes header.timestamp ++ [event.id % 256]
          ++ u64_le_bytes event.entries.length ++ event.entries.flatMap entry_bytes)
        (Queue_Call.append_with_writer 17 :: event.entries.flatMap entry_calls)) := by
  rw [write_event_vector_max_size_histogram_by_owner_eq, if_pos hrange]

theorem write_event_lsp_documents_of_in_range (out : Async_Byte_Queue)
    (header : Trace_Event_Header) (event : Trace_Event_LSP_Documents)
    (hlen : event.documents.length < 2 ^ 64)
    (htype : ∀ doc ∈ event.documents, doc.type < 256) :
    write_event_lsp_documents out header event =
      some (out.extended
        (u64_le_bytes header.timestamp ++ [event.id % 256]
          ++ u64_le_bytes event.documents.length ++ event.documents.flatMap document_bytes)
        (Queue_Call.append_with_writer 17 :: event.documents.flatMap document_calls)) := by
  rw [write_event_lsp_documents_eq, if_pos hlen]
  rw [flatMap_congr_mem event.documents _ document_bytes]
  intro doc hdoc
  simp only [document_bytes, Nat.mod_eq_of_lt (htype doc hdoc)]

theorem read_event_header_append (timestamp id : Nat) (hts : timestamp < 2 ^ 64)
    (rest : List Nat) :
    read_event_header (u64_le_bytes timestamp ++ id :: rest) =
      some ((⟨timestamp⟩, id), rest) := by
  unfold read_event_header
  rw [read_u64_le_append _ hts]
  rfl

theorem read_bucket_append (bucket : Nat × Nat) (h1 : bucket.1 < 2 ^ 64)
    (h2 : bucket.2 < 2 ^ 64) (rest : List Nat) :
    read_bucket (bucket_bytes bucket ++ rest) = some (bucket, rest) := by
  unfold read_bucket bucket_bytes
  rw [List.append_assoc, read_u64_le_append _ h1]
  simp only []
  rw [read_u64_le_append _ h2]

theorem read_entry_append (entry : List Nat × List (Nat × Nat)) (hnul : 0 ∉ entry.1)
    (hrange : entry_in_range entry) (hmax : ∀ bucket ∈ entry.2, bucket.1 < 2 ^ 64)
    (rest : List Nat) :
    read_entry (entry_bytes entry ++ rest) = some (entry, rest) := by
  have hlen : entry.2.length < 2 ^ 64 := by
    have := hrange.1
    omega
  unfold read_entry entry_bytes
  rw [List.append_assoc, List.append_assoc,
    read_nul_terminated_append _ (contains_eq_false_of_not_mem hnul)]
  simp only []
  rw [read_u64_le_append _ hlen]
  simp only []
  rw [read_many_append read_bucket bucket_bytes entry.2
    (fun b hb r => read_bucket_append b (hmax b hb) (hrange.2 b hb) r)]

theorem read_document_append (doc : Trace_LSP_Document_State) (hrange : doc.in_range)
    (rest : List Nat) :
    read_document (document_bytes doc ++ rest) = some (doc, rest) := by
  obtain ⟨_, huri, htext, hlang⟩ := hrange
  unfold read_document document_bytes
  simp only [List.append_assoc, List.singleton_append, List.cons_append,
    List.nil_append, read_u8]
  rw [read_length_prefixed_append _ huri]
  simp only []
  rw [read_length_prefixed_append _ htext]
  simp only []
  rw [read_length_prefixed_append _ hlang]

/-! ## The stream header -/

/-- C1: for every thread id, `write_header` appends exactly 29 bytes: C1 1F FC
C1, then 71 75 69 63 6B 2D 5F 49 3E B9 6C 69 6E 74 6A 73, then the eight bytes
of `thread_id` least significant first, then one `0x00` byte. On the empty
queue with `thread_id = 0x0102030405060708`, after `commit`, the consumer takes
exactly C1 1F FC C1 71 75 69 63 6B 2D 5F 49 3E B9 6C 69 6E 74 6A 73 08 07 06 05
04 03 02 01 00. -/
theorem write_header_appends_29_bytes (out : Async_Byte_Queue) (context : Trace_Context) :
    (∃ out2, write_header out context = some out2 ∧
      out2.bytes = out.bytes
        ++ [0xC1, 0x1F, 0xFC, 0xC1,
            0x71, 0x75, 0x69, 0x63, 0x6B, 0x2D, 0x5F, 0x49,
            0x3E, 0xB9, 0x6C, 0x69, 0x6E, 0x74, 0x6A, 0x73]
        ++ u64_le_bytes context.thread_id ++ [0x00] ∧
      out2.bytes.length = out.bytes.length + 29) ∧
    (write_header Async_Byte_Queue.empty ⟨0x0102030405060708⟩).map
        (fun q => (commit q).take_committed.1) =
      some [0xC1, 0x1F, 0xFC, 0xC1,
            0x71, 0x75, 0x69, 0x63, 0x6B, 0x2D, 0x5F, 0x49,
            0x3E, 0xB9, 0x6C, 0x69, 0x6E, 0x74, 0x6A, 0x73,
            0x08, 0x07, 0x06, 0x05, 0x04, 0x03, 0x02, 0x01, 0x00] := by
  constructor
  · refine ⟨_, write_header_eq out context, ?_, ?_⟩
    · simp [Async_Byte_Queue.extended, trace_header]
    · simp [Async_Byte_Queue.extended, trace_header, u64_le_bytes_length]
  · rw [write_header_eq]
    decide

/-- C2, refuted as stated: on the empty queue with thread id 0, `write_header`
runs to completion and leaves 29 bytes in the queue; it does not leave 41. -/
theorem write_header_not_41_bytes :
    (∃ out2, write_header Async_Byte_Queue.empty ⟨0⟩ = some out2 ∧
      out2.bytes.length = Async_Byte_Queue.empty.bytes.length + 29) ∧
    ¬ ∃ out2, write_header Async_Byte_Queue.empty ⟨0⟩ = some out2 ∧
      out2.bytes.length = Async_Byte_Queue.empty.bytes.length + 41 := by
  constructor
  · exact ⟨_, write_header_eq _ _, by decide⟩
  · rintro ⟨out2, h, hlen⟩
    rw [write_header_eq] at h
    cases h
    revert hlen
    decide

/-- C2, amended: for every trace context, `write_header` appends exactly 29
bytes through two calls on the queue: one `append_copy` of the 20-byte
magic/identifier block (4-byte magic followed by the 16-byte quick-lint-js
identifier), then one reservation of the 9-byte context record (`thread_id` as
u64 LE, compression byte 0). -/
theorem write_header_appends_block_then_context (out : Async_Byte_Queue)
    (context : Trace_Context) :
    ∃ out2, write_header out context = some out2 ∧
      out2.bytes = out.bytes
        ++ ([0xC1, 0x1F, 0xFC, 0xC1]
            ++ [0x71, 0x75, 0x69, 0x63, 0x6B, 0x2D, 0x5F, 0x49,
                0x3E, 0xB9, 0x6C, 0x69, 0x6E, 0x74, 0x6A, 0x73])
        ++ (u64_le_bytes context.thread_id ++ [0]) ∧
      out2.calls = out.calls
        ++ [Queue_Call.append_copy (4 + 16), Queue_Call.append_with_writer (8 + 1)] ∧
      (u64_le_bytes context.thread_id ++ [0]).length = 9 ∧
      out2.bytes.length = out.bytes.length + 29 := by
  refine ⟨_, write_header_eq out context, ?_, ?_, ?_, ?_⟩
  · simp [Async_Byte_Queue.extended, trace_header]
  · simp [Async_Byte_Queue.extended]
  · simp [u64_le_bytes_length]
  · simp [Async_Byte_Queue.extended, trace_header, u64_le_bytes_length]

/-! ## Event records -/

/-- C3: for each of the five `write_event_*` operations and every event whose
`id` is a byte, the operation runs to completion exactly on the events it
accepts, and whenever it does, the bytes it appended start with the 9 bytes:
`header.timestamp` as u64 LE, then one byte equal to the event's `id` field,
whatever its value. -/
theorem write_event_starts_with_timestamp_and_id (out : Async_Byte_Queue)
    (header : Trace_Event_Header) (event : Trace_Event) (hid : event.id < 256) :
    ((write_event out header event).isSome ↔ event.accepted) ∧
    (u64_le_bytes header.timestamp ++ [event.id]).length = 9 ∧
    ∀ out2, write_event out header event = some out2 →
      ∃ payload, out2.bytes =
        out.bytes ++ (u64_le_bytes header.timestamp ++ [event.id]) ++ payload := by
  refine ⟨write_event_isSome_iff out header event, by simp [u64_le_bytes_length], ?_⟩
  intro out2 h
  have := write_event_bytes_of_some out out2 header event h
  rwa [Nat.mod_eq_of_lt hid] at this

/-- C3 at a concrete input: an init event with id `0xFF` on the empty queue. -/
theorem write_event_starts_with_timestamp_and_id_witness :
    (Trace_Event.init ⟨0xFF, [0x76]⟩).id < 256 ∧
    ((write_event Async_Byte_Queue.empty ⟨5⟩ (.init ⟨0xFF, [0x76]⟩)).isSome ↔
        (Trace_Event.init ⟨0xFF, [0x76]⟩).accepted) ∧
    (u64_le_bytes 5 ++ [0xFF]).length = 9 ∧
    ∀ out2, write_event Async_Byte_Queue.empty ⟨5⟩ (.init ⟨0xFF, [0x76]⟩) = some out2 →
      ∃ payload, out2.bytes =
        Async_Byte_Queue.empty.bytes ++ (u64_le_bytes 5 ++ [0xFF]) ++ payload :=
  ⟨by decide,
   write_event_starts_with_timestamp_and_id Async_Byte_Queue.empty ⟨5⟩
     (.init ⟨0xFF, [0x76]⟩) (by decide)⟩

/-- C4: for every timestamp, id byte and process id, `write_event_process_id`
appends exactly 17 bytes: the timestamp as u64 LE, the id byte, then the
process id as u64 LE. For timestamp 0, id `0x03`, process id `0x42` the
appended bytes are 00 00 00 00 00 00 00 00 03 42 00 00 00 00 00 00 00. -/
theorem write_event_process_id_appends_17_bytes (out : Async_Byte_Queue)
    (header : Trace_Event_Header) (event : Trace_Event_Process_ID)
    (hid : event.id < 256) :
    (∃ out2, write_event_process_id out header event = some out2 ∧
      out2.bytes = out.bytes ++ u64_le_bytes header.timestamp ++ [event.id]
        ++ u64_le_bytes event.process_id ∧
      out2.bytes.length = out.bytes.length + 17) ∧
    (write_event_process_id out ⟨0⟩ ⟨0x03, 0x42⟩).map (fun q => q.bytes) =
      some (out.bytes ++ [0x00, 0x00, 0x00, 0x00, 0x00, 0x00, 0x00, 0x00, 0x03,
                          0x42, 0x00, 0x00, 0x00, 0x00, 0x00, 0x00, 0x00]) := by
  constructor
  · refine ⟨_, write_event_process_id_eq out header event, ?_, ?_⟩
    · simp [Async_Byte_Queue.extended, Nat.mod_eq_of_lt hid]
    · simp [Async_Byte_Queue.extended, u64_le_bytes_length]
  · rw [write_event_process_id_eq]
    simp [Async_Byte_Queue.extended, u64_le_bytes, List.range, List.range.loop]

/-- C4 at a concrete input: timestamp `2^64 - 1`, id `0xFF`, process id 7 on the
empty queue. -/
theorem write_event_process_id_appends_17_bytes_witness :
    (0xFF : Nat) < 256 ∧
    ((∃ out2, write_event_process_id Async_Byte_Queue.empty ⟨2 ^ 64 - 1⟩ ⟨0xFF, 7⟩
        = some out2 ∧
      out2.bytes = Async_Byte_Queue.empty.bytes ++ u64_le_bytes (2 ^ 64 - 1) ++ [0xFF]
        ++ u64_le_bytes 7 ∧
      out2.bytes.length = Async_Byte_Queue.empty.bytes.length + 17) ∧
    (write_event_process_id Async_Byte_Queue.empty ⟨0⟩ ⟨0x03, 0x42⟩).map (fun q => q.bytes) =
      some (Async_Byte_Queue.empty.bytes
        ++ [0x00, 0x00, 0x00, 0x00, 0x00, 0x00, 0x00, 0x00, 0x03,
            0x42, 0x00, 0x00, 0x00, 0x00, 0x00, 0x00, 0x00])) :=
  ⟨by decide,
   write_event_process_id_appends_17_bytes Async_Byte_Queue.empty ⟨2 ^ 64 - 1⟩ ⟨0xFF, 7⟩
     (by decide)⟩

/-- C5: for every timestamp, id byte and version string with no `0x00` byte,
`write_event_init` appends exactly the timestamp as u64 LE, the id byte, the
bytes of `version` unchanged, then a single `0x00` byte: `10 + |version|` bytes.
For timestamp 1, id `0x01`, version "v1" the appended bytes are
01 00 00 00 00 00 00 00 01 76 31 00. -/
theorem write_event_init_appends_version_nul_terminated (out : Async_Byte_Queue)
    (header : Trace_Event_Header) (event : Trace_Event_Init)
    (hid : event.id < 256) (hnul : 0 ∉ event.version) :
    (∃ out2, write_event_init out header event = some out2 ∧
      out2.bytes = out.bytes ++ u64_le_bytes header.timestamp ++ [event.id]
        ++ event.version ++ [0x00] ∧
      out2.bytes.length = out.bytes.length + (10 + event.version.length)) ∧
    (write_event_init out ⟨1⟩ ⟨0x01, [0x76, 0x31]⟩).map (fun q => q.bytes) =
      some (out.bytes ++ [0x01, 0x00, 0x00, 0x00, 0x00, 0x00, 0x00, 0x00, 0x01,
                          0x76, 0x31, 0x00]) := by
  constructor
  · refine ⟨_, write_event_init_of_not_mem out header event hnul, ?_, ?_⟩
    · simp [Async_Byte_Queue.extended, Nat.mod_eq_of_lt hid]
    · simp [Async_Byte_Queue.extended, u64_le_bytes_length]
      omega
  · rw [write_event_init_eq]
    simp [contains, Async_Byte_Queue.extended, u64_le_bytes, List.range, List.range.loop]

/-- C5 at a concrete input: the empty version string, id `0x01`, timestamp 9 on
the empty queue. -/
theorem write_event_init_appends_version_nul_terminated_witness :
    (0x01 : Nat) < 256 ∧ 0 ∉ ([] : List Nat) ∧
    ((∃ out2, write_event_init Async_Byte_Queue.empty ⟨9⟩ ⟨0x01, []⟩ = some out2 ∧
      out2.bytes = Async_Byte_Queue.empty.bytes ++ u64_le_bytes 9 ++ [0x01]
        ++ [] ++ [0x00] ∧
      out2.bytes.length = Async_Byte_Queue.empty.bytes.length + (10 + ([] : List Nat).length)) ∧
    (write_event_init Async_Byte_Queue.empty ⟨1⟩ ⟨0x01, [0x76, 0x31]⟩).map (fun q => q.bytes) =
      some (Async_Byte_Queue.empty.bytes
        ++ [0x01, 0x00, 0x00, 0x00, 0x00, 0x00, 0x00, 0x00, 0x01, 0x76, 0x31, 0x00])) :=
  ⟨by decide, by decide,
   write_event_init_appends_version_nul_terminated Async_Byte_Queue.empty ⟨9⟩ ⟨0x01, []⟩
     (by decide) (by decide)⟩

/-- C6: for every timestamp, id byte and body (embedded `0x00` bytes and the
empty body included), `write_event_lsp_client_to_server_message` appends exactly
the timestamp as u64 LE, the id byte, `|body|` as u64 LE, then the bytes of
`body` unchanged and no terminator. For timestamp 0, id `0x02`, body "{}" the
appended bytes are eight 00 bytes, 02, 02 00 00 00 00 00 00 00, 7B 7D. -/
theorem write_event_lsp_client_to_server_message_appends_sized_body
    (out : Async_Byte_Queue) (header : Trace_Event_Header)
    (event : Trace_Event_LSP_Client_To_Server_Message) (hid : event.id < 256) :
    (∃ out2, write_event_lsp_client_to_server_message out header event = some out2 ∧
      out2.bytes = out.bytes ++ u64_le_bytes header.timestamp ++ [event.id]
        ++ u64_le_bytes event.body.length ++ event.body ∧
      out2.bytes.length = out.bytes.length + (17 + event.body.length)) ∧
    (write_event_lsp_client_to_server_message out ⟨0⟩ ⟨0x02, [0x7B, 0x7D]⟩).map
        (fun q => q.bytes) =
      some (out.bytes ++ [0x00, 0x00, 0x00, 0x00, 0x00, 0x00, 0x00, 0x00, 0x02,
                          0x02, 0x00, 0x00, 0x00, 0x00, 0x00, 0x00, 0x00,
                          0x7B, 0x7D]) := by
  constructor
  · refine ⟨_, write_event_lsp_client_to_server_message_eq out header event, ?_, ?_⟩
    · simp [Async_Byte_Queue.extended, Nat.mod_eq_of_lt hid]
    · simp [Async_Byte_Queue.extended, u64_le_bytes_length]
      omega
  · rw [write_event_lsp_client_to_server_message_eq]
    simp [Async_Byte_Queue.extended, u64_le_bytes, List.range, List.range.loop]

/-- C6 at a concrete input: a body with an embedded `0x00` byte on the empty
queue. -/
theorem write_event_lsp_client_to_server_message_appends_sized_body_witness :
    (0x02 : Nat) < 256 ∧
    ((∃ out2, write_event_lsp_client_to_server_message Async_Byte_Queue.empty ⟨0⟩
        ⟨0x02, [0x61, 0x00, 0x62]⟩ = some out2 ∧
      out2.bytes = Async_Byte_Queue.empty.bytes ++ u64_le_bytes 0 ++ [0x02]
        ++ u64_le_bytes [0x61, 0x00, 0x62].length ++ [0x61, 0x00, 0x62] ∧
      out2.bytes.length = Async_Byte_Queue.empty.bytes.length
        + (17 + [0x61, 0x00, 0x62].length)) ∧
    (write_event_lsp_client_to_server_message Async_Byte_Queue.empty ⟨0⟩
        ⟨0x02, [0x7B, 0x7D]⟩).map (fun q => q.bytes) =
      some (Async_Byte_Queue.empty.bytes
        ++ [0x00, 0x00, 0x00, 0x00, 0x00, 0x00, 0x00, 0x00, 0x02,
            0x02, 0x00, 0x00, 0x00, 0x00, 0x00, 0x00, 0x00,
            0x7B, 0x7D])) :=
  ⟨by decide,
   write_event_lsp_client_to_server_message_appends_sized_body Async_Byte_Queue.empty ⟨0⟩
     ⟨0x02, [0x61, 0x00, 0x62]⟩ (by decide)⟩

/-- C7: for every list of histogram entries that fits its types,
`write_event_vector_max_size_histogram_by_owner` appends the 9-byte event
header, then the entry count as u64 LE, then for each entry in list order: the
owner name bytes, one `0x00` byte, the bucket count as u64 LE, and for each
bucket in order `max_size` as u64 LE followed by `count` as u64 LE. For the
single entry with owner "p" and buckets `[(1,2),(5,3)]` the bytes after the
event header are 01 00*7, 70 00, 02 00*7, 01 00*7, 02 00*7, 05 00*7, 03 00*7. -/
theorem write_event_vector_max_size_histogram_by_owner_layout (out : Async_Byte_Queue)
    (header : Trace_Event_Header) (event : Trace_Event_Vector_Max_Size_Histogram_By_Owner)
    (hid : event.id < 256) (hrange : event.in_range) :
    (∃ out2, write_event_vector_max_size_histogram_by_owner out header event = some out2 ∧
      out2.bytes = out.bytes ++ (u64_le_bytes header.timestamp ++ [event.id])
        ++ u64_le_bytes event.entries.length
        ++ event.entries.flatMap (fun entry =>
            entry.1 ++ [0x00] ++ u64_le_bytes entry.2.length
              ++ entry.2.flatMap (fun bucket =>
                  u64_le_bytes bucket.1 ++ u64_le_bytes bucket.2))) ∧
    (write_event_vector_max_size_histogram_by_owner out header
        ⟨event.id, [([0x70], [(1, 2), (5, 3)])]⟩).map (fun q => q.bytes) =
      some (out.bytes ++ (u64_le_bytes header.timestamp ++ [event.id])
        ++ [0x01, 0x00, 0x00, 0x00, 0x00, 0x00, 0x00, 0x00,
            0x70, 0x00,
            0x02, 0x00, 0x00, 0x00, 0x00, 0x00, 0x00, 0x00,
            0x01, 0x00, 0x00, 0x00, 0x00, 0x00, 0x00, 0x00,
            0x02, 0x00, 0x00, 0x00, 0x00, 0x00, 0x00, 0x00,
            0x05, 0x00, 0x00, 0x00, 0x00, 0x00, 0x00, 0x00,
            0x03, 0x00, 0x00, 0x00, 0x00, 0x00, 0x00, 0x00]) := by
  constructor
  · refine ⟨_, write_event_vector_max_size_histogram_by_owner_of_in_range out header event
      hrange, ?_⟩
    have hfun : entry_bytes = fun entry =>
        entry.1 ++ [0x00] ++ u64_le_bytes entry.2.length
          ++ entry.2.flatMap (fun bucket => u64_le_bytes bucket.1 ++ u64_le_bytes bucket.2) :=
      rfl
    simp only [Async_Byte_Queue.extended, Nat.mod_eq_of_lt hid, List.append_assoc, hfun]
  · rw [write_event_vector_max_size_histogram_by_owner_of_in_range out header _ (by
      unfold Trace_Event_Vector_Max_Size_Histogram_By_Owner.in_range
      dsimp only
      decide)]
    have hpayload : u64_le_bytes ([([0x70], [(1, 2), (5, 3)])] :
          List (List Nat × List (Nat × Nat))).length
          ++ [([0x70], [(1, 2), (5, 3)])].flatMap entry_bytes =
        [0x01, 0x00, 0x00, 0x00, 0x00, 0x00, 0x00, 0x00,
         0x70, 0x00,
         0x02, 0x00, 0x00, 0x00, 0x00, 0x00, 0x00, 0x00,
         0x01, 0x00, 0x00, 0x00, 0x00, 0x00, 0x00, 0x00,
         0x02, 0x00, 0x00, 0x00, 0x00, 0x00, 0x00, 0x00,
         0x05, 0x00, 0x00, 0x00, 0x00, 0x00, 0x00, 0x00,
         0x03, 0x00, 0x00, 0x00, 0x00, 0x00, 0x00, 0x00] := by decide
    simp only [Option.map_some', Async_Byte_Queue.extended, Nat.mod_eq_of_lt hid,
      List.append_assoc, hpayload]

/-- C7 at a concrete input: two entries, the second with no bucket, on the
empty queue. -/
theorem write_event_vector_max_size_histogram_by_owner_layout_witness :
    (0x04 : Nat) < 256 ∧
    (⟨0x04, [([0x70], [(1, 2), (5, 3)]), ([0x71, 0x72], [])]⟩ :
      Trace_Event_Vector_Max_Size_Histogram_By_Owner).in_range ∧
    ((∃ out2, write_event_vector_max_size_histogram_by_owner Async_Byte_Queue.empty ⟨7⟩
        ⟨0x04, [([0x70], [(1, 2), (5, 3)]), ([0x71, 0x72], [])]⟩ = some out2 ∧
      out2.bytes = Async_Byte_Queue.empty.bytes ++ (u64_le_bytes 7 ++ [0x04])
        ++ u64_le_bytes
            ([([0x70], [(1, 2), (5, 3)]), ([0x71, 0x72], [])] :
              List (List Nat × List (Nat × Nat))).length
        ++ ([([0x70], [(1, 2), (5, 3)]), ([0x71, 0x72], [])] :
              List (List Nat × List (Nat × Nat))).flatMap (fun entry =>
            entry.1 ++ [0x00] ++ u64_le_bytes entry.2.length
              ++ entry.2.flatMap (fun bucket =>
                  u64_le_bytes bucket.1 ++ u64_le_bytes bucket.2))) ∧
    (write_event_vector_max_size_histogram_by_owner Async_Byte_Queue.empty ⟨7⟩
        ⟨0x04, [([0x70], [(1, 2), (5, 3)])]⟩).map (fun q => q.bytes) =
      some (Async_Byte_Queue.empty.bytes ++ (u64_le_bytes 7 ++ [0x04])
        ++ [0x01, 0x00, 0x00, 0x00, 0x00, 0x00, 0x00, 0x00,
            0x70, 0x00,
            0x02, 0x00, 0x00, 0x00, 0x00, 0x00, 0x00, 0x00,
            0x01, 0x00, 0x00, 0x00, 0x00, 0x00, 0x00, 0x00,
            0x02, 0x00, 0x00, 0x00, 0x00, 0x00, 0x00, 0x00,
            0x05, 0x00, 0x00, 0x00, 0x00, 0x00, 0x00, 0x00,
            0x03, 0x00, 0x00, 0x00, 0x00, 0x00, 0x00, 0x00])) :=
  ⟨by decide, by decide,
   write_event_vector_max_size_histogram_by_owner_layout Async_Byte_Queue.empty ⟨7⟩
     ⟨0x04, [([0x70], [(1, 2), (5, 3)]), ([0x71, 0x72], [])]⟩ (by decide) (by decide)⟩

/-- C8: for every list of documents that fits its types,
`write_event_lsp_documents` appends the 9-byte event header, then the document
count as u64 LE, then for each document in list order: its type as one byte,
then `uri`, `text` and `language_id` in that order, each as a u64 LE length
followed by exactly that many bytes. For two documents of type 1 with strings
("a","b","c") and ("","","") the per-document bytes are 01, 01 00*7 61,
01 00*7 62, 01 00*7 63 and then 01 followed by 24 zero bytes. -/
theorem write_event_lsp_documents_layout (out : Async_Byte_Queue)
    (header : Trace_Event_Header) (event : Trace_Event_LSP_Documents)
    (hid : event.id < 256) (hlen : event.documents.length < 2 ^ 64)
    (htype : ∀ doc ∈ event.documents, doc.type < 256) :
    (∃ out2, write_event_lsp_documents out header event = some out2 ∧
      out2.bytes = out.bytes ++ (u64_le_bytes header.timestamp ++ [event.id])
        ++ u64_le_bytes event.documents.length
        ++ event.documents.flatMap (fun doc =>
            [doc.type] ++ (u64_le_bytes doc.uri.length ++ doc.uri)
              ++ (u64_le_bytes doc.text.length ++ doc.text)
              ++ (u64_le_bytes doc.language_id.length ++ doc.language_id))) ∧
    (write_event_lsp_documents out header
        ⟨event.id, [⟨1, [0x61], [0x62], [0x63]⟩, ⟨1, [], [], []⟩]⟩).map (fun q => q.bytes) =
      some (out.bytes ++ (u64_le_bytes header.timestamp ++ [event.id])
        ++ [0x02, 0x00, 0x00, 0x00, 0x00, 0x00, 0x00, 0x00]
        ++ [0x01,
            0x01, 0x00, 0x00, 0x00, 0x00, 0x00, 0x00, 0x00, 0x61,
            0x01, 0x00, 0x00, 0x00, 0x00, 0x00, 0x00, 0x00, 0x62,
            0x01, 0x00, 0x00, 0x00, 0x00, 0x00, 0x00, 0x00, 0x63]
        ++ [0x01,
            0x00, 0x00, 0x00, 0x00, 0x00, 0x00, 0x00, 0x00,
            0x00, 0x00, 0x00, 0x00, 0x00, 0x00, 0x00, 0x00,
            0x00, 0x00, 0x00, 0x00, 0x00, 0x00, 0x00, 0x00]) := by
  constructor
  · refine ⟨_, write_event_lsp_documents_of_in_range out header event hlen htype, ?_⟩
    have hfun : document_bytes = fun doc =>
        [doc.type] ++ (u64_le_bytes doc.uri.length ++ doc.uri)
          ++ (u64_le_bytes doc.text.length ++ doc.text)
          ++ (u64_le_bytes doc.language_id.length ++ doc.language_id) :=
      rfl
    simp only [Async_Byte_Queue.extended, Nat.mod_eq_of_lt hid, List.append_assoc, hfun]
  · rw [write_event_lsp_documents_of_in_range out header _ (by dsimp only; decide)
      (by dsimp only; decide)]
    have hpayload : u64_le_bytes ([⟨1, [0x61], [0x62], [0x63]⟩, ⟨1, [], [], []⟩] :
          List Trace_LSP_Document_State).length
          ++ ([⟨1, [0x61], [0x62], [0x63]⟩, ⟨1, [], [], []⟩] :
                List Trace_LSP_Document_State).flatMap document_bytes =
        [0x02, 0x00, 0x00, 0x00, 0x00, 0x00, 0x00, 0x00]
        ++ [0x01,
            0x01, 0x00, 0x00, 0x00, 0x00, 0x00, 0x00, 0x00, 0x61,
            0x01, 0x00, 0x00, 0x00, 0x00, 0x00, 0x00, 0x00, 0x62,
            0x01, 0x00, 0x00, 0x00, 0x00, 0x00, 0x00, 0x00, 0x63]
        ++ [0x01,
            0x00, 0x00, 0x00, 0x00, 0x00, 0x00, 0x00, 0x00,
            0x00, 0x00, 0x00, 0x00, 0x00, 0x00, 0x00, 0x00,
            0x00, 0x00, 0x00, 0x00, 0x00, 0x00, 0x00, 0x00] := by decide
    simp only [Option.map_some', Async_Byte_Queue.extended, Nat.mod_eq_of_lt hid,
      List.append_assoc, hpayload]

/-- C8 at a concrete input: the two documents of the example, id `0x05`,
timestamp 0, on the empty queue. -/
theorem write_event_lsp_documents_layout_witness :
    (0x05 : Nat) < 256 ∧
    ([⟨1, [0x61], [0x62], [0x63]⟩, ⟨1, [], [], []⟩] :
      List Trace_LSP_Document_State).length < 2 ^ 64 ∧
    (∀ doc ∈ ([⟨1, [0x61], [0x62], [0x63]⟩, ⟨1, [], [], []⟩] :
      List Trace_LSP_Document_State), doc.type < 256) ∧
    ((∃ out2, write_event_lsp_documents Async_Byte_Queue.empty ⟨0⟩
        ⟨0x05, [⟨1, [0x61], [0x62], [0x63]⟩, ⟨1, [], [], []⟩]⟩ = some out2 ∧
      out2.bytes = Async_Byte_Queue.empty.bytes ++ (u64_le_bytes 0 ++ [0x05])
        ++ u64_le_bytes ([⟨1, [0x61], [0x62], [0x63]⟩, ⟨1, [], [], []⟩] :
            List Trace_LSP_Document_State).length
        ++ ([⟨1, [0x61], [0x62], [0x63]⟩, ⟨1, [], [], []⟩] :
            List Trace_LSP_Document_State).flatMap (fun doc =>
            [doc.type] ++ (u64_le_bytes doc.uri.length ++ doc.uri)
              ++ (u64_le_bytes doc.text.length ++ doc.text)
              ++ (u64_le_bytes doc.language_id.length ++ doc.language_id))) ∧
    (write_event_lsp_documents Async_Byte_Queue.empty ⟨0⟩
        ⟨0x05, [⟨1, [0x61], [0x62], [0x63]⟩, ⟨1, [], [], []⟩]⟩).map (fun q => q.bytes) =
      some (Async_Byte_Queue.empty.bytes ++ (u64_le_bytes 0 ++ [0x05])
        ++ [0x02, 0x00, 0x00, 0x00, 0x00, 0x00, 0x00, 0x00]
        ++ [0x01,
            0x01, 0x00, 0x00, 0x00, 0x00, 0x00, 0x00, 0x00, 0x61,
            0x01, 0x00, 0x00, 0x00, 0x00, 0x00, 0x00, 0x00, 0x62,
            0x01, 0x00, 0x00, 0x00, 0x00, 0x00, 0x00, 0x00, 0x63]
        ++ [0x01,
            0x00, 0x00, 0x00, 0x00, 0x00, 0x00, 0x00, 0x00,
            0x00, 0x00, 0x00, 0x00, 0x00, 0x00, 0x00, 0x00,
            0x00, 0x00, 0x00, 0x00, 0x00, 0x00, 0x00, 0x00])) :=
  ⟨by decide, by decide, by decide,
   write_event_lsp_documents_layout Async_Byte_Queue.empty ⟨0⟩
     ⟨0x05, [⟨1, [0x61], [0x62], [0x63]⟩, ⟨1, [], [], []⟩]⟩
     (by decide) (by decide) (by decide)⟩

/-! ## Round trips -/

/-- C9: for every trace event of any of the five variants that fits its types
and whose nul-terminated string fields (init version, histogram owner names)
contain no `0x00` byte, the matching `write_event_*` operation runs to
completion, and decoding the bytes it appended under the grammar of the event's
variant consumes all of them and yields the same timestamp, id and payload. -/
theorem write_event_decode_round_trip (out : Async_Byte_Queue)
    (header : Trace_Event_Header) (event : Trace_Event)
    (hts : header.timestamp < 2 ^ 64) (hid : event.id < 256)
    (hrange : event.payload_in_range) (hnul : event.nul_free) :
    ∃ out2 encoded, write_event out header event = some out2 ∧
      out2.bytes = out.bytes ++ encoded ∧
      decode_event event.variant encoded = some ((header, event), []) := by
  cases event with
  | init event =>
    refine ⟨_, _, write_event_init_of_not_mem out header event hnul, rfl, ?_⟩
    have hid2 : event.id % 256 = event.id := Nat.mod_eq_of_lt hid
    have hnt := read_nul_terminated_append event.version
      (contains_eq_false_of_not_mem hnul) []
    simp only [nul_terminated, List.append_nil, List.append_assoc] at hnt
    unfold decode_event
    simp only [hid2, List.append_assoc, List.singleton_append, List.cons_append,
      List.nil_append]
    rw [read_event_header_append _ _ hts]
    simp only [Trace_Event.variant, read_payload, hnt]
  | lsp_client_to_server_message event =>
    refine ⟨_, _, write_event_lsp_client_to_server_message_eq out header event, rfl, ?_⟩
    have hid2 : event.id % 256 = event.id := Nat.mod_eq_of_lt hid
    have hlp := read_length_prefixed_append event.body hrange []
    simp only [length_prefixed, List.append_nil] at hlp
    unfold decode_event
    simp only [hid2, List.append_assoc, List.singleton_append, List.cons_append,
      List.nil_append]
    rw [read_event_header_append _ _ hts]
    simp only [Trace_Event.variant, read_payload, hlp]
  | vector_max_size_histogram_by_owner event =>
    obtain ⟨hr, hmax⟩ := hrange
    refine ⟨_, _, write_event_vector_max_size_histogram_by_owner_of_in_range out header
      event hr, rfl, ?_⟩
    have hid2 : event.id % 256 = event.id := Nat.mod_eq_of_lt hid
    have hmany := read_many_append read_entry entry_bytes event.entries
      (fun e he r => read_entry_append e (hnul e he) (hr.2 e he) (hmax e he) r) []
    rw [List.append_nil] at hmany
    unfold decode_event
    simp only [hid2, List.append_assoc, List.singleton_append, List.cons_append,
      List.nil_append]
    rw [read_event_header_append _ _ hts]
    simp only [Trace_Event.variant, read_payload, read_u64_le_append _ hr.1, hmany]
  | process_id event =>
    refine ⟨_, _, write_event_process_id_eq out header event, rfl, ?_⟩
    have hid2 : event.id % 256 = event.id := Nat.mod_eq_of_lt hid
    have hpid := read_u64_le_append event.process_id hrange []
    rw [List.append_nil] at hpid
    unfold decode_event
    simp only [hid2, List.append_assoc, List.singleton_append, List.cons_append,
      List.nil_append]
    rw [read_event_header_append _ _ hts]
    simp only [Trace_Event.variant, read_payload, hpid]
  | lsp_documents event =>
    obtain ⟨hlen, hdocs⟩ := hrange
    refine ⟨_, _, write_event_lsp_documents_of_in_range out header event hlen
      (fun d hd => (hdocs d hd).1), rfl, ?_⟩
    have hid2 : event.id % 256 = event.id := Nat.mod_eq_of_lt hid
    have hmany := read_many_append read_document document_bytes event.documents
      (fun d hd r => read_document_append d (hdocs d hd) r) []
    rw [List.append_nil] at hmany
    unfold decode_event
    simp only [hid2, List.append_assoc, List.singleton_append, List.cons_append,
      List.nil_append]
    rw [read_event_header_append _ _ hts]
    simp only [Trace_Event.variant, read_payload, read_u64_le_append _ hlen, hmany]

/-- C9 at a concrete input: a histogram event with two entries on the empty
queue. -/
theorem write_event_decode_round_trip_witness :
    (7 : Nat) < 2 ^ 64 ∧
    (Trace_Event.vector_max_size_histogram_by_owner
      ⟨0x04, [([0x70], [(1, 2), (5, 3)]), ([], [])]⟩).id < 256 ∧
    (Trace_Event.vector_max_size_histogram_by_owner
      ⟨0x04, [([0x70], [(1, 2), (5, 3)]), ([], [])]⟩).payload_in_range ∧
    (Trace_Event.vector_max_size_histogram_by_owner
      ⟨0x04, [([0x70], [(1, 2), (5, 3)]), ([], [])]⟩).nul_free ∧
    ∃ out2 encoded,
      write_event Async_Byte_Queue.empty ⟨7⟩
        (.vector_max_size_histogram_by_owner
          ⟨0x04, [([0x70], [(1, 2), (5, 3)]), ([], [])]⟩) = some out2 ∧
      out2.bytes = Async_Byte_Queue.empty.bytes ++ encoded ∧
      decode_event
        (Trace_Event.vector_max_size_histogram_by_owner
          ⟨0x04, [([0x70], [(1, 2), (5, 3)]), ([], [])]⟩).variant encoded =
        some ((⟨7⟩, .vector_max_size_histogram_by_owner
          ⟨0x04, [([0x70], [(1, 2), (5, 3)]), ([], [])]⟩), []) :=
  ⟨by decide, by decide, by decide, by decide,
   write_event_decode_round_trip Async_Byte_Queue.empty ⟨7⟩
     (.vector_max_size_histogram_by_owner ⟨0x04, [([0x70], [(1, 2), (5, 3)]), ([], [])]⟩)
     (by decide) (by decide) (by decide) (by decide)⟩

/-- C10: for every byte string `b` (embedded `0x00` bytes allowed) whose size
fits 64 bits, `write_utf8_string` appends exactly `8 + |b|` bytes, and reading a
u64 LE length `n` from the first 8 of them and then the next `n` bytes yields
`b`, with nothing left over. -/
theorem write_utf8_string_round_trip (out : Async_Byte_Queue) (b : List Nat)
    (hlen : b.length < 2 ^ 64) :
    ∃ out2 encoded, write_utf8_string out b = some out2 ∧
      out2.bytes = out.bytes ++ encoded ∧
      encoded.length = 8 + b.length ∧
      read_length_prefixed encoded = some (b, []) := by
  refine ⟨_, u64_le_bytes b.length ++ b, write_utf8_string_eq out b, rfl, ?_, ?_⟩
  · simp [u64_le_bytes_length]
  · have := read_length_prefixed_append b hlen []
    simpa [length_prefixed] using this

/-- C10 at a concrete input: a string with an embedded `0x00` byte. -/
theorem write_utf8_string_round_trip_witness :
    [0x61, 0x00, 0x62].length < 2 ^ 64 ∧
    ∃ out2 encoded, write_utf8_string Async_Byte_Queue.empty [0x61, 0x00, 0x62] = some out2 ∧
      out2.bytes = Async_Byte_Queue.empty.bytes ++ encoded ∧
      encoded.length = 8 + [0x61, 0x00, 0x62].length ∧
      read_length_prefixed encoded = some ([0x61, 0x00, 0x62], []) :=
  ⟨by decide, write_utf8_string_round_trip Async_Byte_Queue.empty [0x61, 0x00, 0x62]
    (by decide)⟩

/-! ## Lemmas: one description of the five event operations; sequences of calls -/

theorem write_event_eq (out : Async_Byte_Queue) (header : Trace_Event_Header)
    (event : Trace_Event) :
    write_event out header event =
      if event.accepted then
        some (out.extended (event.wire_bytes header) event.queue_calls)
      else none := by
  cases event with
  | init event =>
    simp only [write_event, Trace_Event.accepted, Trace_Event.wire_bytes,
      Trace_Event.queue_calls]
    by_cases h : 0 ∈ event.version
    · rw [write_event_init_eq, contains_eq_true_of_mem h, if_neg (not_not.mpr h)]
      rfl
    · rw [write_event_init_of_not_mem out header event h, if_pos h]
  | lsp_client_to_server_message event =>
    simp only [write_event, Trace_Event.accepted, Trace_Event.wire_bytes,
      Trace_Event.queue_calls, write_event_lsp_client_to_server_message_eq, if_true]
  | vector_max_size_histogram_by_owner event =>
    simp only [write_event, Trace_Event.accepted, Trace_Event.wire_bytes,
      Trace_Event.queue_calls, write_event_vector_max_size_histogram_by_owner_eq]
  | process_id event =>
    simp only [write_event, Trace_Event.accepted, Trace_Event.wire_bytes,
      Trace_Event.queue_calls, write_event_process_id_eq, if_true]
  | lsp_documents event =>
    simp only [write_event, Trace_Event.accepted, Trace_Event.wire_bytes,
      Trace_Event.queue_calls, write_event_lsp_documents_eq]

theorem write_event_of_accepted (out : Async_Byte_Queue) (header : Trace_Event_Header)
    (event : Trace_Event) (h : event.accepted) :
    write_event out header event =
      some (out.extended (event.wire_bytes header) event.queue_calls) := by
  rw [write_event_eq, if_pos h]

theorem write_event_some_iff (out out2 : Async_Byte_Queue) (header : Trace_Event_Header)
    (event : Trace_Event) :
    write_event out header event = some out2 ↔
      event.accepted ∧ out2 = out.extended (event.wire_bytes header) event.queue_calls := by
  rw [write_event_eq]
  by_cases h : event.accepted
  · rw [if_pos h]
    constructor
    · intro h2
      exact ⟨h, (Option.some.inj h2).symm⟩
    · rintro ⟨_, rfl⟩
      rfl
  · rw [if_neg h]
    constructor
    · intro h2
      cases h2
    · rintro ⟨h2, _⟩
      exact absurd h2 h

theorem extended_empty_bytes (data : List Nat) (cs : List Queue_Call) :
    (Async_Byte_Queue.empty.extended data cs).bytes = data := by
  simp [Async_Byte_Queue.extended, Async_Byte_Queue.empty]

theorem appended_write_header (context : Trace_Context) :
    (Writer_Call.write_header context).appended =
      trace_header ++ (u64_le_bytes context.thread_id ++ [0]) := by
  simp only [Writer_Call.appended, call, write_header_eq, extended_empty_bytes]

theorem appended_write_event (header : Trace_Event_Header) (event : Trace_Event)
    (h : event.accepted) :
    (Writer_Call.write_event header event).appended = event.wire_bytes header := by
  simp only [Writer_Call.appended, call, write_event_of_accepted _ _ _ h,
    extended_empty_bytes]

theorem appended_commit : Writer_Call.commit.appended = [] := rfl

theorem call_isSome_iff (out : Async_Byte_Queue) (c : Writer_Call) :
    (call out c).isSome ↔ c.accepted := by
  cases c with
  | write_header context => simp [call, write_header_eq, Writer_Call.accepted]
  | write_event header event =>
    simp only [call, Writer_Call.accepted]
    exact write_event_isSome_iff out header event
  | commit => simp [call, Writer_Call.accepted]

theorem call_bytes (out out2 : Async_Byte_Queue) (c : Writer_Call)
    (h : call out c = some out2) :
    out2.bytes = out.bytes ++ c.appended := by
  cases c with
  | write_header context =>
    rw [appended_write_header]
    simp only [call, write_header_eq] at h
    cases h
    rfl
  | write_event header event =>
    simp only [call] at h
    obtain ⟨hacc, rfl⟩ := (write_event_some_iff out out2 header event).mp h
    rw [appended_write_event header event hacc]
    rfl
  | commit =>
    simp only [call] at h
    cases h
    simp [appended_commit, Trace_Writer.commit, Async_Byte_Queue.commit]

theorem call_positions (out out2 : Async_Byte_Queue) (c : Writer_Call)
    (hc : c ≠ Writer_Call.commit) (h : call out c = some out2) :
    out2.commit_end = out.commit_end ∧ out2.consumer_head = out.consumer_head := by
  cases c with
  | write_header context =>
    simp only [call, write_header_eq] at h
    cases h
    exact ⟨rfl, rfl⟩
  | write_event header event =>
    simp only [call] at h
    obtain ⟨_, rfl⟩ := (write_event_some_iff out out2 header event).mp h
    exact ⟨rfl, rfl⟩
  | commit => exact absurd rfl hc

theorem calls_in_order_nil (out : Async_Byte_Queue) : calls_in_order out [] = some out := rfl

theorem calls_in_order_cons (out : Async_Byte_Queue) (c : Writer_Call) (cs : List Writer_Call) :
    calls_in_order out (c :: cs) = (call out c).bind (fun q => calls_in_order q cs) := by
  simp only [calls_in_order, List.foldlM_cons]
  rfl

theorem calls_in_order_append (out : Async_Byte_Queue) (cs ds : List Writer_Call) :
    calls_in_order out (cs ++ ds) =
      (calls_in_order out cs).bind (fun q => calls_in_order q ds) := by
  induction cs generalizing out with
  | nil => simp [calls_in_order_nil]
  | cons c cs ih =>
    simp only [List.cons_append, calls_in_order_cons]
    cases hc : call out c with
    | none => rfl
    | some q => simp [ih]

theorem calls_in_order_of_accepted (out : Async_Byte_Queue) (cs : List Writer_Call)
    (hacc : ∀ c ∈ cs, c.accepted) :
    ∃ out2, calls_in_order out cs = some out2 ∧
      out2.bytes = out.bytes ++ cs.flatMap Writer_Call.appended := by
  induction cs generalizing out with
  | nil => exact ⟨out, rfl, by simp⟩
  | cons c cs ih =>
    have hsome := (call_isSome_iff out c).mpr (hacc c (List.mem_cons_self c cs))
    obtain ⟨q, hq⟩ := Option.isSome_iff_exists.mp hsome
    obtain ⟨out2, h2, hb⟩ := ih q (fun d hd => hacc d (List.mem_cons_of_mem c hd))
    refine ⟨out2, ?_, ?_⟩
    · rw [calls_in_order_cons, hq]
      exact h2
    · rw [hb, call_bytes out q c hq]
      simp

theorem calls_in_order_positions (out out2 : Async_Byte_Queue) (cs : List Writer_Call)
    (hno : Writer_Call.commit ∉ cs) (h : calls_in_order out cs = some out2) :
    out2.commit_end = out.commit_end ∧ out2.consumer_head = out.consumer_head ∧
      ∃ data, out2.bytes = out.bytes ++ data := by
  induction cs generalizing out with
  | nil =>
    cases h
    exact ⟨rfl, rfl, [], by simp⟩
  | cons c cs ih =>
    rw [calls_in_order_cons] at h
    cases hc : call out c with
    | none => rw [hc] at h; cases h
    | some q =>
      rw [hc] at h
      have hne : c ≠ Writer_Call.commit := fun e => hno (e ▸ List.mem_cons_self c cs)
      obtain ⟨h1, h2⟩ := call_positions out q c hne hc
      obtain ⟨h3, h4, data, h5⟩ := ih q (fun hm => hno (List.mem_cons_of_mem c hm)) h
      refine ⟨h3.trans h1, h4.trans h2, c.appended ++ data, ?_⟩
      rw [h5, call_bytes out q c hc, List.append_assoc]

/-! ## Nul-terminated strings -/

theorem takeWhile_nul_terminated (s rest : List Nat) (h : 0 ∉ s) :
    (nul_terminated s ++ rest).takeWhile (fun b => b != 0) = s := by
  induction s with
  | nil => simp [nul_terminated]
  | cons b s ih =>
    have hb : b ≠ 0 := fun hb => h (hb ▸ List.mem_cons_self b s)
    have hs : 0 ∉ s := fun hs => h (List.mem_cons_of_mem b hs)
    have hcons : nul_terminated (b :: s) ++ rest = b :: (nul_terminated s ++ rest) := rfl
    rw [hcons, List.takeWhile_cons, ih hs]
    simp [hb]

/-- C11: for every string `s` with no `0x00` byte, what the writer emits for it
as a nul-terminated string is the bytes of `s` followed by one `0x00`, both for
`init.version` (right after the 9-byte event header) and for every histogram
owner name (wherever its entry stands in the list), and reading the emitted
bytes up to, and not including, the first `0x00` yields exactly `s`, whatever
follows. -/
theorem nul_terminated_round_trip (s : List Nat) (hnul : 0 ∉ s) :
    (∀ out header id, ∃ out2,
      write_event_init out header ⟨id, s⟩ = some out2 ∧
      out2.bytes = out.bytes ++ (u64_le_bytes header.timestamp ++ [id % 256])
        ++ (s ++ [0x00])) ∧
    (∀ out header id before buckets after,
      (⟨id, before ++ (s, buckets) :: after⟩ :
        Trace_Event_Vector_Max_Size_Histogram_By_Owner).in_range →
      ∃ out2 head tail,
        write_event_vector_max_size_histogram_by_owner out header
          ⟨id, before ++ (s, buckets) :: after⟩ = some out2 ∧
        out2.bytes = out.bytes ++ head ++ (s ++ [0x00]) ++ tail ∧
        head.length = 17 + (before.flatMap entry_bytes).length) ∧
    (∀ rest, read_nul_terminated ((s ++ [0x00]) ++ rest) = some (s, rest)) ∧
    (∀ rest, ((s ++ [0x00]) ++ rest).takeWhile (fun b => b != 0) = s) := by
  refine ⟨?_, ?_, ?_, ?_⟩
  · intro out header id
    refine ⟨_, write_event_init_of_not_mem out header ⟨id, s⟩ hnul, ?_⟩
    simp [Async_Byte_Queue.extended]
  · intro out header id before buckets after hrange
    refine ⟨_, u64_le_bytes header.timestamp ++ [id % 256]
        ++ u64_le_bytes (before ++ (s, buckets) :: after).length
        ++ before.flatMap entry_bytes,
      u64_le_bytes buckets.length ++ buckets.flatMap bucket_bytes
        ++ after.flatMap entry_bytes,
      write_event_vector_max_size_histogram_by_owner_of_in_range out header _ hrange, ?_, ?_⟩
    · simp [Async_Byte_Queue.extended, entry_bytes, nul_terminated]
    · simp only [List.length_append, u64_le_bytes_length, List.length_singleton]
  · intro rest
    exact read_nul_terminated_append s (contains_eq_false_of_not_mem hnul) rest
  · intro rest
    exact takeWhile_nul_terminated s rest hnul

/-- C11 at a concrete input: the string "v1". -/
theorem nul_terminated_round_trip_witness :
    0 ∉ [0x76, 0x31] ∧
    ((∀ out header id, ∃ out2,
      write_event_init out header ⟨id, [0x76, 0x31]⟩ = some out2 ∧
      out2.bytes = out.bytes ++ (u64_le_bytes header.timestamp ++ [id % 256])
        ++ ([0x76, 0x31] ++ [0x00])) ∧
    (∀ out header id before buckets after,
      (⟨id, before ++ ([0x76, 0x31], buckets) :: after⟩ :
        Trace_Event_Vector_Max_Size_Histogram_By_Owner).in_range →
      ∃ out2 head tail,
        write_event_vector_max_size_histogram_by_owner out header
          ⟨id, before ++ ([0x76, 0x31], buckets) :: after⟩ = some out2 ∧
        out2.bytes = out.bytes ++ head ++ ([0x76, 0x31] ++ [0x00]) ++ tail ∧
        head.length = 17 + (before.flatMap entry_bytes).length) ∧
    (∀ rest, read_nul_terminated (([0x76, 0x31] ++ [0x00]) ++ rest) =
      some ([0x76, 0x31], rest)) ∧
    (∀ rest, (([0x76, 0x31] ++ [0x00]) ++ rest).takeWhile (fun b => b != 0) =
      [0x76, 0x31])) :=
  ⟨by decide, nul_terminated_round_trip [0x76, 0x31] (by decide)⟩

/-! ## Commit, sequences of calls, self-delimiting records -/

theorem consumer_bytes_extended (out : Async_Byte_Queue) (data : List Nat)
    (hvalid : out.commit_end ≤ out.bytes.length) (out2 : Async_Byte_Queue)
    (hc : out2.commit_end = out.commit_end) (hh : out2.consumer_head = out.consumer_head)
    (hb : out2.bytes = out.bytes ++ data) :
    out2.consumer_bytes = out.consumer_bytes := by
  simp only [Async_Byte_Queue.consumer_bytes, Async_Byte_Queue.take_committed, hc, hh, hb]
  rw [List.take_append_of_le_length hvalid]

theorem commit_publishes (q : Async_Byte_Queue) :
    (commit q).bytes = q.bytes ∧ (commit q).calls = q.calls ∧
      (commit q).commit_end = q.bytes.length ∧
      (commit q).consumer_bytes = q.bytes.drop q.consumer_head := by
  simp [Trace_Writer.commit, Async_Byte_Queue.commit, Async_Byte_Queue.consumer_bytes,
    Async_Byte_Queue.take_committed]

/-- C14: with the queue as written bytes plus a committed position, every
sequence of `write_header` and `write_event_*` calls that contains no `commit`
runs to completion (on accepted events) without changing the committed
position, so the consumer is handed exactly what it would have been handed
before the writes; and `Trace_Writer::commit` appends no byte, makes no
producer call on the log, and moves the committed position to the end of the
written bytes, so that the consumer is then handed everything written that it
has not yet taken. -/
theorem writes_keep_commit_end_and_commit_publishes (out : Async_Byte_Queue)
    (cs : List Writer_Call) (hvalid : out.commit_end ≤ out.bytes.length)
    (hno : Writer_Call.commit ∉ cs) (hacc : ∀ c ∈ cs, c.accepted) :
    (∃ out2, calls_in_order out cs = some out2 ∧
      out2.commit_end = out.commit_end ∧
      out2.consumer_bytes = out.consumer_bytes ∧
      (commit out2).consumer_bytes = out2.bytes.drop out.consumer_head) ∧
    (∀ q : Async_Byte_Queue,
      (commit q).bytes = q.bytes ∧ (commit q).commit_end = q.bytes.length ∧
      (commit q).consumer_bytes = q.bytes.drop q.consumer_head) := by
  constructor
  · obtain ⟨out2, hrun, _⟩ := calls_in_order_of_accepted out cs hacc
    obtain ⟨hc, hh, data, hb⟩ := calls_in_order_positions out out2 cs hno hrun
    refine ⟨out2, hrun, hc, consumer_bytes_extended out data hvalid out2 hc hh hb, ?_⟩
    rw [(commit_publishes out2).2.2.2, hh]
  · intro q
    exact ⟨(commit_publishes q).1, (commit_publishes q).2.2.1, (commit_publishes q).2.2.2⟩

/-- C14 at a concrete input: a header and a process id event written on the
empty queue with no `commit`. -/
theorem writes_keep_commit_end_and_commit_publishes_witness :
    Async_Byte_Queue.empty.commit_end ≤ Async_Byte_Queue.empty.bytes.length ∧
    Writer_Call.commit ∉
      [Writer_Call.write_header ⟨1⟩, Writer_Call.write_event ⟨0⟩ (.process_id ⟨3, 0x42⟩)] ∧
    (∀ c ∈ [Writer_Call.write_header ⟨1⟩,
        Writer_Call.write_event ⟨0⟩ (.process_id ⟨3, 0x42⟩)], c.accepted) ∧
    ((∃ out2, calls_in_order Async_Byte_Queue.empty
        [Writer_Call.write_header ⟨1⟩, Writer_Call.write_event ⟨0⟩ (.process_id ⟨3, 0x42⟩)]
        = some out2 ∧
      out2.commit_end = Async_Byte_Queue.empty.commit_end ∧
      out2.consumer_bytes = Async_Byte_Queue.empty.consumer_bytes ∧
      (commit out2).consumer_bytes = out2.bytes.drop Async_Byte_Queue.empty.consumer_head) ∧
    (∀ q : Async_Byte_Queue,
      (commit q).bytes = q.bytes ∧ (commit q).commit_end = q.bytes.length ∧
      (commit q).consumer_bytes = q.bytes.drop q.consumer_head)) :=
  ⟨by decide, by decide, by decide,
   writes_keep_commit_end_and_commit_publishes Async_Byte_Queue.empty
     [Writer_Call.write_header ⟨1⟩, Writer_Call.write_event ⟨0⟩ (.process_id ⟨3, 0x42⟩)]
     (by decide) (by decide) (by decide)⟩

/-- C15: every writer operation that runs to completion is append-only and
context-free: whether it completes does not depend on the queue, and the
queue's bytes after the call are the bytes before the call followed by the
bytes the same call appends to the empty queue. Hence for every sequence
`write_header(c)`, `write_event(e1)`, ..., `write_event(en)` of accepted
events followed by `commit` on an empty queue, the consumer bytes are
`header(c) ++ enc(e1) ++ ... ++ enc(en)` in call order. -/
theorem writer_is_append_only_and_context_free (context : Trace_Context)
    (events : List (Trace_Event_Header × Trace_Event))
    (hacc : ∀ he ∈ events, he.2.accepted) :
    (∀ out c, (call out c).isSome = (call Async_Byte_Queue.empty c).isSome) ∧
    (∀ out c out2, call out c = some out2 → out2.bytes = out.bytes ++ c.appended) ∧
    (Writer_Call.write_header context).appended =
      trace_header ++ u64_le_bytes context.thread_id ++ [0] ∧
    (∀ he ∈ events, (Writer_Call.write_event he.1 he.2).appended = he.2.wire_bytes he.1) ∧
    ∃ out2,
      calls_in_order Async_Byte_Queue.empty
        (Writer_Call.write_header context
          :: events.map (fun he => Writer_Call.write_event he.1 he.2)
          ++ [Writer_Call.commit]) = some out2 ∧
      out2.consumer_bytes =
        (Writer_Call.write_header context).appended
          ++ events.flatMap (fun he => (Writer_Call.write_event he.1 he.2).appended) := by
  refine ⟨?_, ?_, ?_, ?_, ?_⟩
  · intro out c
    rw [Bool.eq_iff_iff, call_isSome_iff, call_isSome_iff]
  · intro out c out2 h
    exact call_bytes out out2 c h
  · rw [appended_write_header, List.append_assoc]
  · intro he hmem
    exact appended_write_event he.1 he.2 (hacc he hmem)
  · have hall : ∀ c ∈ Writer_Call.write_header context
        :: events.map (fun he => Writer_Call.write_event he.1 he.2), c.accepted := by
      intro c hc
      rcases List.mem_cons.mp hc with rfl | hc
      · trivial
      · obtain ⟨he, hmem, rfl⟩ := List.mem_map.mp hc
        exact hacc he hmem
    obtain ⟨q, hq, hb⟩ := calls_in_order_of_accepted Async_Byte_Queue.empty _ hall
    have hpos := calls_in_order_positions Async_Byte_Queue.empty q _ (by
      intro hmem
      rcases List.mem_cons.mp hmem with h | h
      · cases h
      · obtain ⟨he, _, h2⟩ := List.mem_map.mp h
        cases h2) hq
    refine ⟨commit q, ?_, ?_⟩
    · rw [calls_in_order_append, hq]
      rfl
    · rw [(commit_publishes q).2.2.2, hpos.2.1, hb]
      simp [Async_Byte_Queue.empty, List.flatMap_map]

/-- C15 at a concrete input: a header, a process id event and an init event,
then `commit`, on the empty queue. -/
theorem writer_is_append_only_and_context_free_witness :
    (∀ he ∈ [((⟨0⟩ : Trace_Event_Header), Trace_Event.process_id ⟨3, 0x42⟩),
      (⟨1⟩, Trace_Event.init ⟨1, [0x76, 0x31]⟩)], he.2.accepted) ∧
    ((∀ out c, (call out c).isSome = (call Async_Byte_Queue.empty c).isSome) ∧
    (∀ out c out2, call out c = some out2 → out2.bytes = out.bytes ++ c.appended) ∧
    (Writer_Call.write_header ⟨7⟩).appended =
      trace_header ++ u64_le_bytes (⟨7⟩ : Trace_Context).thread_id ++ [0] ∧
    (∀ he ∈ [((⟨0⟩ : Trace_Event_Header), Trace_Event.process_id ⟨3, 0x42⟩),
        (⟨1⟩, Trace_Event.init ⟨1, [0x76, 0x31]⟩)],
      (Writer_Call.write_event he.1 he.2).appended = he.2.wire_bytes he.1) ∧
    ∃ out2,
      calls_in_order Async_Byte_Queue.empty
        (Writer_Call.write_header ⟨7⟩
          :: [((⟨0⟩ : Trace_Event_Header), Trace_Event.process_id ⟨3, 0x42⟩),
              (⟨1⟩, Trace_Event.init ⟨1, [0x76, 0x31]⟩)].map
                (fun he => Writer_Call.write_event he.1 he.2)
          ++ [Writer_Call.commit]) = some out2 ∧
      out2.consumer_bytes =
        (Writer_Call.write_header ⟨7⟩).appended
          ++ [((⟨0⟩ : Trace_Event_Header), Trace_Event.process_id ⟨3, 0x42⟩),
              (⟨1⟩, Trace_Event.init ⟨1, [0x76, 0x31]⟩)].flatMap
                (fun he => (Writer_Call.write_event he.1 he.2).appended)) :=
  ⟨by decide,
   writer_is_append_only_and_context_free ⟨7⟩
     [(⟨0⟩, Trace_Event.process_id ⟨3, 0x42⟩), (⟨1⟩, Trace_Event.init ⟨1, [0x76, 0x31]⟩)]
     (by decide)⟩

theorem accepted_of_in_range_of_nul_free (event : Trace_Event)
    (hrange : event.payload_in_range) (hnul : event.nul_free) : event.accepted := by
  cases event with
  | init event => exact hnul
  | lsp_client_to_server_message event => trivial
  | vector_max_size_histogram_by_owner event => exact hrange.1
  | process_id event => trivial
  | lsp_documents event => exact hrange.1

theorem decode_event_wire_bytes_append (header : Trace_Event_Header) (event : Trace_Event)
    (hts : header.timestamp < 2 ^ 64) (hid : event.id < 256)
    (hrange : event.payload_in_range) (hnul : event.nul_free) (rest : List Nat) :
    decode_event event.variant (event.wire_bytes header ++ rest) =
      some ((header, event), rest) := by
  cases event with
  | init event =>
    have hid2 : event.id % 256 = event.id := Nat.mod_eq_of_lt hid
    have hnt := read_nul_terminated_append event.version
      (contains_eq_false_of_not_mem hnul) rest
    simp only [nul_terminated, List.append_assoc] at hnt
    unfold decode_event
    simp only [Trace_Event.wire_bytes, hid2, List.append_assoc, List.singleton_append,
      List.cons_append, List.nil_append]
    rw [read_event_header_append _ _ hts]
    simp only [Trace_Event.variant, read_payload]
    rw [show (0 : Nat) :: rest = [0] ++ rest from rfl, hnt]
  | lsp_client_to_server_message event =>
    have hid2 : event.id % 256 = event.id := Nat.mod_eq_of_lt hid
    have hlp := read_length_prefixed_append event.body hrange rest
    simp only [length_prefixed, List.append_assoc] at hlp
    unfold decode_event
    simp only [Trace_Event.wire_bytes, hid2, List.append_assoc, List.singleton_append,
      List.cons_append, List.nil_append]
    rw [read_event_header_append _ _ hts]
    simp only [Trace_Event.variant, read_payload, hlp]
  | vector_max_size_histogram_by_owner event =>
    obtain ⟨hr, hmax⟩ := hrange
    have hid2 : event.id % 256 = event.id := Nat.mod_eq_of_lt hid
    have hmany := read_many_append read_entry entry_bytes event.entries
      (fun e he r => read_entry_append e (hnul e he) (hr.2 e he) (hmax e he) r) rest
    unfold decode_event
    simp only [Trace_Event.wire_bytes, hid2, List.append_assoc, List.singleton_append,
      List.cons_append, List.nil_append]
    rw [read_event_header_append _ _ hts]
    simp only [Trace_Event.variant, read_payload, read_u64_le_append _ hr.1, hmany]
  | process_id event =>
    have hid2 : event.id % 256 = event.id := Nat.mod_eq_of_lt hid
    have hpid := read_u64_le_append event.process_id hrange rest
    unfold decode_event
    simp only [Trace_Event.wire_bytes, hid2, List.append_assoc, List.singleton_append,
      List.cons_append, List.nil_append]
    rw [read_event_header_append _ _ hts]
    simp only [Trace_Event.variant, read_payload, hpid]
  | lsp_documents event =>
    obtain ⟨hlen, hdocs⟩ := hrange
    have hid2 : event.id % 256 = event.id := Nat.mod_eq_of_lt hid
    have hmany := read_many_append read_document document_bytes event.documents
      (fun d hd r => read_document_append d (hdocs d hd) r) rest
    have hcongr : event.documents.flatMap (fun doc =>
          [doc.type % 256] ++ length_prefixed doc.uri ++ length_prefixed doc.text
            ++ length_prefixed doc.language_id) =
        event.documents.flatMap document_bytes :=
      flatMap_congr_mem event.documents _ document_bytes (fun doc hdoc => by
        simp only [document_bytes, Nat.mod_eq_of_lt (hdocs doc hdoc).1])
    unfold decode_event
    simp only [Trace_Event.wire_bytes]
    rw [hcongr]
    simp only [hid2, List.append_assoc,
      List.singleton_append, List.cons_append, List.nil_append]
    rw [read_event_header_append _ _ hts]
    simp only [Trace_Event.variant, read_payload, read_u64_le_append _ hlen, hmany]

/-- C20: the event encoding is self-delimiting within a variant. For two events
of the same variant that fit their types and have no `0x00` byte in their
nul-terminated string fields, and any byte strings `r1`, `r2`: if the bytes
written for the first event followed by `r1` equal the bytes written for the
second followed by `r2`, then the timestamps, the events and the remainders are
equal. -/
theorem event_encoding_self_delimiting (header1 header2 : Trace_Event_Header)
    (event1 event2 : Trace_Event) (r1 r2 : List Nat)
    (hvariant : event1.variant = event2.variant)
    (hts1 : header1.timestamp < 2 ^ 64) (hts2 : header2.timestamp < 2 ^ 64)
    (hid1 : event1.id < 256) (hid2 : event2.id < 256)
    (hrange1 : event1.payload_in_range) (hrange2 : event2.payload_in_range)
    (hnul1 : event1.nul_free) (hnul2 : event2.nul_free)
    (heq : (Writer_Call.write_event header1 event1).appended ++ r1 =
      (Writer_Call.write_event header2 event2).appended ++ r2) :
    header1 = header2 ∧ event1 = event2 ∧ r1 = r2 := by
  rw [appended_write_event header1 event1
      (accepted_of_in_range_of_nul_free event1 hrange1 hnul1),
    appended_write_event header2 event2
      (accepted_of_in_range_of_nul_free event2 hrange2 hnul2)] at heq
  have hd1 := decode_event_wire_bytes_append header1 event1 hts1 hid1 hrange1 hnul1 r1
  have hd2 := decode_event_wire_bytes_append header2 event2 hts2 hid2 hrange2 hnul2 r2
  rw [heq, hvariant, hd2] at hd1
  have hinj := Option.some.inj hd1
  have h1 : header2 = header1 := congrArg (fun p => p.1.1) hinj
  have h2 : event2 = event1 := congrArg (fun p => p.1.2) hinj
  have h3 : r2 = r1 := congrArg (fun p => p.2) hinj
  exact ⟨h1.symm, h2.symm, h3.symm⟩

/-- C20 at a concrete input: an init event followed by one more byte, against
itself. -/
theorem event_encoding_self_delimiting_witness :
    (Trace_Event.init ⟨1, [0x76, 0x31]⟩).variant = (Trace_Event.init ⟨1, [0x76, 0x31]⟩).variant ∧
    (1 : Nat) < 2 ^ 64 ∧ (1 : Nat) < 2 ^ 64 ∧
    (Trace_Event.init ⟨1, [0x76, 0x31]⟩).id < 256 ∧
    (Trace_Event.init ⟨1, [0x76, 0x31]⟩).id < 256 ∧
    (Trace_Event.init ⟨1, [0x76, 0x31]⟩).payload_in_range ∧
    (Trace_Event.init ⟨1, [0x76, 0x31]⟩).payload_in_range ∧
    (Trace_Event.init ⟨1, [0x76, 0x31]⟩).nul_free ∧
    (Trace_Event.init ⟨1, [0x76, 0x31]⟩).nul_free ∧
    (Writer_Call.write_event ⟨1⟩ (.init ⟨1, [0x76, 0x31]⟩)).appended ++ [0x09] =
      (Writer_Call.write_event ⟨1⟩ (.init ⟨1, [0x76, 0x31]⟩)).appended ++ [0x09] ∧
    ((⟨1⟩ : Trace_Event_Header) = ⟨1⟩ ∧
      Trace_Event.init ⟨1, [0x76, 0x31]⟩ = Trace_Event.init ⟨1, [0x76, 0x31]⟩ ∧
      [0x09] = [0x09]) :=
  ⟨rfl, by decide, by decide, by decide, by decide, by decide, by decide, by decide,
   by decide, rfl,
   event_encoding_self_delimiting ⟨1⟩ ⟨1⟩ (.init ⟨1, [0x76, 0x31]⟩)
     (.init ⟨1, [0x76, 0x31]⟩) [0x09] [0x09] rfl (by decide) (by decide) (by decide)
     (by decide) (by decide) (by decide) (by decide) (by decide) rfl⟩

/-! ## Owner names with a nul byte; the log of calls on the queue -/

theorem adjacent_writer_calls_entry_calls (n : Nat) (l : List (List Nat × List (Nat × Nat))) :
    adjacent_writer_calls (Queue_Call.append_with_writer n :: l.flatMap entry_calls) = false := by
  induction l generalizing n with
  | nil => rfl
  | cons entry l ih =>
    simp only [List.flatMap_cons, entry_calls, List.cons_append, List.nil_append,
      adjacent_writer_calls]
    exact ih _

theorem mem_flatMap_entry_calls (n : Nat) (l : List (List Nat × List (Nat × Nat)))
    (h : Queue_Call.append_with_writer n ∈ l.flatMap entry_calls) :
    ∃ entry ∈ l, n = 8 + 16 * entry.2.length := by
  obtain ⟨entry, hmem, hin⟩ := List.mem_flatMap.mp h
  refine ⟨entry, hmem, ?_⟩
  simp only [entry_calls, List.mem_cons, List.mem_singleton, reduceCtorEq, false_or,
    Queue_Call.append_with_writer.injEq, List.not_mem_nil, or_false] at hin
  exact hin

theorem mem_flatMap_document_calls (n : Nat) (l : List Trace_LSP_Document_State)
    (h : Queue_Call.append_with_writer n ∈ l.flatMap document_calls) : n ≤ 8 := by
  obtain ⟨doc, _, hin⟩ := List.mem_flatMap.mp h
  simp only [document_calls, List.mem_cons, List.mem_singleton, reduceCtorEq, false_or,
    Queue_Call.append_with_writer.injEq, List.not_mem_nil, or_false] at hin
  omega

/-- C13, the code at a failing input: a histogram event whose owner name is
61 00 62 is written without any failure, as 61 00 62 00 after the entry count,
and the bytes written do not decode as a histogram event; `write_event_init`
terminates the process on the same string as version. -/
theorem histogram_owner_with_nul_is_written :
    write_event_vector_max_size_histogram_by_owner Async_Byte_Queue.empty ⟨0⟩
        ⟨0x04, [([0x61, 0x00, 0x62], [])]⟩ =
      some (Async_Byte_Queue.empty.extended
        [0x00, 0x00, 0x00, 0x00, 0x00, 0x00, 0x00, 0x00, 0x04,
         0x01, 0x00, 0x00, 0x00, 0x00, 0x00, 0x00, 0x00,
         0x61, 0x00, 0x62, 0x00,
         0x00, 0x00, 0x00, 0x00, 0x00, 0x00, 0x00, 0x00]
        [Queue_Call.append_with_writer 17, Queue_Call.append_copy 3,
         Queue_Call.append_copy 1, Queue_Call.append_with_writer 8]) ∧
    decode_event .vector_max_size_histogram_by_owner
        [0x00, 0x00, 0x00, 0x00, 0x00, 0x00, 0x00, 0x00, 0x04,
         0x01, 0x00, 0x00, 0x00, 0x00, 0x00, 0x00, 0x00,
         0x61, 0x00, 0x62, 0x00,
         0x00, 0x00, 0x00, 0x00, 0x00, 0x00, 0x00, 0x00] = none ∧
    write_event_init Async_Byte_Queue.empty ⟨0⟩ ⟨0x01, [0x61, 0x00, 0x62]⟩ = none := by
  refine ⟨?_, ?_, ?_⟩
  · rw [write_event_vector_max_size_histogram_by_owner_of_in_range _ _ _ (by decide)]
    decide
  · decide
  · rw [write_event_init_eq]
    decide

/-- C18, refuted as stated: for the histogram entry with owner "p" and the two
buckets `[(1,2),(5,3)]`, the operation reserves a region of 40 bytes through
`append_with_writer`. -/
theorem histogram_reserves_40_bytes :
    (write_event_vector_max_size_histogram_by_owner Async_Byte_Queue.empty ⟨0⟩
        ⟨0x04, [([0x70], [(1, 2), (5, 3)])]⟩).map (fun q => q.calls) =
      some [Queue_Call.append_with_writer 17, Queue_Call.append_copy 1,
            Queue_Call.append_copy 1, Queue_Call.append_with_writer 40] ∧
    ¬ (40 ≤ 25) := by
  constructor
  · rw [write_event_vector_max_size_histogram_by_owner_of_in_range _ _ _ (by decide)]
    decide
  · decide

theorem call_of_accepted (out : Async_Byte_Queue) (c : Writer_Call) (hacc : c.accepted) :
    ∃ out2, call out c = some out2 :=
  Option.isSome_iff_exists.mp ((call_isSome_iff out c).mpr hacc)

theorem call_calls_of_some (out out2 : Async_Byte_Queue) (c : Writer_Call)
    (hrun : call out c = some out2) :
    out2.calls = out.calls ++
      (match c with
       | .write_header _ => [Queue_Call.append_copy 20, Queue_Call.append_with_writer 9]
       | .write_event _ event => event.queue_calls
       | .commit => []) := by
  cases c with
  | write_header context =>
    simp only [call, write_header_eq] at hrun
    cases hrun
    rfl
  | write_event header event =>
    simp only [call] at hrun
    obtain ⟨_, rfl⟩ := (write_event_some_iff out out2 header event).mp hrun
    rfl
  | commit =>
    simp only [call] at hrun
    cases hrun
    simp [Trace_Writer.commit, Async_Byte_Queue.commit]

/-- C18, amended: every region the trace writer reserves through
`append_with_writer` in a call that runs to completion is at most 25 bytes
long, except the bucket block of a histogram entry, which is
`8 + 16 * bucket_count` bytes long. -/
theorem reservations_bounded_except_bucket_block (out : Async_Byte_Queue)
    (c : Writer_Call) (hacc : c.accepted) :
    ∃ out2 cs, call out c = some out2 ∧ out2.calls = out.calls ++ cs ∧
      ∀ n, Queue_Call.append_with_writer n ∈ cs →
        n ≤ 25 ∨
        ∃ header event entry,
          c = Writer_Call.write_event header (.vector_max_size_histogram_by_owner event) ∧
          entry ∈ event.entries ∧ n = 8 + 16 * entry.2.length := by
  obtain ⟨out2, hrun⟩ := call_of_accepted out c hacc
  refine ⟨out2, _, hrun, call_calls_of_some out out2 c hrun, ?_⟩
  intro n hn
  cases c with
  | write_header context =>
    simp only [List.mem_cons, List.mem_singleton, reduceCtorEq, false_or,
      Queue_Call.append_with_writer.injEq, List.not_mem_nil, or_false] at hn
    omega
  | commit => simp at hn
  | write_event header event =>
    cases event with
    | init event =>
      simp only [Trace_Event.queue_calls, List.mem_cons, List.mem_singleton, reduceCtorEq,
        Queue_Call.append_with_writer.injEq, List.not_mem_nil, or_false] at hn
      omega
    | lsp_client_to_server_message event =>
      simp only [Trace_Event.queue_calls, List.mem_cons, List.mem_singleton, reduceCtorEq,
        Queue_Call.append_with_writer.injEq, List.not_mem_nil, or_false] at hn
      omega
    | process_id event =>
      simp only [Trace_Event.queue_calls, List.mem_cons, List.mem_singleton, reduceCtorEq,
        Queue_Call.append_with_writer.injEq, List.not_mem_nil, or_false] at hn
      omega
    | vector_max_size_histogram_by_owner event =>
      simp only [Trace_Event.queue_calls, List.mem_cons,
        Queue_Call.append_with_writer.injEq] at hn
      rcases hn with hn | hn
      · left; omega
      · right
        obtain ⟨entry, hmem, hsize⟩ := mem_flatMap_entry_calls n event.entries hn
        exact ⟨header, event, entry, rfl, hmem, hsize⟩
    | lsp_documents event =>
      simp only [Trace_Event.queue_calls, List.mem_cons,
        Queue_Call.append_with_writer.injEq] at hn
      rcases hn with hn | hn
      · left; omega
      · left
        have := mem_flatMap_document_calls n event.documents hn
        omega

/-- C18 amended, at a concrete input: the histogram of the example on the empty
queue. -/
theorem reservations_bounded_except_bucket_block_witness :
    (Writer_Call.write_event ⟨0⟩ (.vector_max_size_histogram_by_owner
      ⟨0x04, [([0x70], [(1, 2), (5, 3)])]⟩)).accepted ∧
    ∃ out2 cs,
      call Async_Byte_Queue.empty
        (.write_event ⟨0⟩ (.vector_max_size_histogram_by_owner
          ⟨0x04, [([0x70], [(1, 2), (5, 3)])]⟩)) = some out2 ∧
      out2.calls = Async_Byte_Queue.empty.calls ++ cs ∧
      ∀ n, Queue_Call.append_with_writer n ∈ cs →
        n ≤ 25 ∨
        ∃ header event entry,
          Writer_Call.write_event ⟨0⟩ (.vector_max_size_histogram_by_owner
              ⟨0x04, [([0x70], [(1, 2), (5, 3)])]⟩) =
            Writer_Call.write_event header (.vector_max_size_histogram_by_owner event) ∧
          entry ∈ event.entries ∧ n = 8 + 16 * entry.2.length :=
  ⟨by decide,
   reservations_bounded_except_bucket_block Async_Byte_Queue.empty
     (.write_event ⟨0⟩
       (.vector_max_size_histogram_by_owner ⟨0x04, [([0x70], [(1, 2), (5, 3)])]⟩))
     (by decide)⟩

theorem merge_runs_cons_cons (kind : Span_Kind) (a b : Nat) (rest : List (Span_Kind × Nat)) :
    merge_runs ((kind, a) :: (kind, b) :: rest) = merge_runs ((kind, a + b) :: rest) := by
  simp only [merge_runs]
  cases merge_runs rest with
  | nil => simp
  | cons head tail =>
    obtain ⟨kind2, m⟩ := head
    by_cases hk : kind = kind2
    · simp [hk, Nat.add_assoc]
    · simp [hk]

theorem merge_runs_cons_of_head_ne (kind : Span_Kind) (a : Nat)
    (rest : List (Span_Kind × Nat))
    (h : ∀ p tail, merge_runs rest = p :: tail → p.1 ≠ kind) :
    merge_runs ((kind, a) :: rest) = (kind, a) :: merge_runs rest := by
  simp only [merge_runs]
  cases hm : merge_runs rest with
  | nil => rfl
  | cons head tail =>
    obtain ⟨kind2, m⟩ := head
    have hne : kind ≠ kind2 := fun e => h (kind2, m) tail hm e.symm
    simp [hne]

theorem calls_as_spans_entry_calls (l : List (List Nat × List (Nat × Nat))) :
    calls_as_spans (l.flatMap entry_calls) =
      l.flatMap (fun entry =>
        [(Span_Kind.opaque_bytes, entry.1.length + 1),
         (Span_Kind.scalar, 8 + 16 * entry.2.length)]) := by
  induction l with
  | nil => rfl
  | cons entry l ih =>
    have hstep : ∀ rest, calls_as_spans (entry_calls entry ++ rest) =
        (Span_Kind.opaque_bytes, entry.1.length + 1)
          :: (Span_Kind.scalar, 8 + 16 * entry.2.length) :: calls_as_spans rest := by
      intro rest
      simp only [entry_calls, List.cons_append, List.nil_append, calls_as_spans]
      rfl
    rw [List.flatMap_cons, hstep, ih]
    rfl

theorem merge_runs_buckets (m : Nat) (buckets : List (Nat × Nat))
    (rest : List (Span_Kind × Nat))
    (h : ∀ p tail, merge_runs rest = p :: tail → p.1 ≠ Span_Kind.scalar) :
    merge_runs ((Span_Kind.scalar, m) :: (buckets.flatMap spec_bucket_fields ++ rest)) =
      (Span_Kind.scalar, m + 16 * buckets.length) :: merge_runs rest := by
  induction buckets generalizing m with
  | nil =>
    simp only [List.flatMap_nil, List.nil_append, List.length_nil, Nat.mul_zero, Nat.add_zero]
    exact merge_runs_cons_of_head_ne _ _ _ h
  | cons b buckets ih =>
    simp only [List.flatMap_cons, spec_bucket_fields, List.cons_append, List.nil_append,
      List.length_cons]
    rw [merge_runs_cons_cons, merge_runs_cons_cons, ih]
    congr 2
    omega

theorem merge_runs_entries (l : List (List Nat × List (Nat × Nat))) :
    merge_runs (l.flatMap spec_entry_fields) =
      l.flatMap (fun entry =>
        [(Span_Kind.opaque_bytes, entry.1.length + 1),
         (Span_Kind.scalar, 8 + 16 * entry.2.length)]) := by
  induction l with
  | nil => rfl
  | cons entry l ih =>
    have hhead : ∀ p tail, merge_runs (l.flatMap spec_entry_fields) = p :: tail →
        p.1 ≠ Span_Kind.scalar := by
      intro p tail hp
      rw [ih] at hp
      cases l with
      | nil => cases hp
      | cons e2 l2 =>
        simp only [List.flatMap_cons, List.cons_append, List.cons.injEq] at hp
        rw [← hp.1]
        simp
    simp only [List.flatMap_cons, spec_entry_fields, List.cons_append, List.nil_append,
      List.append_assoc]
    rw [merge_runs_cons_cons]
    have hb := merge_runs_buckets 8 entry.2 (l.flatMap spec_entry_fields) hhead
    rw [ih] at hb
    have hstart : ∀ p tail, merge_runs ((Span_Kind.scalar, 8)
        :: (entry.2.flatMap spec_bucket_fields ++ l.flatMap spec_entry_fields)) = p :: tail →
        p.1 ≠ Span_Kind.opaque_bytes := by
      intro p tail hp
      rw [hb] at hp
      simp only [List.cons.injEq] at hp
      rw [← hp.1]
      simp
    rw [merge_runs_cons_of_head_ne _ _ _ hstart, hb]


theorem calls_as_spans_writer_cons (n : Nat) (rest : List Queue_Call) :
    calls_as_spans (Queue_Call.append_with_writer n :: rest) =
      (Span_Kind.scalar, n) :: calls_as_spans rest := rfl

theorem calls_as_spans_copy_cons_writer (n m : Nat) (rest : List Queue_Call) :
    calls_as_spans (Queue_Call.append_copy n :: Queue_Call.append_with_writer m :: rest) =
      (Span_Kind.opaque_bytes, n) :: (Span_Kind.scalar, m) :: calls_as_spans rest := rfl

theorem calls_as_spans_document_calls (l : List Trace_LSP_Document_State) :
    calls_as_spans (l.flatMap document_calls) = l.flatMap spec_document_fields := by
  induction l with
  | nil => rfl
  | cons doc l ih =>
    have hlast : ∀ n, calls_as_spans (Queue_Call.append_copy n :: l.flatMap document_calls) =
        (Span_Kind.opaque_bytes, n) :: l.flatMap spec_document_fields := by
      intro n
      simp only [calls_as_spans, ih]
      cases l with
      | nil => rfl
      | cons d2 l2 => rfl
    have hstep : calls_as_spans (document_calls doc ++ l.flatMap document_calls) =
        spec_document_fields doc ++ l.flatMap spec_document_fields := by
      show calls_as_spans (Queue_Call.append_with_writer 1
        :: Queue_Call.append_with_writer 8 :: Queue_Call.append_copy doc.uri.length
        :: Queue_Call.append_with_writer 8 :: Queue_Call.append_copy doc.text.length
        :: Queue_Call.append_with_writer 8 :: Queue_Call.append_copy doc.language_id.length
        :: l.flatMap document_calls) = _
      rw [calls_as_spans_writer_cons, calls_as_spans_writer_cons,
        calls_as_spans_copy_cons_writer, calls_as_spans_copy_cons_writer, hlast]
      rfl
    rw [List.flatMap_cons, hstep]
    rfl

theorem call_queue_calls_of_some (out out2 : Async_Byte_Queue) (c : Writer_Call)
    (hrun : call out c = some out2) :
    out2.calls = out.calls ++ c.queue_calls := by
  rw [call_calls_of_some out out2 c hrun]
  cases c <;> rfl

theorem calls_as_spans_eq_merge_runs (c : Writer_Call)
    (hc : ∀ header event, c ≠ Writer_Call.write_event header (.lsp_documents event)) :
    calls_as_spans c.queue_calls = merge_runs c.spec_fields := by
  cases c with
  | write_header context => rfl
  | commit => rfl
  | write_event header event =>
    cases event with
    | init event =>
      simp [Writer_Call.queue_calls, Writer_Call.spec_fields, Trace_Event.spec_fields,
        Trace_Event.queue_calls, merge_runs, calls_as_spans]
    | lsp_client_to_server_message event =>
      simp [Writer_Call.queue_calls, Writer_Call.spec_fields, Trace_Event.spec_fields,
        Trace_Event.queue_calls, merge_runs, calls_as_spans]
    | process_id event =>
      simp [Writer_Call.queue_calls, Writer_Call.spec_fields, Trace_Event.spec_fields,
        Trace_Event.queue_calls, merge_runs, calls_as_spans]
    | vector_max_size_histogram_by_owner event =>
      simp only [Writer_Call.queue_calls, Writer_Call.spec_fields, Trace_Event.spec_fields,
        Trace_Event.queue_calls, calls_as_spans, calls_as_spans_entry_calls,
        List.cons_append, List.nil_append]
      rw [merge_runs_cons_cons, merge_runs_cons_cons, merge_runs_cons_of_head_ne,
        merge_runs_entries]
      intro p tail hp
      rw [merge_runs_entries] at hp
      cases hl : event.entries with
      | nil => rw [hl] at hp; cases hp
      | cons e2 l2 =>
        rw [hl] at hp
        simp only [List.flatMap_cons, List.cons_append, List.cons.injEq] at hp
        rw [← hp.1]
        simp
    | lsp_documents event => exact absurd rfl (hc header event)

theorem merge_runs_calls_as_spans_documents (event : Trace_Event_LSP_Documents) :
    merge_runs (calls_as_spans (Trace_Event.lsp_documents event).queue_calls) =
      merge_runs (Trace_Event.lsp_documents event).spec_fields := by
  simp only [Trace_Event.queue_calls, Trace_Event.spec_fields, calls_as_spans,
    calls_as_spans_document_calls, List.cons_append, List.nil_append]
  rw [merge_runs_cons_cons, merge_runs_cons_cons]


theorem sum_bucket_fields (l : List (Nat × Nat)) :
    ((l.flatMap spec_bucket_fields).map Prod.snd).sum = 16 * l.length := by
  induction l with
  | nil => rfl
  | cons b l ih =>
    simp only [List.flatMap_cons, List.map_append, List.sum_append, ih, spec_bucket_fields,
      List.map_cons, List.map_nil, List.sum_cons, List.sum_nil, List.length_cons]
    omega

theorem sum_entry_fields (l : List (List Nat × List (Nat × Nat))) :
    ((l.flatMap spec_entry_fields).map Prod.snd).sum = (l.flatMap entry_bytes).length := by
  induction l with
  | nil => rfl
  | cons e l ih =>
    simp only [List.flatMap_cons, List.map_append, List.sum_append, ih, spec_entry_fields,
      List.map_cons, List.map_nil, List.sum_cons, List.sum_nil, sum_bucket_fields,
      List.length_append, entry_bytes, nul_terminated, u64_le_bytes_length,
      flatMap_bucket_bytes_length, List.length_singleton]
    omega

theorem sum_document_fields (l : List Trace_LSP_Document_State) :
    ((l.flatMap spec_document_fields).map Prod.snd).sum =
      (l.flatMap (fun doc =>
        [doc.type % 256] ++ length_prefixed doc.uri ++ length_prefixed doc.text
          ++ length_prefixed doc.language_id)).length := by
  induction l with
  | nil => rfl
  | cons d l ih =>
    simp only [List.flatMap_cons, List.map_append, List.sum_append, ih, spec_document_fields,
      List.map_cons, List.map_nil, List.sum_cons, List.sum_nil,
      List.length_append, length_prefixed, u64_le_bytes_length, List.length_singleton]
    omega

theorem spec_fields_cover_appended (c : Writer_Call) (hacc : c.accepted) :
    (c.spec_fields.map Prod.snd).sum = c.appended.length := by
  cases c with
  | write_header context =>
    rw [appended_write_header]
    simp [Writer_Call.spec_fields, spec_header_fields, trace_header, u64_le_bytes_length]
  | commit => rfl
  | write_event header event =>
    rw [appended_write_event header event hacc]
    cases event with
    | init event =>
      simp only [Writer_Call.spec_fields, Trace_Event.spec_fields, Trace_Event.wire_bytes,
        List.map_cons, List.map_nil, List.sum_cons, List.sum_nil, List.length_append,
        u64_le_bytes_length, List.length_singleton]
      omega
    | lsp_client_to_server_message event =>
      simp only [Writer_Call.spec_fields, Trace_Event.spec_fields, Trace_Event.wire_bytes,
        List.map_cons, List.map_nil, List.sum_cons, List.sum_nil, List.length_append,
        u64_le_bytes_length, List.length_singleton]
      omega
    | process_id event =>
      simp only [Writer_Call.spec_fields, Trace_Event.spec_fields, Trace_Event.wire_bytes,
        List.map_cons, List.map_nil, List.sum_cons, List.sum_nil, List.length_append,
        u64_le_bytes_length, List.length_singleton]
      omega
    | vector_max_size_histogram_by_owner event =>
      simp only [Writer_Call.spec_fields, Trace_Event.spec_fields, Trace_Event.wire_bytes,
        List.map_append, List.sum_append, sum_entry_fields,
        List.map_cons, List.map_nil, List.sum_cons, List.sum_nil, List.length_append,
        u64_le_bytes_length, List.length_singleton]
      omega
    | lsp_documents event =>
      simp only [Writer_Call.spec_fields, Trace_Event.spec_fields, Trace_Event.wire_bytes,
        List.map_append, List.sum_append, sum_document_fields,
        List.map_cons, List.map_nil, List.sum_cons, List.sum_nil, List.length_append,
        u64_le_bytes_length, List.length_singleton]
      omega

/-- C19, refuted as stated: for one document with strings ("a","b","c"),
`write_event_lsp_documents` makes three `append_with_writer` calls in a row
(17 bytes, 1 byte, 8 bytes) before its first `append_copy`. -/
theorem lsp_documents_adjacent_writer_calls :
    (write_event_lsp_documents Async_Byte_Queue.empty ⟨0⟩
        ⟨0x05, [⟨1, [0x61], [0x62], [0x63]⟩]⟩).map (fun q => q.calls) =
      some [Queue_Call.append_with_writer 17,
            Queue_Call.append_with_writer 1,
            Queue_Call.append_with_writer 8, Queue_Call.append_copy 1,
            Queue_Call.append_with_writer 8, Queue_Call.append_copy 1,
            Queue_Call.append_with_writer 8, Queue_Call.append_copy 1] ∧
    adjacent_writer_calls
      [Queue_Call.append_with_writer 17,
       Queue_Call.append_with_writer 1,
       Queue_Call.append_with_writer 8, Queue_Call.append_copy 1,
       Queue_Call.append_with_writer 8, Queue_Call.append_copy 1,
       Queue_Call.append_with_writer 8, Queue_Call.append_copy 1] = true := by
  constructor
  · rw [write_event_lsp_documents_eq]
    decide
  · decide

/-- C19, amended: with the queue as a log of `append_copy` and
`append_with_writer` calls, and the fields of a record as scalar or opaque
spans covering exactly the bytes appended: for every record emitted by
`write_header`, `write_event_init`, `write_event_lsp_client_to_server_message`,
`write_event_vector_max_size_histogram_by_owner` and `write_event_process_id`,
each maximal contiguous run of scalar fields is emitted by exactly one
`append_with_writer` call of the size of the run, the opaque runs in between by
`append_copy` calls, so no two `append_with_writer` calls are adjacent.
`write_event_lsp_documents` also emits every scalar field through
`append_with_writer` and every opaque one through `append_copy`, but with more
than one call per scalar run: one call for the event header with the count,
then for each document one call for the type byte and, for each of `uri`,
`text`, `language_id`, one call for the length followed by one `append_copy`
call for the bytes. -/
theorem writer_calls_per_scalar_run (out : Async_Byte_Queue) (c : Writer_Call)
    (hacc : c.accepted) :
    ∃ out2 cs, call out c = some out2 ∧ out2.calls = out.calls ++ cs ∧
      (c.spec_fields.map Prod.snd).sum = c.appended.length ∧
      ((∀ header event, c ≠ Writer_Call.write_event header (.lsp_documents event)) →
        calls_as_spans cs = merge_runs c.spec_fields ∧
        adjacent_writer_calls cs = false) ∧
      (∀ header event, c = Writer_Call.write_event header (.lsp_documents event) →
        cs = Queue_Call.append_with_writer 17 ::
          event.documents.flatMap (fun doc =>
            [Queue_Call.append_with_writer 1,
             Queue_Call.append_with_writer 8, Queue_Call.append_copy doc.uri.length,
             Queue_Call.append_with_writer 8, Queue_Call.append_copy doc.text.length,
             Queue_Call.append_with_writer 8,
             Queue_Call.append_copy doc.language_id.length]) ∧
        merge_runs (calls_as_spans cs) = merge_runs c.spec_fields) := by
  obtain ⟨out2, hrun⟩ := call_of_accepted out c hacc
  refine ⟨out2, c.queue_calls, hrun, call_queue_calls_of_some out out2 c hrun,
    spec_fields_cover_appended c hacc, ?_, ?_⟩
  · intro hne
    refine ⟨calls_as_spans_eq_merge_runs c hne, ?_⟩
    cases c with
    | write_header context => rfl
    | commit => rfl
    | write_event header event =>
      cases event with
      | init event => rfl
      | lsp_client_to_server_message event => rfl
      | process_id event => rfl
      | vector_max_size_histogram_by_owner event =>
        exact adjacent_writer_calls_entry_calls 17 event.entries
      | lsp_documents event => exact absurd rfl (hne header event)
  · intro header event hc
    subst hc
    exact ⟨rfl, merge_runs_calls_as_spans_documents event⟩

/-- C19 amended, at a concrete input: the histogram of the example on the empty
queue. -/
theorem writer_calls_per_scalar_run_witness :
    (Writer_Call.write_event ⟨0⟩ (.vector_max_size_histogram_by_owner
      ⟨0x04, [([0x70], [(1, 2), (5, 3)])]⟩)).accepted ∧
    ∃ out2 cs,
      call Async_Byte_Queue.empty
        (.write_event ⟨0⟩ (.vector_max_size_histogram_by_owner
          ⟨0x04, [([0x70], [(1, 2), (5, 3)])]⟩)) = some out2 ∧
      out2.calls = Async_Byte_Queue.empty.calls ++ cs ∧
      ((Writer_Call.write_event ⟨0⟩ (.vector_max_size_histogram_by_owner
          ⟨0x04, [([0x70], [(1, 2), (5, 3)])]⟩)).spec_fields.map Prod.snd).sum =
        (Writer_Call.write_event ⟨0⟩ (.vector_max_size_histogram_by_owner
          ⟨0x04, [([0x70], [(1, 2), (5, 3)])]⟩)).appended.length ∧
      ((∀ header event,
          Writer_Call.write_event ⟨0⟩ (.vector_max_size_histogram_by_owner
              ⟨0x04, [([0x70], [(1, 2), (5, 3)])]⟩) ≠
            Writer_Call.write_event header (.lsp_documents event)) →
        calls_as_spans cs =
          merge_runs (Writer_Call.write_event ⟨0⟩ (.vector_max_size_histogram_by_owner
            ⟨0x04, [([0x70], [(1, 2), (5, 3)])]⟩)).spec_fields ∧
        adjacent_writer_calls cs = false) ∧
      (∀ header event,
        Writer_Call.write_event ⟨0⟩ (.vector_max_size_histogram_by_owner
            ⟨0x04, [([0x70], [(1, 2), (5, 3)])]⟩) =
          Writer_Call.write_event header (.lsp_documents event) →
        cs = Queue_Call.append_with_writer 17 ::
          event.documents.flatMap (fun doc =>
            [Queue_Call.append_with_writer 1,
             Queue_Call.append_with_writer 8, Queue_Call.append_copy doc.uri.length,
             Queue_Call.append_with_writer 8, Queue_Call.append_copy doc.text.length,
             Queue_Call.append_with_writer 8,
             Queue_Call.append_copy doc.language_id.length]) ∧
        merge_runs (calls_as_spans cs) =
          merge_runs (Writer_Call.write_event ⟨0⟩ (.vector_max_size_histogram_by_owner
            ⟨0x04, [([0x70], [(1, 2), (5, 3)])]⟩)).spec_fields) :=
  ⟨by decide,
   writer_calls_per_scalar_run Async_Byte_Queue.empty
     (.write_event ⟨0⟩
       (.vector_max_size_histogram_by_owner ⟨0x04, [([0x70], [(1, 2), (5, 3)])]⟩))
     (by decide)⟩

/-! ## Lemmas: the two embeddings agree -/

theorem to_option_alive (out : Async_Byte_Queue) :
    (⟨out, none⟩ : Run).to_option = some out := rfl

theorem to_option_terminated (out : Async_Byte_Queue) (e : Fatal) :
    (⟨out, some e⟩ : Run).to_option = none := rfl

theorem to_option_and_then (r : Run) (next : Async_Byte_Queue → Run) :
    (r.and_then next).to_option = r.to_option.bind (fun q => (next q).to_option) := by
  obtain ⟨out, fatal⟩ := r
  cases fatal <;> simp [Run.and_then, Run.to_option]

theorem to_option_foldl_and_then {α : Type} (step : Async_Byte_Queue → α → Run)
    (step_opt : Async_Byte_Queue → α → Option Async_Byte_Queue)
    (h : ∀ q a, (step q a).to_option = step_opt q a) (l : List α) (r : Run) :
    (l.foldl (fun r a => r.and_then fun q => step q a) r).to_option =
      r.to_option.bind (fun q => l.foldlM step_opt q) := by
  induction l generalizing r with
  | nil => simp
  | cons a l ih =>
    simp only [List.foldl_cons, List.foldlM_cons, ih, to_option_and_then, h]
    cases r.to_option <;> simp

theorem toOption_bind {α β : Type} (x : Except Fatal α) (f : α → Except Fatal β) :
    (x >>= f).toOption = x.toOption.bind (fun a => (f a).toOption) := by
  cases x <;> rfl

theorem toOption_foldlM {α β : Type} (fc : β → α → Except Fatal β) (fo : β → α → Option β)
    (h : ∀ b a, (fc b a).toOption = fo b a) (l : List α) (b : β) :
    (l.foldlM fc b).toOption = l.foldlM fo b := by
  induction l generalizing b with
  | nil => rfl
  | cons a l ih =>
    simp only [List.foldlM_cons, toOption_bind, h, ih]
    rfl

theorem to_option_append_binary (q : Async_Byte_Queue) (n : Nat)
    (fc : Binary_Writer → Except Fatal Binary_Writer)
    (fo : Binary_Writer → Option Binary_Writer)
    (h : (fc ⟨[]⟩).toOption = fo ⟨[]⟩) :
    (Checked.append_binary q n fc).to_option = append_binary q n fo := by
  unfold Checked.append_binary Checked.append_with_writer append_binary
    Async_Byte_Queue.append_with_writer
  rw [← h]
  cases fc ⟨[]⟩ with
  | error e => rfl
  | ok w =>
    simp only [Except.toOption]
    split <;> rfl

theorem toOption_narrow_cast (n : Nat) :
    (Checked.narrow_cast n).toOption = narrow_cast n := by
  unfold Checked.narrow_cast narrow_cast
  split <;> rfl

theorem to_option_write_header (out : Async_Byte_Queue) (context : Trace_Context) :
    (Checked.write_header out context).to_option = write_header out context :=
  to_option_append_binary _ _ _ _ rfl

theorem to_option_write_event_process_id (out : Async_Byte_Queue)
    (header : Trace_Event_Header) (event : Trace_Event_Process_ID) :
    (Checked.write_event_process_id out header event).to_option =
      write_event_process_id out header event :=
  to_option_append_binary _ _ _ _ rfl

theorem to_option_write_utf8_string (out : Async_Byte_Queue) (s : List Nat) :
    (Checked.write_utf8_string out s).to_option = write_utf8_string out s := by
  unfold Checked.write_utf8_string write_utf8_string
  rw [to_option_and_then, to_option_append_binary _ _ _ (fun w => some (w.u64_le s.length)) (by rfl)]
  rfl

theorem to_option_write_event_lsp_client_to_server_message (out : Async_Byte_Queue)
    (header : Trace_Event_Header) (event : Trace_Event_LSP_Client_To_Server_Message) :
    (Checked.write_event_lsp_client_to_server_message out header event).to_option =
      write_event_lsp_client_to_server_message out header event := by
  unfold Checked.write_event_lsp_client_to_server_message
    write_event_lsp_client_to_server_message
  rw [to_option_and_then, to_option_append_binary _ _ _ (fun w =>
    some (((w.u64_le header.timestamp).u8 event.id).u64_le event.body.length)) (by rfl)]
  rfl

theorem to_option_write_event_init (out : Async_Byte_Queue) (header : Trace_Event_Header)
    (event : Trace_Event_Init) :
    (Checked.write_event_init out header event).to_option =
      write_event_init out header event := by
  unfold Checked.write_event_init write_event_init
  rw [to_option_and_then]
  cases hc : contains event.version 0
  · simp only [Checked.QLJS_ASSERT, QLJS_ASSERT, Bool.not_false, if_true, to_option_alive,
      Option.some_bind]
    rw [to_option_and_then, to_option_append_binary _ _ _ (fun w =>
      some ((w.u64_le header.timestamp).u8 event.id)) (by rfl)]
    rfl
  · rfl

theorem to_option_document_step (out : Async_Byte_Queue) (doc : Trace_LSP_Document_State) :
    ((Checked.append_binary out 1 (fun w => .ok (w.u8 doc.type))).and_then fun out =>
      (Checked.write_utf8_string out doc.uri).and_then fun out =>
      (Checked.write_utf8_string out doc.text).and_then fun out =>
      Checked.write_utf8_string out doc.language_id).to_option =
    (do
      let out ← append_binary out 1 (fun w => some (w.u8 doc.type))
      let out ← write_utf8_string out doc.uri
      let out ← write_utf8_string out doc.text
      let out ← write_utf8_string out doc.language_id
      pure out) := by
  simp only [to_option_and_then, to_option_write_utf8_string]
  rw [to_option_append_binary _ _ _ (fun w => some (w.u8 doc.type)) (by rfl)]
  simp

theorem toOption_count_callback (timestamp id n : Nat) :
    (do
      let w := (⟨[]⟩ : Binary_Writer).u64_le timestamp
      let w := w.u8 id
      let w := w.u64_le (← Checked.narrow_cast n)
      (pure w : Except Fatal Binary_Writer)).toOption =
    (do
      let w := (⟨[]⟩ : Binary_Writer).u64_le timestamp
      let w := w.u8 id
      let w := w.u64_le (← narrow_cast n)
      pure w) := by
  simp only [toOption_bind, toOption_narrow_cast]
  rfl

theorem to_option_write_event_lsp_documents (out : Async_Byte_Queue)
    (header : Trace_Event_Header) (event : Trace_Event_LSP_Documents) :
    (Checked.write_event_lsp_documents out header event).to_option =
      write_event_lsp_documents out header event := by
  unfold Checked.write_event_lsp_documents write_event_lsp_documents
  rw [to_option_and_then, to_option_append_binary _ _ _
    (fun w => do
      let w := w.u64_le header.timestamp
      let w := w.u8 event.id
      let w := w.u64_le (← narrow_cast event.documents.length)
      pure w)
    (toOption_count_callback header.timestamp event.id event.documents.length)]
  have hfold := fun q => to_option_foldl_and_then _ _ to_option_document_step
    event.documents ⟨q, none⟩
  simp only [hfold, to_option_alive, Option.some_bind]
  rfl

theorem toOption_bucket_step (w : Binary_Writer) (bucket : Nat × Nat) :
    (do
      let (max_size, count) := bucket
      let w := w.u64_le max_size
      let w := w.u64_le (← Checked.narrow_cast count)
      (pure w : Except Fatal Binary_Writer)).toOption =
    (do
      let (max_size, count) := bucket
      let w := w.u64_le max_size
      let w := w.u64_le (← narrow_cast count)
      pure w) := by
  obtain ⟨max_size, count⟩ := bucket
  simp only [toOption_bind, toOption_narrow_cast]
  rfl

theorem toOption_bucket_block_fill (max_size_histogram : List (Nat × Nat))
    (w : Binary_Writer) :
    (Checked.bucket_block_fill max_size_histogram w).toOption =
    (do
      let w := w.u64_le (← narrow_cast max_size_histogram.length)
      max_size_histogram.foldlM (fun w bucket => do
        let (max_size, count) := bucket
        let w := w.u64_le max_size
        let w := w.u64_le (← narrow_cast count)
        pure w) w) := by
  unfold Checked.bucket_block_fill
  simp only [toOption_bind, toOption_narrow_cast]
  have hfold := fun b => toOption_foldlM _ _ toOption_bucket_step max_size_histogram b
  simp only [hfold]
  rfl

theorem to_option_entry_step (out : Async_Byte_Queue)
    (entry : List Nat × List (Nat × Nat)) :
    (match entry with
      | (owner, max_size_histogram) =>
        let out := out.append_copy owner
        let out := out.append_copy_byte 0
        match Checked.narrow_cast max_size_histogram.length with
        | .error e => (⟨out, some e⟩ : Run)
        | .ok size =>
          Checked.append_binary out ((8 + (8 + 8) * size) % 2 ^ 64)
            (Checked.bucket_block_fill max_size_histogram)).to_option =
    (do
      let (owner, max_size_histogram) := entry
      let out := out.append_copy owner
      let out := out.append_copy_byte 0
      append_binary out
        ((8 + (8 + 8) * (← narrow_cast max_size_histogram.length)) % 2 ^ 64)
        (fun w => do
          let w := w.u64_le (← narrow_cast max_size_histogram.length)
          max_size_histogram.foldlM (fun w bucket => do
            let (max_size, count) := bucket
            let w := w.u64_le max_size
            let w := w.u64_le (← narrow_cast count)
            pure w) w)) := by
  obtain ⟨owner, buckets⟩ := entry
  by_cases hlen : buckets.length < 2 ^ 64
  · have hc : Checked.narrow_cast buckets.length = .ok buckets.length := by
      simp only [Checked.narrow_cast, hlen, if_true]
    simp only [hc, narrow_cast_of_lt hlen]
    rw [to_option_append_binary _ _ _
      (fun w => do
        let w := w.u64_le (← narrow_cast buckets.length)
        buckets.foldlM (fun w bucket => do
          let (max_size, count) := bucket
          let w := w.u64_le max_size
          let w := w.u64_le (← narrow_cast count)
          pure w) w)
      (toOption_bucket_block_fill buckets ⟨[]⟩)]
    simp only [narrow_cast_of_lt hlen]
    rfl
  · have hc : Checked.narrow_cast buckets.length = .error .narrow_cast_out_of_range := by
      simp only [Checked.narrow_cast, hlen, if_false]
    simp only [hc, narrow_cast_of_not_lt hlen]
    rfl

theorem to_option_write_event_vector_max_size_histogram_by_owner (out : Async_Byte_Queue)
    (header : Trace_Event_Header) (event : Trace_Event_Vector_Max_Size_Histogram_By_Owner) :
    (Checked.write_event_vector_max_size_histogram_by_owner out header event).to_option =
      write_event_vector_max_size_histogram_by_owner out header event := by
  unfold Checked.write_event_vector_max_size_histogram_by_owner
    write_event_vector_max_size_histogram_by_owner
  rw [to_option_and_then, to_option_append_binary _ _ _
    (fun w => do
      let w := w.u64_le header.timestamp
      let w := w.u8 event.id
      let w := w.u64_le (← narrow_cast event.entries.length)
      pure w)
    (toOption_count_callback header.timestamp event.id event.entries.length)]
  have hfold := fun q => to_option_foldl_and_then _ _ to_option_entry_step
    event.entries ⟨q, none⟩
  simp only [hfold, to_option_alive, Option.some_bind]
  rfl

theorem to_option_write_event (out : Async_Byte_Queue) (header : Trace_Event_Header)
    (event : Trace_Event) :
    (Checked.write_event out header event).to_option = write_event out header event := by
  cases event with
  | init event => exact to_option_write_event_init out header event
  | lsp_client_to_server_message event =>
    exact to_option_write_event_lsp_client_to_server_message out header event
  | vector_max_size_histogram_by_owner event =>
    exact to_option_write_event_vector_max_size_histogram_by_owner out header event
  | process_id event => exact to_option_write_event_process_id out header event
  | lsp_documents event => exact to_option_write_event_lsp_documents out header event

/-! ## Fatal precondition violations -/

theorem checked_write_event_init_eq (out : Async_Byte_Queue) (header : Trace_Event_Header)
    (event : Trace_Event_Init) :
    Checked.write_event_init out header event =
      if contains event.version 0 then ⟨out, some .assertion_failed⟩
      else ⟨out.extended
        (u64_le_bytes header.timestamp ++ [event.id % 256] ++ event.version ++ [0])
        [Queue_Call.append_with_writer 9, Queue_Call.append_copy event.version.length,
         Queue_Call.append_copy 1], none⟩ := by
  unfold Checked.write_event_init
  cases hc : contains event.version 0
  · simp [Checked.QLJS_ASSERT, Run.and_then, Checked.append_binary,
      Checked.append_with_writer, Binary_Writer.u64_le, Binary_Writer.u8,
      Binary_Writer.bytes_written, le_bytes_eight, u64_le_bytes_length, append_copy_eq,
      append_copy_byte_eq, Async_Byte_Queue.extended]
  · rfl

/-- C12: `write_event_init` fails, by a fatal precondition violation, if and
only if `version` contains a `0x00` byte; and when it fails the queue is as it
was on entry: the assertion precedes every append, so no byte has been
appended and no call made on the queue. -/
theorem write_event_init_fails_iff_version_has_nul (out : Async_Byte_Queue)
    (header : Trace_Event_Header) (event : Trace_Event_Init) :
    ((Checked.write_event_init out header event).fatal.isSome ↔ 0 ∈ event.version) ∧
    (write_event_init out header event = none ↔ 0 ∈ event.version) ∧
    (0 ∈ event.version →
      Checked.write_event_init out header event = ⟨out, some .assertion_failed⟩) ∧
    (Checked.write_event_init out header event).to_option =
      write_event_init out header event := by
  have hlink := to_option_write_event_init out header event
  have heq := checked_write_event_init_eq out header event
  by_cases h : 0 ∈ event.version
  · rw [contains_eq_true_of_mem h, if_pos rfl] at heq
    refine ⟨?_, ?_, fun _ => heq, hlink⟩
    · rw [heq]
      exact ⟨fun _ => h, fun _ => rfl⟩
    · rw [← hlink, heq]
      exact ⟨fun _ => h, fun _ => rfl⟩
  · rw [contains_eq_false_of_not_mem h, if_neg (by simp)] at heq
    refine ⟨?_, ?_, fun h2 => absurd h2 h, hlink⟩
    · rw [heq]
      exact ⟨fun h2 => (by cases h2), fun h2 => absurd h2 h⟩
    · rw [← hlink, heq]
      exact ⟨fun h2 => (by cases h2), fun h2 => absurd h2 h⟩

theorem no_mismatch_and_then (r : Run) (next : Async_Byte_Queue → Run)
    (hr : r.fatal ≠ some .size_mismatch)
    (hnext : ∀ q, (next q).fatal ≠ some .size_mismatch) :
    (r.and_then next).fatal ≠ some .size_mismatch := by
  obtain ⟨out, fatal⟩ := r
  cases fatal with
  | none => exact hnext out
  | some e => exact hr

theorem no_mismatch_foldl {α : Type} (step : Async_Byte_Queue → α → Run) (l : List α)
    (hstep : ∀ q, ∀ a ∈ l, (step q a).fatal ≠ some .size_mismatch) (r : Run)
    (hr : r.fatal ≠ some .size_mismatch) :
    (l.foldl (fun r a => r.and_then fun q => step q a) r).fatal ≠ some .size_mismatch := by
  induction l generalizing r with
  | nil => exact hr
  | cons a l ih =>
    simp only [List.foldl_cons]
    exact ih (fun q b hb => hstep q b (List.mem_cons_of_mem a hb)) _
      (no_mismatch_and_then r _ hr (fun q => hstep q a (List.mem_cons_self a l)))

theorem foldlM_guarded_except {α β : Type} (P : α → Prop) [DecidablePred P]
    (g : β → α → β) (e : Fatal) (l : List α) (b : β) :
    l.foldlM (fun b a => if P a then (.ok (g b a) : Except Fatal β) else .error e) b =
      if ∀ a ∈ l, P a then .ok (l.foldl g b) else .error e := by
  induction l generalizing b with
  | nil => simp; rfl
  | cons a l ih =>
    simp only [List.foldlM_cons, List.foldl_cons, List.forall_mem_cons]
    by_cases hp : P a
    · simp only [hp, if_true, true_and]
      exact ih _
    · simp only [hp, if_false, false_and]
      rfl

theorem checked_bucket_step_eq :
    (fun (w : Binary_Writer) (bucket : Nat × Nat) => do
      let (max_size, count) := bucket
      let w := w.u64_le max_size
      let w := w.u64_le (← Checked.narrow_cast count)
      (pure w : Except Fatal Binary_Writer)) =
    fun w bucket =>
      if bucket.2 < 2 ^ 64 then .ok ⟨w.written ++ bucket_bytes bucket⟩
      else .error .narrow_cast_out_of_range := by
  funext w bucket
  obtain ⟨max_size, count⟩ := bucket
  by_cases h : count < 2 ^ 64
  · simp only [Checked.narrow_cast, h, if_true, Binary_Writer.u64_le, le_bytes_eight,
      bucket_bytes, List.append_assoc]
    rfl
  · simp only [Checked.narrow_cast, h, if_false]
    rfl

theorem checked_bucket_block_fill_eq (buckets : List (Nat × Nat)) (w : Binary_Writer) :
    Checked.bucket_block_fill buckets w =
      if buckets.length < 2 ^ 64 ∧ ∀ bucket ∈ buckets, bucket.2 < 2 ^ 64 then
        .ok ⟨w.written ++ (u64_le_bytes buckets.length ++ buckets.flatMap bucket_bytes)⟩
      else .error .narrow_cast_out_of_range := by
  unfold Checked.bucket_block_fill
  rw [checked_bucket_step_eq]
  by_cases hlen : buckets.length < 2 ^ 64
  · have hc : Checked.narrow_cast buckets.length = .ok buckets.length := by
      simp only [Checked.narrow_cast, hlen, if_true]
    rw [hc]
    show List.foldlM _ _ buckets = _
    rw [foldlM_guarded_except (fun (b : Nat × Nat) => b.2 < 2 ^ 64), foldl_written]
    by_cases hall : ∀ bucket ∈ buckets, bucket.2 < 2 ^ 64
    · rw [if_pos hall, if_pos ⟨hlen, hall⟩]
      simp [Binary_Writer.u64_le, le_bytes_eight]
    · rw [if_neg hall, if_neg (fun h => hall h.2)]
  · have hc : Checked.narrow_cast buckets.length = .error .narrow_cast_out_of_range := by
      simp only [Checked.narrow_cast, hlen, if_false]
    rw [hc, if_neg (fun h => hlen h.1)]
    rfl

theorem no_mismatch_append_binary (q : Async_Byte_Queue) (n : Nat)
    (fill : Binary_Writer → Except Fatal Binary_Writer)
    (hfill : (∃ w, fill ⟨[]⟩ = .ok w ∧ w.bytes_written = n) ∨
      fill ⟨[]⟩ = .error .narrow_cast_out_of_range) :
    (Checked.append_binary q n fill).fatal ≠ some .size_mismatch := by
  unfold Checked.append_binary Checked.append_with_writer
  rcases hfill with ⟨w, hw, hn⟩ | herr
  · rw [hw]
    simp [hn]
  · rw [herr]
    simp

theorem no_mismatch_count_callback (q : Async_Byte_Queue) (timestamp id n : Nat) :
    (Checked.append_binary q (8 + 1 + 8) (fun w => do
      let w := w.u64_le timestamp
      let w := w.u8 id
      let w := w.u64_le (← Checked.narrow_cast n)
      pure w)).fatal ≠ some .size_mismatch := by
  apply no_mismatch_append_binary
  by_cases h : n < 2 ^ 64
  · left
    refine ⟨⟨u64_le_bytes timestamp ++ [id % 256] ++ u64_le_bytes n⟩, ?_, ?_⟩
    · simp only [Checked.narrow_cast, h, if_true, Binary_Writer.u64_le, Binary_Writer.u8,
        le_bytes_eight, List.nil_append]
      rfl
    · simp [Binary_Writer.bytes_written, u64_le_bytes_length]
  · right
    simp only [Checked.narrow_cast, h, if_false]
    rfl

theorem no_mismatch_write_utf8_string (q : Async_Byte_Queue) (s : List Nat) :
    (Checked.write_utf8_string q s).fatal ≠ some .size_mismatch := by
  unfold Checked.write_utf8_string
  apply no_mismatch_and_then
  · apply no_mismatch_append_binary
    left
    exact ⟨_, rfl, by simp [Binary_Writer.bytes_written, Binary_Writer.u64_le, le_bytes_length]⟩
  · intro q2
    simp

theorem no_mismatch_entry_step (q : Async_Byte_Queue) (entry : List Nat × List (Nat × Nat))
    (hfit : 16 * entry.2.length < 2 ^ 64) :
    (match entry with
      | (owner, max_size_histogram) =>
        let out := q.append_copy owner
        let out := out.append_copy_byte 0
        match Checked.narrow_cast max_size_histogram.length with
        | .error e => (⟨out, some e⟩ : Run)
        | .ok size =>
          Checked.append_binary out ((8 + (8 + 8) * size) % 2 ^ 64)
            (Checked.bucket_block_fill max_size_histogram)).fatal ≠
      some .size_mismatch := by
  obtain ⟨owner, buckets⟩ := entry
  have hlen : buckets.length < 2 ^ 64 := by
    simp only at hfit
    omega
  have hc : Checked.narrow_cast buckets.length = .ok buckets.length := by
    simp only [Checked.narrow_cast, hlen, if_true]
  simp only [hc]
  apply no_mismatch_append_binary
  rw [checked_bucket_block_fill_eq]
  by_cases hall : ∀ bucket ∈ buckets, bucket.2 < 2 ^ 64
  · left
    rw [if_pos ⟨hlen, hall⟩]
    refine ⟨_, rfl, ?_⟩
    have hmod : (8 + (8 + 8) * buckets.length) % 2 ^ 64 = 8 + 16 * buckets.length := by
      apply Nat.mod_eq_of_lt
      simp only at hfit
      omega
    rw [hmod]
    simp only [Binary_Writer.bytes_written, List.nil_append, List.length_append,
      u64_le_bytes_length, flatMap_bucket_bytes_length]
  · right
    rw [if_neg (fun h => hall h.2)]

theorem no_mismatch_write_event (out : Async_Byte_Queue) (header : Trace_Event_Header)
    (event : Trace_Event) (hfit : event.buckets_addressable) :
    (Checked.write_event out header event).fatal ≠ some .size_mismatch := by
  cases event with
  | init event =>
    simp only [Checked.write_event, checked_write_event_init_eq]
    split <;> simp
  | lsp_client_to_server_message event =>
    simp only [Checked.write_event, Checked.write_event_lsp_client_to_server_message]
    apply no_mismatch_and_then
    · apply no_mismatch_append_binary
      left
      exact ⟨_, rfl, by
        simp [Binary_Writer.bytes_written, Binary_Writer.u64_le, Binary_Writer.u8,
          le_bytes_length]⟩
    · intro q
      simp
  | vector_max_size_histogram_by_owner event =>
    simp only [Checked.write_event, Checked.write_event_vector_max_size_histogram_by_owner]
    apply no_mismatch_and_then
    · exact no_mismatch_count_callback out header.timestamp event.id event.entries.length
    · intro q
      exact no_mismatch_foldl _ event.entries
        (fun q2 entry hentry => no_mismatch_entry_step q2 entry (hfit entry hentry))
        ⟨q, none⟩ (by simp)
  | process_id event =>
    simp only [Checked.write_event, Checked.write_event_process_id]
    apply no_mismatch_append_binary
    left
    exact ⟨_, rfl, by
      simp [Binary_Writer.bytes_written, Binary_Writer.u64_le, Binary_Writer.u8,
        le_bytes_length]⟩
  | lsp_documents event =>
    simp only [Checked.write_event, Checked.write_event_lsp_documents]
    apply no_mismatch_and_then
    · exact no_mismatch_count_callback out header.timestamp event.id event.documents.length
    · intro q
      refine no_mismatch_foldl _ event.documents (fun q2 doc _ => ?_) ⟨q, none⟩ (by simp)
      apply no_mismatch_and_then
      · apply no_mismatch_append_binary
        left
        exact ⟨_, rfl, by simp [Binary_Writer.bytes_written, Binary_Writer.u8]⟩
      · intro q3
        apply no_mismatch_and_then _ _ (no_mismatch_write_utf8_string q3 doc.uri)
        intro q4
        apply no_mismatch_and_then _ _ (no_mismatch_write_utf8_string q4 doc.text)
        intro q5
        exact no_mismatch_write_utf8_string q5 doc.language_id

theorem fatal_cases_of_no_mismatch (r : Run) (h : r.fatal ≠ some .size_mismatch) :
    r.fatal = none ∨ r.fatal = some .assertion_failed ∨
      r.fatal = some .narrow_cast_out_of_range := by
  obtain ⟨out, fatal⟩ := r
  cases fatal with
  | none => exact Or.inl rfl
  | some e =>
    cases e with
    | assertion_failed => exact Or.inr (Or.inl rfl)
    | narrow_cast_out_of_range => exact Or.inr (Or.inr rfl)
    | size_mismatch => exact absurd rfl h

/-- C17: for every writer operation and every input whose bucket lists fit the
address space, no run is terminated by a size mismatch: each reservation
declares the number of bytes its fill callback writes (1 per `u8`, 8 per
`u64_le`). In particular the fill callback of a histogram bucket block, when it
completes, has written exactly `8 + 16 * bucket_count` bytes, the size
declared for it. `write_header` always runs to completion. -/
theorem reserved_size_is_written_size (out : Async_Byte_Queue) (context : Trace_Context)
    (header : Trace_Event_Header) (event : Trace_Event)
    (hfit : event.buckets_addressable) :
    ((Checked.write_event out header event).fatal = none ∨
      (Checked.write_event out header event).fatal = some .assertion_failed ∨
      (Checked.write_event out header event).fatal = some .narrow_cast_out_of_range) ∧
    (Checked.write_header out context).fatal = none ∧
    (∀ buckets w, Checked.bucket_block_fill buckets ⟨[]⟩ = .ok w →
      w.bytes_written = 8 + 16 * buckets.length) ∧
    (Checked.write_event out header event).to_option = write_event out header event := by
  refine ⟨fatal_cases_of_no_mismatch _ (no_mismatch_write_event out header event hfit),
    ?_, ?_, to_option_write_event out header event⟩
  · simp [Checked.write_header, Checked.append_binary, Checked.append_with_writer,
      Binary_Writer.bytes_written, Binary_Writer.u64_le, Binary_Writer.u8, le_bytes_length]
  · intro buckets w hw
    rw [checked_bucket_block_fill_eq] at hw
    split at hw
    · cases hw
      simp only [Binary_Writer.bytes_written, List.nil_append, List.length_append,
        u64_le_bytes_length, flatMap_bucket_bytes_length]
    · cases hw

/-- C17 at a concrete input: the histogram of the example. -/
theorem reserved_size_is_written_size_witness :
    (Trace_Event.vector_max_size_histogram_by_owner
      ⟨0x04, [([0x70], [(1, 2), (5, 3)])]⟩).buckets_addressable ∧
    (((Checked.write_event Async_Byte_Queue.empty ⟨0⟩
        (.vector_max_size_histogram_by_owner
          ⟨0x04, [([0x70], [(1, 2), (5, 3)])]⟩)).fatal = none ∨
      (Checked.write_event Async_Byte_Queue.empty ⟨0⟩
        (.vector_max_size_histogram_by_owner
          ⟨0x04, [([0x70], [(1, 2), (5, 3)])]⟩)).fatal = some .assertion_failed ∨
      (Checked.write_event Async_Byte_Queue.empty ⟨0⟩
        (.vector_max_size_histogram_by_owner
          ⟨0x04, [([0x70], [(1, 2), (5, 3)])]⟩)).fatal =
        some .narrow_cast_out_of_range) ∧
    (Checked.write_header Async_Byte_Queue.empty ⟨1⟩).fatal = none ∧
    (∀ buckets w, Checked.bucket_block_fill buckets ⟨[]⟩ = .ok w →
      w.bytes_written = 8 + 16 * buckets.length) ∧
    (Checked.write_event Async_Byte_Queue.empty ⟨0⟩
        (.vector_max_size_histogram_by_owner
          ⟨0x04, [([0x70], [(1, 2), (5, 3)])]⟩)).to_option =
      write_event Async_Byte_Queue.empty ⟨0⟩
        (.vector_max_size_histogram_by_owner ⟨0x04, [([0x70], [(1, 2), (5, 3)])]⟩)) :=
  ⟨by decide,
   reserved_size_is_written_size Async_Byte_Queue.empty ⟨1⟩ ⟨0⟩
     (.vector_max_size_histogram_by_owner ⟨0x04, [([0x70], [(1, 2), (5, 3)])]⟩)
     (by decide)⟩

/-! ## Instance tracker -/

theorem instances_loop_eq {Tracked : Type} (alive : Tracked → Bool) (l acc : List Tracked) :
    l.foldl (fun instances weak_instance =>
        match Instance_Tracker.lock alive weak_instance with
        | some locked => instances ++ [locked]
        | none => instances) acc =
      acc ++ l.filter alive := by
  induction l generalizing acc with
  | nil => simp
  | cons x l ih =>
    rw [List.foldl_cons, ih]
    cases hx : alive x
    · simp [Instance_Tracker.lock, hx]
    · simp [Instance_Tracker.lock, hx]

theorem sanitize_instances_eq {Tracked : Type} (alive : Tracked → Bool)
    (t : Instance_Tracker Tracked) :
    (Instance_Tracker.sanitize_instances alive t).weak_instances =
      t.weak_instances.filter alive := by
  simp [Instance_Tracker.sanitize_instances, erase_if, Instance_Tracker.expired]

theorem instances_eq {Tracked : Type} (alive : Tracked → Bool)
    (t : Instance_Tracker Tracked) :
    (Instance_Tracker.instances alive t).1 = t.weak_instances.filter alive ∧
      (Instance_Tracker.instances alive t).2.weak_instances =
        t.weak_instances.filter alive := by
  simp only [Instance_Tracker.instances, instances_loop_eq, sanitize_instances_eq,
    List.nil_append, List.filter_filter, Bool.and_self, and_self]

theorem track_eq {Tracked : Type} (alive : Tracked → Bool) (t : Instance_Tracker Tracked)
    (x : Tracked) :
    (Instance_Tracker.track alive t x).weak_instances =
      t.weak_instances.filter alive ++ [x] := by
  simp only [Instance_Tracker.track, sanitize_instances_eq]

theorem filter_filter_of_imp {Tracked : Type} (alive earlier : Tracked → Bool)
    (l : List Tracked) (h : ∀ x ∈ l, alive x = true → earlier x = true) :
    (l.filter earlier).filter alive = l.filter alive := by
  induction l with
  | nil => rfl
  | cons x l ih =>
    have ih2 := ih (fun y hy => h y (List.mem_cons_of_mem x hy))
    cases hx : alive x
    · cases he : earlier x <;> simp [List.filter_cons, hx, he, ih2]
    · simp [List.filter_cons, hx, h x (List.mem_cons_self x l) hx, ih2]

theorem track_all_filter {Tracked : Type} (alive : Tracked → Bool)
    (history : List ((Tracked → Bool) × Tracked)) (t : Instance_Tracker Tracked)
    (hmono : ∀ before earlier y after, history = before ++ (earlier, y) :: after →
      ∀ x ∈ t.weak_instances ++ before.map Prod.snd, alive x = true → earlier x = true) :
    (Instance_Tracker.track_all t history).weak_instances.filter alive =
      (t.weak_instances ++ history.map Prod.snd).filter alive := by
  induction history generalizing t with
  | nil => simp [Instance_Tracker.track_all]
  | cons c history ih =>
    obtain ⟨earlier, x⟩ := c
    have hfirst := filter_filter_of_imp alive earlier t.weak_instances
      (fun y hy halive => hmono [] earlier x history rfl y (by simpa using hy) halive)
    simp only [Instance_Tracker.track_all]
    rw [ih (Instance_Tracker.track earlier t x) (by
      intro before later y after hsplit z hz halive
      refine hmono ((earlier, x) :: before) later y after (by rw [hsplit]; rfl) z ?_ halive
      rw [track_eq] at hz
      rcases List.mem_append.mp hz with h1 | h2
      · rcases List.mem_append.mp h1 with h3 | h4
        · exact List.mem_append_left _ (List.mem_filter.mp h3).1
        · rw [List.mem_singleton.mp h4]
          exact List.mem_append_right _ (List.mem_cons_self _ _)
      · exact List.mem_append_right _ (List.mem_cons_of_mem _ h2)), track_eq]
    simp only [List.map_cons, List.filter_append, hfirst, List.append_assoc,
      List.singleton_append, List.filter_cons, List.filter_nil]

/-- C16: for `Instance_Tracker`, with liveness given as a predicate at each
call, and an instance tracked earlier that is alive now having been alive at
every `track` call made since: starting from the empty tracker, `instances()`
returns exactly the instances handed to `track` that are still alive, in the
order of the `track` calls and once per call. Whatever the state, no
expired instance is returned, the expired ones are dropped from the state, and
after `track` of an instance that is alive at the next `instances()` call,
that instance is the last element returned. -/
theorem instances_returns_live_tracked_in_order {Tracked : Type}
    (history : List ((Tracked → Bool) × Tracked)) (alive : Tracked → Bool)
    (hmono : ∀ before earlier y after, history = before ++ (earlier, y) :: after →
      ∀ x ∈ before.map Prod.snd, alive x = true → earlier x = true) :
    (Instance_Tracker.instances alive (Instance_Tracker.track_all ⟨[]⟩ history)).1 =
      (history.map Prod.snd).filter alive ∧
    (∀ (t : Instance_Tracker Tracked) x,
      x ∈ (Instance_Tracker.instances alive t).1 → alive x = true) ∧
    (∀ t : Instance_Tracker Tracked,
      (Instance_Tracker.instances alive t).2.weak_instances =
        t.weak_instances.filter alive) ∧
    (∀ (t : Instance_Tracker Tracked) (earlier : Tracked → Bool) x, alive x = true →
      (Instance_Tracker.instances alive (Instance_Tracker.track earlier t x)).1.getLast? =
        some x) := by
  refine ⟨?_, ?_, ?_, ?_⟩
  · rw [(instances_eq alive _).1, track_all_filter alive history ⟨[]⟩ (by
      intro before earlier y after hsplit x hx
      exact hmono before earlier y after hsplit x (by simpa using hx)), List.nil_append]
  · intro t x hx
    rw [(instances_eq alive t).1] at hx
    exact (List.mem_filter.mp hx).2
  · intro t
    exact (instances_eq alive t).2
  · intro t earlier x hx
    rw [(instances_eq alive _).1, track_eq, List.filter_append]
    simp [List.filter_cons, hx]

/-- C16 at a concrete input: instances 1, 2, 3 and again 2 are tracked, 1 has
expired before the third call; `instances()` returns 2, 3, 2. -/
theorem instances_returns_live_tracked_in_order_witness :
    (∀ before earlier y after,
      [((fun _ => true : Nat → Bool), 1), ((fun _ => true), 2),
        ((fun z => z != 1), 3), ((fun z => z != 1), 2)] = before ++ (earlier, y) :: after →
      ∀ x ∈ before.map Prod.snd, (fun z => z != 1) x = true → earlier x = true) ∧
    ((Instance_Tracker.instances (fun z => z != 1)
        (Instance_Tracker.track_all ⟨[]⟩
          [((fun _ => true : Nat → Bool), 1), ((fun _ => true), 2),
           ((fun z => z != 1), 3), ((fun z => z != 1), 2)])).1 =
      ([((fun _ => true : Nat → Bool), 1), ((fun _ => true), 2),
        ((fun z => z != 1), 3), ((fun z => z != 1), 2)].map Prod.snd).filter
          (fun z => z != 1) ∧
    (∀ (t : Instance_Tracker Nat) x,
      x ∈ (Instance_Tracker.instances (fun z => z != 1) t).1 →
        (fun z => z != 1) x = true) ∧
    (∀ t : Instance_Tracker Nat,
      (Instance_Tracker.instances (fun z => z != 1) t).2.weak_instances =
        t.weak_instances.filter (fun z => z != 1)) ∧
    (∀ (t : Instance_Tracker Nat) (earlier : Nat → Bool) x, (fun z => z != 1) x = true →
      (Instance_Tracker.instances (fun z => z != 1)
        (Instance_Tracker.track earlier t x)).1.getLast? = some x)) :=
  have hmono : ∀ before earlier y after,
      [((fun _ => true : Nat → Bool), 1), ((fun _ => true), 2),
        ((fun z => z != 1), 3), ((fun z => z != 1), 2)] = before ++ (earlier, y) :: after →
      ∀ x ∈ before.map Prod.snd, (fun z => z != 1) x = true → earlier x = true := by
    intro before earlier y after hsplit x _ hx
    have hmem : (earlier, y) ∈ [((fun _ => true : Nat → Bool), 1), ((fun _ => true), 2),
        ((fun z => z != 1), 3), ((fun z => z != 1), 2)] := by
      rw [hsplit]
      simp
    simp only [List.mem_cons, Prod.mk.injEq, List.not_mem_nil, or_false] at hmem
    rcases hmem with ⟨rfl, _⟩ | ⟨rfl, _⟩ | ⟨rfl, _⟩ | ⟨rfl, _⟩
    · rfl
    · rfl
    · exact hx
    · exact hx
  ⟨hmono, instances_returns_live_tracked_in_order _ _ hmono⟩

end quick_lint_js
